import Mathlib

/-!
# nano-mallocr.c (newlib-ia16): a shallow embedding of the nano allocator

The allocator of `newlib/libc/stdlib/nano-mallocr.c` is embedded over a
byte-addressed memory.  Every function of the C file that the properties below
talk about is translated statement by statement: `sbrk_aligned`, `nano_malloc`,
`nano_free`, `nano_realloc`, `nano_malloc_usable_size`, `nano_memalign` and the
helper `get_chunk_from_ptr`.

* Memory is a map from byte addresses to bytes; a `size_t` or pointer field is a
  little-endian group of bytes, so a store truncates its value to the width of
  the field and overlapping fields really overlap.
* `size_t` arithmetic is taken modulo `2 ^ (8 * sizeof (size_t))`, pointer
  arithmetic modulo `2 ^ (8 * sizeof (void *))`.
* The two loops that walk the free list take a fuel argument; running out of
  fuel is the outcome `diverge`.
* `abort ()` after a diagnostic is the outcome `abort`, which carries the
  diagnostic and the state at the moment of the abort.
-/

namespace NanoMalloc

/-! ## Target data models -/

/-- The data models the file is compiled for: the near-data model of ia16
(16-bit `size_t` and pointers, the target of this repository), and the flat
32-bit and 64-bit models of the upstream file.  In each of them `size_t` and
`void *` have the same width, so `struct malloc_chunk` has no padding between
`size` and `next`, as the comment in `get_chunk_from_ptr` assumes. -/
inductive Target where
  | ia16
  | ilp32
  | lp64
  deriving DecidableEq, Repr

/-- Width in bytes of `void *`. -/
def sizeof_ptr : Target → Nat
  | .ia16 => 2
  | .ilp32 => 4
  | .lp64 => 8

/-- Width in bytes of `size_t` (the type `malloc_size_t`). -/
def sizeof_size_t : Target → Nat
  | .ia16 => 2
  | .ilp32 => 4
  | .lp64 => 8

/-- Width in bytes of `unsigned int`, the type of the literals `1U`, `8U`. -/
def sizeof_uint : Target → Nat
  | .ia16 => 2
  | .ilp32 => 4
  | .lp64 => 4

/-- Number of values of `size_t`: `__SIZE_MAX__ + 1`. -/
def SIZE_MOD (T : Target) : Nat := 2 ^ (8 * sizeof_size_t T)

/-- Number of values of a pointer (of `uintptr_t`). -/
def PTR_MOD (T : Target) : Nat := 2 ^ (8 * sizeof_ptr T)

/-- Number of values of `unsigned int`. -/
def UINT_MOD (T : Target) : Nat := 2 ^ (8 * sizeof_uint T)

/-- The macro `MAX(a,b) ((a) >= (b) ? (a) : (b))`. -/
def MAX (a b : Nat) : Nat := if a ≥ b then a else b

/-- The macro `ALIGN_TO(size, align)`:
`((size) + (align) - (malloc_size_t) 1) & ~ ((align) - (malloc_size_t) 1)`,
computed in `size_t`. -/
def ALIGN_TO (T : Target) (size align : Nat) : Nat :=
  ((size + align - 1) % SIZE_MOD T) &&& (SIZE_MOD T - 1 - (align - 1) % SIZE_MOD T)

/-- The macro `ALIGN_PTR_TO(ptr, align)`, the same computation in `uintptr_t`. -/
def ALIGN_PTR_TO (T : Target) (ptr align : Nat) : Nat :=
  ((ptr + align - 1) % PTR_MOD T) &&& (PTR_MOD T - 1 - (align - 1) % PTR_MOD T)

/-- The macro `MALLOC_ALIGN (8U)`. -/
def MALLOC_ALIGN : Nat := 8

/-- The macro `CHUNK_ALIGN`:
`ALIGN_TO(MAX(sizeof(void*), sizeof(malloc_size_t)), 2U)`. -/
def CHUNK_ALIGN (T : Target) : Nat := ALIGN_TO T (MAX (sizeof_ptr T) (sizeof_size_t T)) 2

/-- The macro `MALLOC_PADDING`: `MAX(MALLOC_ALIGN, CHUNK_ALIGN) - CHUNK_ALIGN`. -/
def MALLOC_PADDING (T : Target) : Nat := MAX MALLOC_ALIGN (CHUNK_ALIGN T) - CHUNK_ALIGN T

/-- The macro `MALLOC_MINSIZE (sizeof(void *))`. -/
def MALLOC_MINSIZE (T : Target) : Nat := sizeof_ptr T

/-- The macro `MALLOC_PAGE_ALIGN (0x1000)`. -/
def MALLOC_PAGE_ALIGN : Nat := 0x1000

/-- The macro `MAX_ALLOC_SIZE (0x80000000U)`. -/
def MAX_ALLOC_SIZE : Nat := 0x80000000

/-- The macro `CHUNK_OFFSET`, the offset of the field `next` in
`struct malloc_chunk`: the field `size` comes first and no padding follows it. -/
def CHUNK_OFFSET (T : Target) : Nat := sizeof_size_t T

/-- The macro `MALLOC_MINCHUNK`:
`CHUNK_OFFSET + MALLOC_PADDING + MALLOC_MINSIZE`. -/
def MALLOC_MINCHUNK (T : Target) : Nat := CHUNK_OFFSET T + MALLOC_PADDING T + MALLOC_MINSIZE T

/-- The value of `ENOMEM` in newlib's `errno.h`. -/
def ENOMEM : Nat := 12

/-! ## Memory -/

/-- Byte-addressed memory: the byte stored at each address. -/
abbrev Mem := Nat → Nat

/-- Read a little-endian field of `w` bytes at address `a`. -/
def load : Nat → Mem → Nat → Nat
  | 0, _, _ => 0
  | w + 1, m, a => m a % 256 + 256 * load w m (a + 1)

/-- Write the low `w` bytes of `v` as a little-endian field at address `a`. -/
def store : Nat → Mem → Nat → Nat → Mem
  | 0, m, _, _ => m
  | w + 1, m, a, v => store w (fun x => if x = a then v % 256 else m x) (a + 1) (v / 256)

/-- The call `memcpy(dst, src, n)` on non-overlapping ranges. -/
def memcpy (m : Mem) (dst src n : Nat) : Mem :=
  fun x => if dst ≤ x ∧ x < dst + n then m (src + (x - dst)) else m x

/-- The call `memset(dst, 0, n)`. -/
def memset_zero (m : Mem) (dst n : Nat) : Mem :=
  fun x => if dst ≤ x ∧ x < dst + n then 0 else m x

/-- Read `c->size`. -/
def chunk_size (T : Target) (m : Mem) (c : Nat) : Nat := load (sizeof_size_t T) m c

/-- Read `c->next`. -/
def chunk_next (T : Target) (m : Mem) (c : Nat) : Nat :=
  load (sizeof_ptr T) m (c + CHUNK_OFFSET T)

/-- The assignment `c->size = v`. -/
def set_size (T : Target) (m : Mem) (c v : Nat) : Mem := store (sizeof_size_t T) m c v

/-- The assignment `c->next = v`. -/
def set_next (T : Target) (m : Mem) (c v : Nat) : Mem :=
  store (sizeof_ptr T) m (c + CHUNK_OFFSET T) v

/-- Pointer plus byte count, `(char *) p + n`. -/
def padd (T : Target) (p n : Nat) : Nat := (p + n) % PTR_MOD T

/-- Pointer minus byte count or pointer difference, `(char *) p - n`. -/
def psub (T : Target) (p n : Nat) : Nat := (p + PTR_MOD T - n % PTR_MOD T) % PTR_MOD T

/-- Subtraction in `size_t`. -/
def ssub (T : Target) (a b : Nat) : Nat := (a + SIZE_MOD T - b % SIZE_MOD T) % SIZE_MOD T

/-- Addition in `size_t`. -/
def sadd (T : Target) (a b : Nat) : Nat := (a + b) % SIZE_MOD T

/-! ## Allocator state and outcomes -/

/-- The process-wide variables of the allocator (`free_list`, `sbrk_start`,
`errno`), the memory, and the state of the region source: the current break
`brk` and the address `heap_end` beyond which the break cannot grow. -/
structure State where
  mem : Mem
  free_list : Nat
  sbrk_start : Nat
  errno : Nat
  brk : Nat
  heap_end : Nat

/-- The diagnostics written to standard error before `abort ()`. -/
inductive Diag where
  | malloc_bogus_heap_chunk_size
  | free_bogus_heap_chunk_size
  | free_possible_double_free
  deriving DecidableEq, Repr

/-- Outcome of a call: it returns (`ok`), it writes a diagnostic and aborts in
the given state (`abort`), or a list walk does not end within the fuel
(`diverge`). -/
inductive Outcome (α : Type) where
  | ok (a : α)
  | abort (d : Diag) (st : State)
  | diverge

/-- Sequencing of calls: an abort or a divergence ends the caller too. -/
def Outcome.bind {α β : Type} (o : Outcome α) (f : α → Outcome β) : Outcome β :=
  match o with
  | .ok a => f a
  | .abort d st => .abort d st
  | .diverge => .diverge

/-- The failure value `(void *) -1` of `_sbrk_r`. -/
def SBRK_FAIL (T : Target) : Nat := PTR_MOD T - 1

/-- Modelled from the spec: the region source `_sbrk_r`, which is not part of
the file.  `break(n)` grows the region by `n` bytes and returns the previous
end of the region; `break(0)` returns the current end; on failure it returns a
sentinel and grants nothing.  The region is contiguous and the source fails
exactly when the break would pass `heap_end`. -/
def sbrk (T : Target) (st : State) (incr : Nat) : State × Nat :=
  if st.brk + incr ≤ st.heap_end then ({ st with brk := st.brk + incr }, st.brk)
  else (st, SBRK_FAIL T)

/-- The function `sbrk_aligned`. -/
def sbrk_aligned (T : Target) (st : State) (s : Nat) : State × Nat :=
  let st0 : State :=
    if st.sbrk_start = 0 then { st with sbrk_start := (sbrk T st 0).2 } else st
  let r1 := sbrk T st0 s
  let p := r1.2
  if p = SBRK_FAIL T then (r1.1, p)
  else
    let align_p := ALIGN_PTR_TO T p (CHUNK_ALIGN T)
    if align_p ≠ p then
      let r2 := sbrk T r1.1 (psub T align_p p)
      if r2.2 = SBRK_FAIL T then (r2.1, r2.2) else (r2.1, align_p)
    else (r1.1, align_p)

/-- The function `get_chunk_from_ptr`. -/
def get_chunk_from_ptr (T : Target) (m : Mem) (ptr : Nat) : Nat :=
  let c := psub T ptr (CHUNK_OFFSET T)
  if chunk_size T m c &&& 1 ≠ 0 then psub T c (chunk_size T m c &&& (UINT_MOD T - 2))
  else c

/-- The function `nano_malloc_usable_size`. -/
def nano_malloc_usable_size (T : Target) (m : Mem) (ptr : Nat) : Nat :=
  let c := psub T ptr (CHUNK_OFFSET T)
  let size_or_offset := chunk_size T m c
  if size_or_offset &&& 1 ≠ 0 then
    let size_or_offset1 := size_or_offset &&& (SIZE_MOD T - 2)
    let c1 := psub T c size_or_offset1
    ssub T (ssub T (chunk_size T m c1) (CHUNK_OFFSET T)) size_or_offset1
  else ssub T (chunk_size T m c) (CHUNK_OFFSET T)

/-! ## nano_malloc -/

/-- Result of the first-fit walk of `nano_malloc`. -/
inductive Walk where
  | done (p q r : Nat)
  | bogus
  | timeout
  deriving DecidableEq, Repr

/-- The loop `while (r)` of `nano_malloc` on the cursors `p`, `q`, `r`. -/
def malloc_walk (T : Target) (m : Mem) (alloc_size : Nat) : Nat → Nat → Nat → Nat → Walk
  | 0, _, _, _ => .timeout
  | fuel + 1, p, q, r =>
    if r = 0 then .done p q r
    else if chunk_size T m r &&& (CHUNK_ALIGN T - 1) ≠ 0 then .bogus
    else if chunk_size T m r ≥ alloc_size then .done p q r
    else malloc_walk T m alloc_size fuel r p (chunk_next T m r)

/-- The computation of `alloc_size` at the head of `nano_malloc`. -/
def request_size (T : Target) (s : Nat) : Nat :=
  MAX (sadd T (sadd T (ALIGN_TO T s (CHUNK_ALIGN T)) (MALLOC_PADDING T)) (CHUNK_OFFSET T))
    (MALLOC_MINCHUNK T)

/-- The block `if (r == NULL)` of `nano_malloc`: ask the region source for more
memory, extending the last free chunk when it ends at the break.  The result is
the new state and, unless the region source failed, the cursors `p` and `r`. -/
def malloc_grow (T : Target) (st : State) (alloc_size p q r : Nat) :
    State × Option (Nat × Nat) :=
  if r = 0 then
    let sbrk_now := (sbrk T st 0).2
    let adjust :=
      if p ≠ 0 ∧ padd T p (chunk_size T st.mem p) = sbrk_now then chunk_size T st.mem p else 0
    let g := sbrk_aligned T st (ssub T alloc_size adjust)
    if g.2 = SBRK_FAIL T then ({ g.1 with errno := ENOMEM }, none)
    else
      let pr : Nat × Nat := if adjust ≠ 0 then (q, p) else if p = 0 then (g.2, g.2) else (p, g.2)
      let m1 := set_size T g.1.mem pr.2 alloc_size
      let m2 := set_next T m1 pr.2 0
      ({ g.1 with mem := m2 }, some pr)
  else (st, some (p, r))

/-- The block `if (rem >= MALLOC_MINCHUNK)` of `nano_malloc`, with
`rem = r->size - alloc_size`: split the chunk `r` when the remainder can hold a
chunk. -/
def malloc_split (T : Target) (m : Mem) (alloc_size r : Nat) : Mem :=
  let rem := ssub T (chunk_size T m r) alloc_size
  if rem ≥ MALLOC_MINCHUNK T then
    let rem_r := padd T r alloc_size
    let ma := set_size T m rem_r rem
    let mb := set_next T ma rem_r (chunk_next T ma r)
    let mc := set_size T mb r alloc_size
    set_next T mc r rem_r
  else m

/-- The rest of `nano_malloc`, from `rem = r->size - alloc_size` on: split the
chunk `r`, unlink it, and compute the user pointer, writing the skip-back
record when the pointer had to move. -/
def malloc_claim (T : Target) (st : State) (alloc_size p r : Nat) : State × Nat :=
  let m1 := malloc_split T st.mem alloc_size r
  let st2 : State :=
    if p = r then { st with mem := m1, free_list := chunk_next T m1 r }
    else { st with mem := set_next T m1 p (chunk_next T m1 r) }
  let ptr := padd T r (CHUNK_OFFSET T)
  let align_ptr := ALIGN_PTR_TO T ptr MALLOC_ALIGN
  let offset := psub T align_ptr ptr
  let m3 : Mem :=
    if offset ≠ 0 then set_size T st2.mem (padd T r offset) (offset ||| 1) else st2.mem
  ({ st2 with mem := m3 }, align_ptr)

/-- The function `nano_malloc`.  A null result is the pointer `0`. -/
def nano_malloc (T : Target) (fuel : Nat) (st : State) (s : Nat) : Outcome (State × Nat) :=
  let alloc_size := request_size T s
  if alloc_size ≥ MAX_ALLOC_SIZE ∨ alloc_size < s then
    .ok ({ st with errno := ENOMEM }, 0)
  else
    match malloc_walk T st.mem alloc_size fuel st.free_list st.free_list st.free_list with
    | .timeout => .diverge
    | .bogus => .abort .malloc_bogus_heap_chunk_size st
    | .done p q r =>
      match malloc_grow T st alloc_size p q r with
      | (st1, none) => .ok (st1, 0)
      | (st1, some (p1, r1)) => .ok (malloc_claim T st1 alloc_size p1 r1)

/-! ## nano_free -/

/-- The loop `do { p = q; q = q->next; } while (q && q <= p_to_free)` of
`nano_free`, started at `q`; the result is the final `(p, q)`. -/
def free_walk (T : Target) (m : Mem) (p_to_free : Nat) : Nat → Nat → Option (Nat × Nat)
  | 0, _ => none
  | fuel + 1, q =>
    let p := q
    let q1 := chunk_next T m q
    if q1 ≠ 0 ∧ q1 ≤ p_to_free then free_walk T m p_to_free fuel q1 else some (p, q1)

/-- The statements of `nano_free` after the walk: merge the chunk with the free
chunk `p` before it and the free chunk `q` after it when they touch, report a
double free when `p` reaches into the chunk, and link the chunk in otherwise. -/
def free_link (T : Target) (st : State) (p_to_free p q : Nat) : Outcome State :=
  if padd T p (chunk_size T st.mem p) = p_to_free then
    let m1 := set_size T st.mem p
      (sadd T (chunk_size T st.mem p) (chunk_size T st.mem p_to_free))
    if padd T p (chunk_size T m1 p) = q then
      let m2 := set_size T m1 p (sadd T (chunk_size T m1 p) (chunk_size T m1 q))
      .ok { st with mem := set_next T m2 p (chunk_next T m2 q) }
    else .ok { st with mem := m1 }
  else if padd T p (chunk_size T st.mem p) > p_to_free then
    .abort .free_possible_double_free st
  else if padd T p_to_free (chunk_size T st.mem p_to_free) = q then
    let m1 := set_size T st.mem p_to_free
      (sadd T (chunk_size T st.mem p_to_free) (chunk_size T st.mem q))
    let m2 := set_next T m1 p_to_free (chunk_next T m1 q)
    .ok { st with mem := set_next T m2 p p_to_free }
  else
    let m1 := set_next T st.mem p_to_free q
    .ok { st with mem := set_next T m1 p p_to_free }

/-- The function `nano_free`. -/
def nano_free (T : Target) (fuel : Nat) (st : State) (free_p : Nat) : Outcome State :=
  if free_p = 0 then .ok st
  else
    let p_to_free := get_chunk_from_ptr T st.mem free_p
    if chunk_size T st.mem p_to_free &&& (CHUNK_ALIGN T - 1) ≠ 0 then
      .abort .free_bogus_heap_chunk_size st
    else if st.free_list = 0 then
      .ok { st with mem := set_next T st.mem p_to_free st.free_list, free_list := p_to_free }
    else if p_to_free < st.free_list then
      if padd T p_to_free (chunk_size T st.mem p_to_free) = st.free_list then
        let m1 := set_size T st.mem p_to_free
          (sadd T (chunk_size T st.mem p_to_free) (chunk_size T st.mem st.free_list))
        let m2 := set_next T m1 p_to_free (chunk_next T m1 st.free_list)
        .ok { st with mem := m2, free_list := p_to_free }
      else
        .ok { st with mem := set_next T st.mem p_to_free st.free_list, free_list := p_to_free }
    else
      match free_walk T st.mem p_to_free fuel st.free_list with
      | none => .diverge
      | some (p, q) => free_link T st p_to_free p q

/-! ## nano_realloc and nano_memalign -/

/-- The function `nano_realloc`. -/
def nano_realloc (T : Target) (fuel : Nat) (st : State) (ptr size : Nat) :
    Outcome (State × Nat) :=
  if ptr = 0 then nano_malloc T fuel st size
  else if size = 0 then
    Outcome.bind (nano_free T fuel st ptr) fun st1 => .ok (st1, 0)
  else
    let old_size := nano_malloc_usable_size T st.mem ptr
    if size ≤ old_size ∧ old_size >>> 1 < size then .ok (st, ptr)
    else
      Outcome.bind (nano_malloc T fuel st size) fun r =>
        if r.2 ≠ 0 then
          let old_size1 := if old_size > size then size else old_size
          let st2 : State := { r.1 with mem := memcpy r.1.mem r.2 ptr old_size1 }
          Outcome.bind (nano_free T fuel st2 ptr) fun st3 => .ok (st3, r.2)
        else .ok (r.1, r.2)

/-- The block `if (offset)` of `nano_memalign`: when the aligned pointer lies
`offset` bytes behind the first payload byte of the chunk, the front of the
chunk is split off and freed if it can hold a chunk, and a skip-back record is
written before the aligned pointer otherwise.  The result is the new state and
`chunk_p`.  Without `DEBUG` the source defines `assert(x)` as `((void)0)`, so
`assert(offset >= sizeof(malloc_size_t))` does nothing. -/
def memalign_front (T : Target) (fuel : Nat) (st : State) (chunk_p offset : Nat) :
    Outcome (State × Nat) :=
  if offset ≠ 0 then
    if offset ≥ MALLOC_MINCHUNK T then
      let front_chunk := chunk_p
      let chunk_p1 := padd T chunk_p offset
      let m1 := set_size T st.mem chunk_p1 (ssub T (chunk_size T st.mem front_chunk) offset)
      let m2 := set_size T m1 front_chunk offset
      let st1 : State := { st with mem := m2 }
      Outcome.bind (nano_free T fuel st1 (padd T front_chunk (CHUNK_OFFSET T)))
        fun st2 => .ok (st2, chunk_p1)
    else
      let m1 := set_size T st.mem (padd T chunk_p offset) (offset ||| 1)
      .ok ({ st with mem := m1 }, chunk_p)
  else .ok (st, chunk_p)

/-- The rest of `nano_memalign`, from `size_allocated = chunk_p->size` on: the
tail of the chunk behind `aligned_p + ma_size` is split off and freed when it
is larger than `MALLOC_MINCHUNK`. -/
def memalign_tail (T : Target) (fuel : Nat) (st : State) (chunk_p aligned_p ma_size : Nat) :
    Outcome (State × Nat) :=
  let size_allocated := chunk_size T st.mem chunk_p
  if padd T chunk_p size_allocated > padd T (padd T aligned_p ma_size) (MALLOC_MINCHUNK T) then
    let tail_chunk := padd T aligned_p ma_size
    let m1 := set_size T st.mem chunk_p (psub T (padd T aligned_p ma_size) chunk_p)
    let m2 := set_size T m1 tail_chunk (ssub T size_allocated (chunk_size T m1 chunk_p))
    let st1 : State := { st with mem := m2 }
    Outcome.bind (nano_free T fuel st1 (padd T tail_chunk (CHUNK_OFFSET T)))
      fun st2 => .ok (st2, aligned_p)
  else .ok (st, aligned_p)

/-- The function `nano_memalign`. -/
def nano_memalign (T : Target) (fuel : Nat) (st : State) (align0 s : Nat) :
    Outcome (State × Nat) :=
  if align0 &&& ((align0 + SIZE_MOD T - 1) % SIZE_MOD T) ≠ 0 then .ok (st, 0)
  else
    let align := MAX align0 MALLOC_ALIGN
    if s > SIZE_MOD T - 1 - CHUNK_ALIGN T then .ok ({ st with errno := ENOMEM }, 0)
    else
      let ma_size := ALIGN_TO T (MAX s (MALLOC_MINSIZE T)) (CHUNK_ALIGN T)
      if ma_size > SIZE_MOD T - 1 - (align - MALLOC_ALIGN) then
        .ok ({ st with errno := ENOMEM }, 0)
      else
        let size_with_padding := ma_size + (align - MALLOC_ALIGN)
        Outcome.bind (nano_malloc T fuel st size_with_padding) fun r =>
          let allocated := r.2
          if allocated = 0 then .ok (r.1, 0)
          else
            let chunk_p := get_chunk_from_ptr T r.1.mem allocated
            let aligned_p := ALIGN_PTR_TO T (padd T chunk_p (CHUNK_OFFSET T)) align
            let offset := psub T aligned_p (padd T chunk_p (CHUNK_OFFSET T))
            Outcome.bind (memalign_front T fuel r.1 chunk_p offset) fun f =>
              memalign_tail T fuel f.1 f.2 aligned_p ma_size

/-! ## The free list as a list of nodes -/

/-- A free-list node: the address of its header and the value of its `size`. -/
abbrev Node := Nat × Nat

/-- The chunks linked by `next` from `h` up to the pointer `e` are exactly the
nodes `l`, in this order and with these sizes. -/
def Seg (T : Target) (m : Mem) : Nat → List Node → Nat → Prop
  | h, [], e => h = e
  | h, n :: l, e => h = n.1 ∧ chunk_size T m n.1 = n.2 ∧ Seg T m (chunk_next T m n.1) l e

/-- The free list that starts at `h` and ends with a null `next` is `l`. -/
def Repr (T : Target) (m : Mem) (h : Nat) (l : List Node) : Prop := Seg T m h l 0

/-- The nodes lie between `lo` and `hi` (each node starts at or after `lo` and
ends before `hi`) in increasing address order, with a gap of at least one byte
between a node and the next, and every size is a multiple of `CHUNK_ALIGN` not
below `MALLOC_MINCHUNK`. -/
def NodesOK (T : Target) (lo hi : Nat) : List Node → Prop
  | [] => True
  | n :: l => lo ≤ n.1 ∧ n.2 % CHUNK_ALIGN T = 0 ∧ MALLOC_MINCHUNK T ≤ n.2 ∧ n.1 + n.2 < hi ∧
      NodesOK T (n.1 + n.2 + 1) hi l

/-- The free list after `nano_free` has put the chunk at `c` of size `sz` into
the free list `l`: the chunk is merged with the node that ends at `c` and with
the node that starts at `c + sz`, and inserted in address order otherwise. -/
def insert_free (c sz : Nat) : List Node → List Node
  | [] => [(c, sz)]
  | n :: rest =>
    if c < n.1 then
      if c + sz = n.1 then (c, sz + n.2) :: rest else (c, sz) :: n :: rest
    else if n.1 + n.2 = c then
      match rest with
      | [] => [(n.1, n.2 + sz)]
      | n2 :: rest2 =>
        if n.1 + n.2 + sz = n2.1 then (n.1, n.2 + sz + n2.2) :: rest2
        else (n.1, n.2 + sz) :: n2 :: rest2
    else n :: insert_free c sz rest

/-- The cursors `(p, q)` of the walk of `nano_malloc` once it has passed the
nodes `l`, having started with the cursors `pq`: `p` is the last node passed
and `q` the one before it. -/
def walk_cursors (pq : Nat × Nat) (l : List Node) : Nat × Nat :=
  l.foldl (fun c k => (k.1, c.1)) pq

/-- The free node left over when `nano_malloc` claims `need` bytes of the node
`n`: the remainder, when it can hold a chunk, and nothing otherwise. -/
def split_node (T : Target) (need : Nat) (n : Node) : List Node :=
  if n.2 - need ≥ MALLOC_MINCHUNK T then [(n.1 + need, n.2 - need)] else []

/-- The size of the chunk `nano_malloc` claims from the node `n`. -/
def claimed_size (T : Target) (need : Nat) (n : Node) : Nat :=
  if n.2 - need ≥ MALLOC_MINCHUNK T then need else n.2

/-- Start of the region granted so far.  `sbrk_start` is captured on the first
grant; before it the region `[region_lo, brk)` is empty. -/
def region_lo (st : State) : Nat := if st.sbrk_start = 0 then st.brk else st.sbrk_start

/-- The free-list invariants F1 to F4 of the data model, for the free list `l`
of the state `st`. -/
structure WF (T : Target) (st : State) (l : List Node) : Prop where
  repr : Repr T st.mem st.free_list l
  F1 : l.Pairwise (fun a b => a.1 < b.1)
  F2 : l.Chain' (fun a b => a.1 + a.2 < b.1)
  F3 : ∀ n ∈ l, n.2 % CHUNK_ALIGN T = 0 ∧ MALLOC_MINCHUNK T ≤ n.2
  F4 : ∀ n ∈ l, region_lo st ≤ n.1 ∧ n.1 + n.2 ≤ st.brk

/-- The three ways in which `nano_malloc` obtains the chunk at `c` of size `sz`
for a request of `need` bytes, from the free list `l` to the free list `l1`:
the first node that is large enough, split when the remainder can hold a chunk;
the last node, extended by the region source, when no node is large enough and
the last node ends at the break; a new block from the region source otherwise. -/
def MallocStep (T : Target) (st : State) (l : List Node) (need : Nat) (st1 : State)
    (l1 : List Node) (c sz : Nat) : Prop :=
  (∃ pre n l2, l = pre ++ n :: l2 ∧ (∀ k ∈ pre, k.2 < need) ∧ need ≤ n.2 ∧ c = n.1 ∧
    sz = claimed_size T need n ∧ l1 = pre ++ split_node T need n ++ l2 ∧
    st1.brk = st.brk ∧ st1.sbrk_start = st.sbrk_start) ∨
  ((∀ k ∈ l, k.2 < need) ∧ ∃ a, l = l1 ++ [a] ∧ a.1 + a.2 = st.brk ∧ c = a.1 ∧ sz = need ∧
    c + need ≤ st1.brk ∧ st1.brk < c + need + CHUNK_ALIGN T ∧
    (c % CHUNK_ALIGN T = 0 → st1.brk = c + need) ∧ st1.sbrk_start = region_lo st) ∨
  ((∀ k ∈ l, k.2 < need) ∧ (∀ a ∈ l.getLast?, a.1 + a.2 ≠ st.brk) ∧ l1 = l ∧ st.brk ≤ c ∧
    c < st.brk + CHUNK_ALIGN T ∧ c % CHUNK_ALIGN T = 0 ∧ sz = need ∧ st1.brk = c + need ∧
    st1.sbrk_start = region_lo st)

/-- The size of the last free node when it ends at the break, and `0`
otherwise: the value of `adjust` in `nano_malloc`. -/
def tail_adjust (brk : Nat) (l : List Node) : Nat :=
  match l.getLast? with
  | some a => if a.1 + a.2 = brk then a.2 else 0
  | none => 0

/-- The header of the chunk at `c` reads `sz`, and the user pointer `u` either
follows the header directly or is preceded by a skip-back record that holds the
distance from the record back to `c`, with the low bit set. -/
def UserPtr (T : Target) (m : Mem) (c sz u : Nat) : Prop :=
  chunk_size T m c = sz ∧
  (u = c + sizeof_size_t T ∨
    (c + 2 * sizeof_size_t T ≤ u ∧
      chunk_size T m (u - sizeof_size_t T) = (u - sizeof_size_t T - c) ||| 1))

/-- Every free-list node starts at a multiple of `CHUNK_ALIGN`: it is a valid
`chunk *`. -/
def NodesAligned (T : Target) (l : List Node) : Prop := ∀ n ∈ l, n.1 % CHUNK_ALIGN T = 0

/-- Assumptions on the region source: the break is a non-null address, it has
not passed `heap_end`, `heap_end` is an address below the failure value, and
the break has not moved below the start of the region. -/
structure Env (T : Target) (st : State) : Prop where
  brk_pos : 0 < st.brk
  brk_le : st.brk ≤ st.heap_end
  end_lt : st.heap_end < PTR_MOD T
  start_le : st.sbrk_start ≤ st.brk

/-- The chunk at `c` is live: its header is chunk-aligned, its size is a
multiple of `CHUNK_ALIGN` not below `MALLOC_MINCHUNK`, it lies inside the
region and it overlaps no node of the free list `l`. -/
structure LiveChunk (T : Target) (st : State) (l : List Node) (c : Nat) : Prop where
  aligned : c % CHUNK_ALIGN T = 0
  size_mod : chunk_size T st.mem c % CHUNK_ALIGN T = 0
  size_min : MALLOC_MINCHUNK T ≤ chunk_size T st.mem c
  lo : region_lo st ≤ c
  hi : c + chunk_size T st.mem c ≤ st.brk
  disjoint : ∀ n ∈ l, n.1 + n.2 ≤ c ∨ c + chunk_size T st.mem c ≤ n.1

/-- Sum of the sizes of the nodes: the free-list total byte count. -/
def total (l : List Node) : Nat := (l.map Prod.snd).sum

/-- The byte at address `x` belongs to a node of `l`. -/
def Covered (l : List Node) (x : Nat) : Prop := ∃ n ∈ l, n.1 ≤ x ∧ x < n.1 + n.2

/-! ## Decision procedures, live pointers and example states -/

/-- Whether a list segment is the given list of nodes can be computed. -/
instance Seg.decide (T : Target) (m : Mem) : ∀ (h : Nat) (l : List Node) (e : Nat),
    Decidable (Seg T m h l e)
  | h, [], e => inferInstanceAs (Decidable (h = e))
  | h, n :: l, e =>
    have := Seg.decide T m (chunk_next T m n.1) l e
    inferInstanceAs (Decidable (h = n.1 ∧ chunk_size T m n.1 = n.2 ∧
      Seg T m (chunk_next T m n.1) l e))

/-- Whether the free list is the given list of nodes can be computed. -/
instance Repr.decide (T : Target) (m : Mem) (h : Nat) (l : List Node) :
    Decidable (Repr T m h l) :=
  Seg.decide T m h l 0

/-- The interval form of the invariants can be computed. -/
instance NodesOK.decide (T : Target) (hi : Nat) : ∀ (lo : Nat) (l : List Node),
    Decidable (NodesOK T lo hi l)
  | _, [] => inferInstanceAs (Decidable True)
  | lo, n :: l =>
    have := NodesOK.decide T hi (n.1 + n.2 + 1) l
    inferInstanceAs (Decidable (lo ≤ n.1 ∧ n.2 % CHUNK_ALIGN T = 0 ∧ MALLOC_MINCHUNK T ≤ n.2 ∧
      n.1 + n.2 < hi ∧ NodesOK T (n.1 + n.2 + 1) hi l))

/-- The user pointer `u` is a live allocation owned by the chunk at `c`: the
chunk is live, `u` is a chunk-aligned address inside it that leaves room for
`MALLOC_MINSIZE` bytes of payload, and `u` either follows the header directly
or is preceded by a skip-back record whose distance to the header is below
`MALLOC_MINCHUNK` (a larger distance is split off as a chunk of its own). -/
structure LivePtr (T : Target) (st : State) (l : List Node) (c u : Nat) : Prop where
  chunk : LiveChunk T st l c
  user : UserPtr T st.mem c (chunk_size T st.mem c) u
  aligned : u % CHUNK_ALIGN T = 0
  near : u < c + sizeof_size_t T + MALLOC_MINCHUNK T
  payload : u + MALLOC_MINSIZE T ≤ c + chunk_size T st.mem c

/-- The pointer a call returned, and the null pointer when it did not return. -/
def Outcome.ptr : Outcome (State × Nat) → Nat
  | .ok r => r.2
  | _ => 0

/-- The state a call returned in; the initial state `st` when it did not
return. -/
def Outcome.state (st : State) : Outcome (State × Nat) → State
  | .ok r => r.1
  | _ => st

/-- The diagnostic a call aborted with. -/
def Outcome.diag {α : Type} : Outcome α → Option Diag
  | .abort d _ => some d
  | _ => none

/-- The call returned. -/
def Outcome.returns {α : Type} : Outcome α → Bool
  | .ok _ => true
  | _ => false

/-- The empty initial state: no free list, no region yet, zeroed memory, the
break at `brk`, and a region source that succeeds up to `heap_end`. -/
def init_state (brk heap_end : Nat) : State :=
  { mem := fun _ => 0, free_list := 0, sbrk_start := 0, errno := 0, brk := brk,
    heap_end := heap_end }

/-- An example heap of the 64-bit target: the region `[4096, 4160)` with a
free chunk of 16 bytes at 4096, a live chunk of 24 bytes at 4112 whose user
pointer 4120 follows the header, and a live chunk of 24 bytes at 4136 whose
user pointer 4152 is preceded by the skip-back record `8 | 1` at 4144. -/
def heap64 : State :=
  { mem := fun x => if x = 4096 then 16 else if x = 4112 then 24 else if x = 4136 then 24
      else if x = 4144 then 9 else 0,
    free_list := 4096, sbrk_start := 4096, errno := 0, brk := 4160, heap_end := 65536 }

/-- The value a call returned; `d` when it did not return. -/
def Outcome.val {α : Type} (d : α) : Outcome α → α
  | .ok a => a
  | _ => d

/-- Scenario 3 of the specification, run from the state `st`:
`p = malloc(1000); q = realloc(p, 500); q2 = realloc(q, 100)`.  The result is
the three pointers `(p, q, q2)`, or `none` when one of the calls does not
return. -/
def scenario3 (T : Target) (fuel : Nat) (st : State) : Option (Nat × Nat × Nat) :=
  match nano_malloc T fuel st 1000 with
  | .ok (st1, p) =>
    match nano_realloc T fuel st1 p 500 with
    | .ok (st2, q) =>
      match nano_realloc T fuel st2 q 100 with
      | .ok (_, q2) => some (p, q, q2)
      | _ => none
    | _ => none
  | _ => none

/-! ## nano_calloc and the request size of the specification -/

/-- The function `nano_calloc`.  `__builtin_mul_overflow (n, elem, &bytes)` is
true exactly when the product does not fit `size_t`. -/
def nano_calloc (T : Target) (fuel : Nat) (st : State) (n elem : Nat) : Outcome (State × Nat) :=
  if n * elem ≥ SIZE_MOD T then .ok ({ st with errno := ENOMEM }, 0)
  else
    let bytes := n * elem
    Outcome.bind (nano_malloc T fuel st bytes) fun r =>
      if r.2 ≠ 0 then .ok ({ r.1 with mem := memset_zero r.1.mem r.2 bytes }, r.2)
      else .ok (r.1, r.2)

/-- Rounding up to a multiple of `a` in unbounded integers: the `align_up` of
the specification. -/
def align_up (s a : Nat) : Nat := (s + a - 1) / a * a

/-- The request size of the specification, computed in unbounded integers:
`max(MIN_CHUNK, align_up(s, CHUNK_ALIGN) + PAD + HEADER_BYTES)`. -/
def need_exact (T : Target) (s : Nat) : Nat :=
  max (MALLOC_MINCHUNK T) (align_up s (CHUNK_ALIGN T) + MALLOC_PADDING T + CHUNK_OFFSET T)

/-- The calls `p1 = malloc(s1); p2 = malloc(s2); ...` for the request sizes of
the list, in order; the result is the final state and the pointers returned. -/
def malloc_all (T : Target) (fuel : Nat) : State → List Nat → Outcome (State × List Nat)
  | st, [] => .ok (st, [])
  | st, s :: ss =>
    Outcome.bind (nano_malloc T fuel st s) fun r =>
      Outcome.bind (malloc_all T fuel r.1 ss) fun r2 => .ok (r2.1, r.2 :: r2.2)

/-- The calls `free(p1); free(p2); ...` for the pointers of the list, in
order. -/
def free_all (T : Target) (fuel : Nat) : State → List Nat → Outcome State
  | st, [] => .ok st
  | st, p :: ps => Outcome.bind (nano_free T fuel st p) fun st1 => free_all T fuel st1 ps

/-- A block: the address of the chunk, its size, and its user pointer. -/
abbrev Block := Nat × Nat × Nat

/-- The block is a live allocation of the state: its user pointer is a live
pointer of its chunk, and the header holds its size. -/
def LiveBlock (T : Target) (st : State) (l : List Node) (b : Block) : Prop :=
  LivePtr T st l b.1 b.2.2 ∧ chunk_size T st.mem b.1 = b.2.1

/-- The chunks of the blocks lie one after the other from `a` to `b`. -/
def Tile : Nat → List Block → Nat → Prop
  | a, [], b => a = b
  | a, blk :: rest, b => blk.1 = a ∧ Tile (a + blk.2.1) rest b

/-- An example heap of the 64-bit target whose last free node ends at the
break: the region `[4096, 4160)` with a live chunk of 24 bytes at 4096, whose
user pointer 4104 follows the header, and a free chunk of 40 bytes at 4120. -/
def heap_tail : State :=
  { mem := fun x => if x = 4096 then 24 else if x = 4120 then 40 else 0,
    free_list := 4120, sbrk_start := 4096, errno := 0, brk := 4160, heap_end := 65536 }

/-! # Lemmas -/

/-! ## Constants of the three data models -/

theorem consts :
    (sizeof_ptr .ia16 = 2 ∧ sizeof_size_t .ia16 = 2 ∧ sizeof_uint .ia16 = 2 ∧
      CHUNK_ALIGN .ia16 = 2 ∧ MALLOC_PADDING .ia16 = 6 ∧ MALLOC_MINCHUNK .ia16 = 10 ∧
      CHUNK_OFFSET .ia16 = 2 ∧ MALLOC_MINSIZE .ia16 = 2 ∧ SIZE_MOD .ia16 = 65536 ∧
      PTR_MOD .ia16 = 65536 ∧ UINT_MOD .ia16 = 65536 ∧ SBRK_FAIL .ia16 = 65535) ∧
    (sizeof_ptr .ilp32 = 4 ∧ sizeof_size_t .ilp32 = 4 ∧ sizeof_uint .ilp32 = 4 ∧
      CHUNK_ALIGN .ilp32 = 4 ∧ MALLOC_PADDING .ilp32 = 4 ∧ MALLOC_MINCHUNK .ilp32 = 12 ∧
      CHUNK_OFFSET .ilp32 = 4 ∧ MALLOC_MINSIZE .ilp32 = 4 ∧ SIZE_MOD .ilp32 = 4294967296 ∧
      PTR_MOD .ilp32 = 4294967296 ∧ UINT_MOD .ilp32 = 4294967296 ∧
      SBRK_FAIL .ilp32 = 4294967295) ∧
    (sizeof_ptr .lp64 = 8 ∧ sizeof_size_t .lp64 = 8 ∧ sizeof_uint .lp64 = 4 ∧
      CHUNK_ALIGN .lp64 = 8 ∧ MALLOC_PADDING .lp64 = 0 ∧ MALLOC_MINCHUNK .lp64 = 16 ∧
      CHUNK_OFFSET .lp64 = 8 ∧ MALLOC_MINSIZE .lp64 = 8 ∧
      SIZE_MOD .lp64 = 18446744073709551616 ∧ PTR_MOD .lp64 = 18446744073709551616 ∧
      UINT_MOD .lp64 = 4294967296 ∧ SBRK_FAIL .lp64 = 18446744073709551615) ∧
    MALLOC_ALIGN = 8 ∧ MAX_ALLOC_SIZE = 2147483648 := by
  decide

theorem chunk_align_eq (T : Target) : CHUNK_ALIGN T = sizeof_size_t T := by
  cases T <;> decide

theorem chunk_offset_eq (T : Target) : CHUNK_OFFSET T = sizeof_size_t T := rfl

theorem sizeof_ptr_eq (T : Target) : sizeof_ptr T = sizeof_size_t T := by
  cases T <;> rfl

theorem ptr_mod_eq (T : Target) : PTR_MOD T = SIZE_MOD T := by
  cases T <;> rfl

theorem minchunk_eq (T : Target) : MALLOC_MINCHUNK T = sizeof_size_t T + 8 := by
  cases T <;> decide

theorem padding_eq (T : Target) : MALLOC_PADDING T = 8 - sizeof_size_t T := by
  cases T <;> decide

theorem sizeof_pos (T : Target) : 2 ≤ sizeof_size_t T ∧ sizeof_size_t T ≤ 8 := by
  cases T <;> decide

theorem size_mod_ge (T : Target) : 65536 ≤ SIZE_MOD T := by
  cases T <;> decide

/-! ## Masks -/

theorem mask_high (x n k : Nat) (hx : x < 2 ^ n) (hk : k ≤ n) :
    x &&& (2 ^ n - 1 - (2 ^ k - 1)) = x / 2 ^ k * 2 ^ k := by
  have h1 : 2 ^ n - 1 - (2 ^ k - 1) = 2 ^ k * (2 ^ (n - k) - 1) := by
    have hp : 2 ^ n = 2 ^ k * 2 ^ (n - k) := by
      rw [← pow_add]; congr 1; omega
    have h2 : 0 < 2 ^ k := Nat.two_pow_pos _
    have h3 : 0 < 2 ^ (n - k) := Nat.two_pow_pos _
    rw [Nat.mul_sub, ← hp]; omega
  apply Nat.eq_of_testBit_eq
  intro j
  rw [h1, Nat.testBit_and, Nat.mul_comm (x / 2 ^ k), Nat.testBit_mul_pow_two,
    Nat.testBit_mul_pow_two, Nat.testBit_two_pow_sub_one, ← Nat.shiftRight_eq_div_pow,
    Nat.testBit_shiftRight]
  by_cases hj : k ≤ j
  · have e : k + (j - k) = j := by omega
    simp only [hj, e, ge_iff_le, decide_True, Bool.true_and]
    by_cases hjn : j < n
    · have : j - k < n - k := by omega
      simp [this]
    · have : ¬ (j - k < n - k) := by omega
      have hx2 : x.testBit j = false := by
        apply Nat.testBit_lt_two_pow
        exact lt_of_lt_of_le hx (Nat.pow_le_pow_right (by decide) (by omega))
      simp [this, hx2]
  · simp [hj]

theorem mask_high_mod (x n k : Nat) (hx : x < 2 ^ n) (hk : k ≤ n) :
    x &&& (2 ^ n - 1 - (2 ^ k - 1)) = x - x % 2 ^ k := by
  rw [mask_high x n k hx hk]
  have := Nat.div_add_mod x (2 ^ k)
  have h2 := Nat.mul_comm (2 ^ k) (x / 2 ^ k)
  omega

/-- Rounding up in `size_t` to a power of two. -/
theorem align_to_pow (T : Target) (s k : Nat) (hk : k ≤ 8 * sizeof_size_t T) :
    ALIGN_TO T s (2 ^ k) =
      (s + 2 ^ k - 1) % SIZE_MOD T - ((s + 2 ^ k - 1) % SIZE_MOD T) % 2 ^ k := by
  unfold ALIGN_TO SIZE_MOD
  have h1 : (2 ^ k - 1) % 2 ^ (8 * sizeof_size_t T) = 2 ^ k - 1 := by
    apply Nat.mod_eq_of_lt
    have := Nat.pow_le_pow_right (show 0 < 2 by decide) hk
    have := Nat.two_pow_pos k
    omega
  rw [h1]
  exact mask_high_mod _ _ _ (Nat.mod_lt _ (Nat.two_pow_pos _)) hk

/-- Rounding a pointer up to a power of two. -/
theorem align_ptr_to_pow (T : Target) (p k : Nat) (hk : k ≤ 8 * sizeof_ptr T) :
    ALIGN_PTR_TO T p (2 ^ k) =
      (p + 2 ^ k - 1) % PTR_MOD T - ((p + 2 ^ k - 1) % PTR_MOD T) % 2 ^ k := by
  unfold ALIGN_PTR_TO PTR_MOD
  have h1 : (2 ^ k - 1) % 2 ^ (8 * sizeof_ptr T) = 2 ^ k - 1 := by
    apply Nat.mod_eq_of_lt
    have := Nat.pow_le_pow_right (show 0 < 2 by decide) hk
    have := Nat.two_pow_pos k
    omega
  rw [h1]
  exact mask_high_mod _ _ _ (Nat.mod_lt _ (Nat.two_pow_pos _)) hk

theorem align_to_chunk (T : Target) (s : Nat) :
    ALIGN_TO T s (CHUNK_ALIGN T) =
      (s + CHUNK_ALIGN T - 1) % SIZE_MOD T -
        ((s + CHUNK_ALIGN T - 1) % SIZE_MOD T) % CHUNK_ALIGN T := by
  cases T
  · exact align_to_pow .ia16 s 1 (by decide)
  · exact align_to_pow .ilp32 s 2 (by decide)
  · exact align_to_pow .lp64 s 3 (by decide)

theorem align_ptr_to_chunk (T : Target) (p : Nat) :
    ALIGN_PTR_TO T p (CHUNK_ALIGN T) =
      (p + CHUNK_ALIGN T - 1) % PTR_MOD T -
        ((p + CHUNK_ALIGN T - 1) % PTR_MOD T) % CHUNK_ALIGN T := by
  cases T
  · exact align_ptr_to_pow .ia16 p 1 (by decide)
  · exact align_ptr_to_pow .ilp32 p 2 (by decide)
  · exact align_ptr_to_pow .lp64 p 3 (by decide)

theorem align_ptr_to_malloc (T : Target) (p : Nat) :
    ALIGN_PTR_TO T p MALLOC_ALIGN =
      (p + 8 - 1) % PTR_MOD T - ((p + 8 - 1) % PTR_MOD T) % 8 := by
  have h := align_ptr_to_pow T p 3 (by cases T <;> decide)
  simpa [MALLOC_ALIGN] using h

/-- The test `x & (CHUNK_ALIGN - 1U)` is the test `x % CHUNK_ALIGN`. -/
theorem and_chunk_mask (T : Target) (x : Nat) :
    x &&& (CHUNK_ALIGN T - 1) = x % CHUNK_ALIGN T := by
  cases T
  · exact Nat.and_pow_two_sub_one_eq_mod x 1
  · exact Nat.and_pow_two_sub_one_eq_mod x 2
  · exact Nat.and_pow_two_sub_one_eq_mod x 3

theorem and_uint_mask (T : Target) (x : Nat) (hx : x < UINT_MOD T) :
    x &&& (UINT_MOD T - 2) = x - x % 2 := by
  have h := mask_high_mod x (8 * sizeof_uint T) 1 hx (by cases T <;> decide)
  have e : 2 ^ (8 * sizeof_uint T) - 1 - (2 ^ 1 - 1) = UINT_MOD T - 2 := by
    unfold UINT_MOD; omega
  rw [e] at h
  simpa using h

theorem and_size_mask (T : Target) (x : Nat) (hx : x < SIZE_MOD T) :
    x &&& (SIZE_MOD T - 2) = x - x % 2 := by
  have h := mask_high_mod x (8 * sizeof_size_t T) 1 hx (by cases T <;> decide)
  have e : 2 ^ (8 * sizeof_size_t T) - 1 - (2 ^ 1 - 1) = SIZE_MOD T - 2 := by
    unfold SIZE_MOD; omega
  rw [e] at h
  simpa using h

theorem or_one_even (x : Nat) (h : x % 2 = 0) : x ||| 1 = x + 1 := by
  apply Nat.eq_of_testBit_eq
  intro j
  rw [Nat.testBit_or]
  cases j with
  | zero =>
    have : (x + 1) % 2 = 1 := by omega
    simp [Nat.testBit_zero, h, this]
  | succ j =>
    have e1 : (x + 1) / 2 = x / 2 := by omega
    simp [Nat.testBit_succ, e1]

/-! ## Loads and stores -/

theorem store_outside (w : Nat) : ∀ (m : Mem) (a v x : Nat), x < a ∨ a + w ≤ x →
    store w m a v x = m x := by
  induction w with
  | zero => intro m a v x _; rfl
  | succ w ih =>
    intro m a v x h
    rw [store, ih _ _ _ _ (by omega)]
    have : x ≠ a := by omega
    simp [this]

theorem load_congr (w : Nat) : ∀ (m1 m : Mem) (a : Nat),
    (∀ x, a ≤ x → x < a + w → m1 x = m x) → load w m1 a = load w m a := by
  induction w with
  | zero => intro m1 m a _; rfl
  | succ w ih =>
    intro m1 m a h
    rw [load, load, h a (by omega) (by omega),
      ih m1 m (a + 1) (fun x h1 h2 => h x (by omega) (by omega))]

theorem load_store_same (w : Nat) : ∀ (m : Mem) (a v : Nat),
    load w (store w m a v) a = v % 256 ^ w := by
  induction w with
  | zero => intro m a v; simp [load, Nat.mod_one]
  | succ w ih =>
    intro m a v
    rw [load, store, ih, store_outside w _ _ _ _ (by omega), pow_succ', Nat.mod_mul]
    simp

theorem load_lt (w : Nat) : ∀ (m : Mem) (a : Nat), load w m a < 256 ^ w := by
  induction w with
  | zero => intro m a; simp [load]
  | succ w ih =>
    intro m a
    have h1 := ih m (a + 1)
    have h2 : m a % 256 < 256 := Nat.mod_lt _ (by decide)
    rw [load, pow_succ]
    omega

theorem pow256_size (T : Target) : 256 ^ sizeof_size_t T = SIZE_MOD T := by
  cases T <;> decide

theorem pow256_ptr (T : Target) : 256 ^ sizeof_ptr T = SIZE_MOD T := by
  cases T <;> decide

theorem chunk_size_lt (T : Target) (m : Mem) (c : Nat) : chunk_size T m c < SIZE_MOD T := by
  have := load_lt (sizeof_size_t T) m c
  rwa [pow256_size] at this

theorem chunk_next_lt (T : Target) (m : Mem) (c : Nat) : chunk_next T m c < SIZE_MOD T := by
  have := load_lt (sizeof_ptr T) m (c + CHUNK_OFFSET T)
  rwa [pow256_ptr] at this

theorem size_set_size (T : Target) (m : Mem) (c v : Nat) :
    chunk_size T (set_size T m c v) c = v % SIZE_MOD T := by
  unfold chunk_size set_size
  rw [load_store_same, pow256_size]

theorem next_set_next (T : Target) (m : Mem) (c v : Nat) :
    chunk_next T (set_next T m c v) c = v % SIZE_MOD T := by
  unfold chunk_next set_next
  rw [load_store_same, pow256_ptr]

theorem set_size_apply (T : Target) (m : Mem) (c v x : Nat)
    (h : x < c ∨ c + sizeof_size_t T ≤ x) : set_size T m c v x = m x :=
  store_outside _ _ _ _ _ h

theorem set_next_apply (T : Target) (m : Mem) (c v x : Nat)
    (h : x < c + sizeof_size_t T ∨ c + 2 * sizeof_size_t T ≤ x) : set_next T m c v x = m x := by
  unfold set_next
  apply store_outside
  rw [chunk_offset_eq, sizeof_ptr_eq]
  omega

theorem chunk_size_congr (T : Target) (m1 m : Mem) (a : Nat)
    (h : ∀ x, a ≤ x → x < a + sizeof_size_t T → m1 x = m x) :
    chunk_size T m1 a = chunk_size T m a :=
  load_congr _ _ _ _ h

theorem chunk_next_congr (T : Target) (m1 m : Mem) (a : Nat)
    (h : ∀ x, a + sizeof_size_t T ≤ x → x < a + 2 * sizeof_size_t T → m1 x = m x) :
    chunk_next T m1 a = chunk_next T m a := by
  unfold chunk_next
  apply load_congr
  intro x h1 h2
  rw [chunk_offset_eq] at h1 h2
  rw [sizeof_ptr_eq] at h2
  exact h x h1 (by omega)

theorem size_set_size_ne (T : Target) (m : Mem) (c v a : Nat)
    (h : a + sizeof_size_t T ≤ c ∨ c + sizeof_size_t T ≤ a) :
    chunk_size T (set_size T m c v) a = chunk_size T m a :=
  chunk_size_congr T _ _ _ fun x h1 h2 => set_size_apply T m c v x (by omega)

theorem size_set_next_ne (T : Target) (m : Mem) (c v a : Nat)
    (h : a ≤ c ∨ c + 2 * sizeof_size_t T ≤ a) :
    chunk_size T (set_next T m c v) a = chunk_size T m a :=
  chunk_size_congr T _ _ _ fun x h1 h2 => set_next_apply T m c v x (by omega)

theorem next_set_size_ne (T : Target) (m : Mem) (c v a : Nat)
    (h : a + 2 * sizeof_size_t T ≤ c ∨ c ≤ a) :
    chunk_next T (set_size T m c v) a = chunk_next T m a :=
  chunk_next_congr T _ _ _ fun x h1 h2 => set_size_apply T m c v x (by omega)

theorem next_set_next_ne (T : Target) (m : Mem) (c v a : Nat)
    (h : a + sizeof_size_t T ≤ c ∨ c + sizeof_size_t T ≤ a) :
    chunk_next T (set_next T m c v) a = chunk_next T m a :=
  chunk_next_congr T _ _ _ fun x h1 h2 => set_next_apply T m c v x (by omega)

/-! ## Modular pointer and size arithmetic without wrap-around -/

theorem padd_eq (T : Target) (p n : Nat) (h : p + n < SIZE_MOD T) : padd T p n = p + n := by
  unfold padd
  rw [ptr_mod_eq]
  exact Nat.mod_eq_of_lt h

theorem psub_eq (T : Target) (p n : Nat) (h1 : n ≤ p) (h2 : p < SIZE_MOD T) :
    psub T p n = p - n := by
  unfold psub
  rw [ptr_mod_eq, Nat.mod_eq_of_lt (show n < SIZE_MOD T by omega)]
  have e : p + SIZE_MOD T - n = (p - n) + SIZE_MOD T := by omega
  rw [e, Nat.add_mod_right]
  exact Nat.mod_eq_of_lt (by omega)

theorem ssub_eq (T : Target) (a b : Nat) (h1 : b ≤ a) (h2 : a < SIZE_MOD T) :
    ssub T a b = a - b := by
  unfold ssub
  rw [Nat.mod_eq_of_lt (show b < SIZE_MOD T by omega)]
  have e : a + SIZE_MOD T - b = (a - b) + SIZE_MOD T := by omega
  rw [e, Nat.add_mod_right]
  exact Nat.mod_eq_of_lt (by omega)

theorem sadd_eq (T : Target) (a b : Nat) (h : a + b < SIZE_MOD T) : sadd T a b = a + b :=
  Nat.mod_eq_of_lt h

/-! ## Lists of nodes -/

theorem add_mod_zero (a b k : Nat) (ha : a % k = 0) (hb : b % k = 0) : (a + b) % k = 0 := by
  rw [Nat.add_mod, ha, hb]; simp

theorem sub_mod_zero (a b k : Nat) (ha : a % k = 0) (hb : b % k = 0) : (a - b) % k = 0 := by
  obtain ⟨x, rfl⟩ := Nat.dvd_of_mod_eq_zero ha
  obtain ⟨y, rfl⟩ := Nat.dvd_of_mod_eq_zero hb
  rw [← Nat.mul_sub]; simp

theorem nodesOK_mono (T : Target) : ∀ (l : List Node) (lo hi lo1 hi1 : Nat),
    lo1 ≤ lo → hi ≤ hi1 → NodesOK T lo hi l → NodesOK T lo1 hi1 l := by
  intro l
  induction l with
  | nil => intros; trivial
  | cons n l ih =>
    intro lo hi lo1 hi1 h1 h2 h
    obtain ⟨a, b, c, d, e⟩ := h
    exact ⟨by omega, b, c, by omega, ih _ _ _ _ (le_refl _) h2 e⟩

theorem nodesOK_covered (T : Target) : ∀ (l : List Node) (lo hi x : Nat),
    NodesOK T lo hi l → Covered l x → lo ≤ x ∧ x < hi := by
  intro l
  induction l with
  | nil => intro lo hi x _ h; obtain ⟨n, hn, _⟩ := h; cases hn
  | cons n l ih =>
    intro lo hi x h hc
    obtain ⟨a, b, c, d, e⟩ := h
    obtain ⟨k, hk, h1, h2⟩ := hc
    rcases List.mem_cons.1 hk with rfl | hk
    · omega
    · have := ih _ _ x e ⟨k, hk, h1, h2⟩
      omega

theorem nodesOK_mem (T : Target) : ∀ (l : List Node) (lo hi : Nat) (k : Node),
    NodesOK T lo hi l → k ∈ l →
    lo ≤ k.1 ∧ k.1 + k.2 < hi ∧ k.2 % CHUNK_ALIGN T = 0 ∧ MALLOC_MINCHUNK T ≤ k.2 := by
  intro l
  induction l with
  | nil => intro lo hi k _ h; cases h
  | cons n l ih =>
    intro lo hi k h hk
    obtain ⟨a, b, c, d, e⟩ := h
    rcases List.mem_cons.1 hk with rfl | hk
    · exact ⟨a, d, b, c⟩
    · have := ih _ _ k e hk
      exact ⟨by omega, this.2⟩

theorem nodesOK_append_left (T : Target) : ∀ (l1 : List Node) (n : Node) (l2 : List Node)
    (lo hi : Nat), NodesOK T lo hi (l1 ++ n :: l2) → NodesOK T lo n.1 l1 := by
  intro l1
  induction l1 with
  | nil => intros; trivial
  | cons k l1 ih =>
    intro n l2 lo hi h
    obtain ⟨a, b, c, d, e⟩ := h
    have h1 := ih n l2 _ _ e
    have h2 := nodesOK_mem T _ _ _ n e (by simp)
    exact ⟨a, b, c, by omega, h1⟩

theorem nodesOK_append_right (T : Target) : ∀ (l1 l2 : List Node) (lo hi : Nat),
    NodesOK T lo hi (l1 ++ l2) → NodesOK T lo hi l2 := by
  intro l1
  induction l1 with
  | nil => intro l2 lo hi h; exact h
  | cons k l1 ih =>
    intro l2 lo hi h
    obtain ⟨a, b, c, d, e⟩ := h
    exact nodesOK_mono T _ _ _ _ _ (by omega) (le_refl _) (ih l2 _ _ e)

theorem nodesOK_join (T : Target) : ∀ (l1 l2 : List Node) (lo mid hi : Nat),
    NodesOK T lo mid l1 → NodesOK T mid hi l2 → lo ≤ mid → mid ≤ hi →
    NodesOK T lo hi (l1 ++ l2) := by
  intro l1
  induction l1 with
  | nil =>
    intro l2 lo mid hi _ h2 h3 _
    exact nodesOK_mono T l2 mid hi lo hi h3 (le_refl _) h2
  | cons k l1 ih =>
    intro l2 lo mid hi h1 h2 _ h4
    obtain ⟨a, b, c, d, e⟩ := h1
    exact ⟨a, b, c, by omega, ih l2 _ mid hi e h2 (by omega) h4⟩

/-! ## List segments in memory -/

theorem seg_append (T : Target) (m : Mem) : ∀ (l1 l2 : List Node) (h e : Nat),
    Seg T m h (l1 ++ l2) e ↔ ∃ x, Seg T m h l1 x ∧ Seg T m x l2 e := by
  intro l1
  induction l1 with
  | nil =>
    intro l2 h e
    constructor
    · intro hs; exact ⟨h, rfl, hs⟩
    · rintro ⟨x, hx, hs⟩
      have : h = x := hx
      subst this; exact hs
  | cons n l1 ih =>
    intro l2 h e
    constructor
    · rintro ⟨a, b, c⟩
      obtain ⟨x, h1, h2⟩ := (ih l2 _ e).1 c
      exact ⟨x, ⟨a, b, h1⟩, h2⟩
    · rintro ⟨x, ⟨a, b, c⟩, h2⟩
      exact ⟨a, b, (ih l2 _ e).2 ⟨x, c, h2⟩⟩

/-- A segment only depends on the bytes of the headers of its nodes. -/
theorem seg_frame (T : Target) (m m1 : Mem) : ∀ (l : List Node) (lo hi h e : Nat),
    NodesOK T lo hi l → (∀ x, lo ≤ x → x < hi → m1 x = m x) →
    Seg T m h l e → Seg T m1 h l e := by
  intro l
  induction l with
  | nil => intro lo hi h e _ _ hs; exact hs
  | cons n l ih =>
    intro lo hi h e hn hf hs
    obtain ⟨a, b, c, d, e1⟩ := hn
    obtain ⟨s1, s2, s3⟩ := hs
    have hW := minchunk_eq T
    have hW2 := sizeof_pos T
    have e2 : chunk_size T m1 n.1 = chunk_size T m n.1 :=
      chunk_size_congr T _ _ _ fun x h1 h2 => hf x (by omega) (by omega)
    have e3 : chunk_next T m1 n.1 = chunk_next T m n.1 :=
      chunk_next_congr T _ _ _ fun x h1 h2 => hf x (by omega) (by omega)
    refine ⟨s1, by rw [e2]; exact s2, ?_⟩
    rw [e3]
    exact ih _ hi _ e e1 (fun x h1 h2 => hf x (by omega) h2) s3

/-! ## The abstract insertion -/

theorem total_cons (n : Node) (l : List Node) : total (n :: l) = n.2 + total l := by
  simp [total]

theorem total_insert (c sz : Nat) : ∀ l : List Node,
    total (insert_free c sz l) = total l + sz := by
  intro l
  induction l with
  | nil => simp [insert_free, total]
  | cons n rest ih =>
    unfold insert_free
    split
    · split <;> simp [total] <;> omega
    · split
      · cases rest with
        | nil => simp [total]
        | cons n2 rest2 =>
          simp only []
          split <;> simp [total] <;> omega
      · rw [total_cons, ih, total_cons]; omega

theorem covered_cons (n : Node) (l : List Node) (x : Nat) :
    Covered (n :: l) x ↔ (n.1 ≤ x ∧ x < n.1 + n.2) ∨ Covered l x := by
  simp [Covered]

theorem covered_nil (x : Nat) : ¬ Covered [] x := by
  simp [Covered]

theorem covered_insert (c sz : Nat) : ∀ (l : List Node) (x : Nat),
    Covered (insert_free c sz l) x ↔ Covered l x ∨ (c ≤ x ∧ x < c + sz) := by
  intro l
  induction l with
  | nil => intro x; simp [insert_free, Covered]
  | cons n rest ih =>
    intro x
    unfold insert_free
    split
    · split
      · simp only [covered_cons]
        constructor
        · rintro (h | h)
          · by_cases hx : x < c + sz
            · right; omega
            · left; left; omega
          · left; right; exact h
        · rintro ((h | h) | h)
          · left; omega
          · right; exact h
          · left; omega
      · simp only [covered_cons]; tauto
    · split
      · cases rest with
        | nil =>
          simp only [covered_cons, covered_nil, or_false]
          constructor
          · intro h
            by_cases hx : x < n.1 + n.2
            · left; omega
            · right; omega
          · rintro (h | h) <;> omega
        | cons n2 rest2 =>
          simp only []
          split
          · simp only [covered_cons]
            constructor
            · rintro (h | h)
              · by_cases hx : x < n.1 + n.2
                · left; left; omega
                · by_cases hx2 : x < c + sz
                  · right; omega
                  · left; right; left; omega
              · left; right; right; exact h
            · rintro ((h | h | h) | h)
              · left; omega
              · left; omega
              · right; exact h
              · left; omega
          · simp only [covered_cons]
            constructor
            · rintro (h | h | h)
              · by_cases hx : x < n.1 + n.2
                · left; left; omega
                · right; omega
              · left; right; left; exact h
              · left; right; right; exact h
            · rintro ((h | h | h) | h)
              · left; omega
              · right; left; exact h
              · right; right; exact h
              · left; omega
      · simp only [covered_cons, ih]; tauto

theorem aligned_insert (T : Target) (c sz : Nat) (hc : c % CHUNK_ALIGN T = 0) :
    ∀ l : List Node, NodesAligned T l → NodesAligned T (insert_free c sz l) := by
  intro l
  induction l with
  | nil =>
    intro _ k hk
    simp [insert_free] at hk
    subst hk; exact hc
  | cons n rest ih =>
    intro ha
    have hn : n.1 % CHUNK_ALIGN T = 0 := ha n (by simp)
    have hr : NodesAligned T rest := fun k hk => ha k (by simp [hk])
    unfold insert_free
    split
    · split
      · intro k hk
        rcases List.mem_cons.1 hk with rfl | hk
        · exact hc
        · exact hr k hk
      · intro k hk
        rcases List.mem_cons.1 hk with rfl | hk
        · exact hc
        · exact ha k hk
    · split
      · cases rest with
        | nil =>
          intro k hk
          simp at hk; subst hk; exact hn
        | cons n2 rest2 =>
          simp only []
          split
          · intro k hk
            rcases List.mem_cons.1 hk with rfl | hk
            · exact hn
            · exact hr k (by simp [hk])
          · intro k hk
            rcases List.mem_cons.1 hk with rfl | hk
            · exact hn
            · exact hr k hk
      · intro k hk
        rcases List.mem_cons.1 hk with rfl | hk
        · exact hn
        · exact ih hr k hk

theorem nodesOK_insert (T : Target) (c sz : Nat) (hi : Nat)
    (hsz : sz % CHUNK_ALIGN T = 0) (hmin : MALLOC_MINCHUNK T ≤ sz) (hhi : c + sz < hi) :
    ∀ (l : List Node) (lo : Nat), NodesOK T lo hi l → lo ≤ c →
      (∀ k ∈ l, k.1 + k.2 ≤ c ∨ c + sz ≤ k.1) → NodesOK T lo hi (insert_free c sz l) := by
  have hca := chunk_align_eq T
  have hW := sizeof_pos T
  have hm := minchunk_eq T
  intro l
  induction l with
  | nil =>
    intro lo _ hlo _
    exact ⟨hlo, hsz, hmin, hhi, trivial⟩
  | cons n rest ih =>
    intro lo hn hlo hd
    obtain ⟨a, b, c1, d, e⟩ := hn
    have hdn := hd n (by simp)
    unfold insert_free
    split
    · rename_i hlt
      split
      · rename_i heq
        refine ⟨hlo, ?_, by omega, by omega, ?_⟩
        · exact add_mod_zero _ _ _ hsz b
        · exact nodesOK_mono T _ _ _ _ _ (by omega) (le_refl _) e
      · exact ⟨hlo, hsz, hmin, hhi, by omega, b, c1, d, e⟩
    · rename_i hge
      split
      · rename_i heq
        cases rest with
        | nil =>
          refine ⟨a, ?_, by omega, by omega, trivial⟩
          exact add_mod_zero _ _ _ b hsz
        | cons n2 rest2 =>
          simp only []
          obtain ⟨a2, b2, c2, d2, e2⟩ := e
          have hd2 := hd n2 (by simp)
          split
          · refine ⟨a, ?_, by omega, by omega, ?_⟩
            · exact add_mod_zero _ _ _ (add_mod_zero _ _ _ b hsz) b2
            · exact nodesOK_mono T _ _ _ _ _ (by omega) (le_refl _) e2
          · refine ⟨a, ?_, by omega, by omega, by omega, b2, c2, d2, e2⟩
            exact add_mod_zero _ _ _ b hsz
      · exact ⟨a, b, c1, d, ih _ e (by omega) (fun k hk => hd k (by simp [hk]))⟩

/-! ## nano_free follows the abstract insertion -/

/-- The statements after the walk of `nano_free`, when the walk has stopped at
the node `n` and the next node, if any, lies above the chunk. -/
theorem free_link_spec (T : Target) (st : State) (c lo hi : Nat)
    (hlo : 0 < lo) (hhi : hi ≤ SIZE_MOD T)
    (hmin : MALLOC_MINCHUNK T ≤ chunk_size T st.mem c)
    (hc : c + chunk_size T st.mem c < hi)
    (n : Node) (rest : List Node)
    (hs : Seg T st.mem n.1 (n :: rest) 0) (hn : NodesOK T lo hi (n :: rest))
    (hnc : n.1 + n.2 ≤ c)
    (hq : ∀ k ∈ rest.head?, c + chunk_size T st.mem c ≤ k.1) :
    ∃ m1, free_link T st c n.1 (chunk_next T st.mem n.1) = .ok { st with mem := m1 } ∧
      Seg T m1 n.1 (insert_free c (chunk_size T st.mem c) (n :: rest)) 0 ∧
      (∀ x, ¬ (c ≤ x ∧ x < c + 2 * sizeof_size_t T) → ¬ Covered (n :: rest) x →
        m1 x = st.mem x) ∧
      (n.1 + n.2 = c → ∀ x, ¬ Covered (n :: rest) x → m1 x = st.mem x) := by
  have hW := sizeof_pos T
  have hm := minchunk_eq T
  obtain ⟨_, s2, s3⟩ := hs
  obtain ⟨a, b, c1, d, e⟩ := hn
  generalize hsz : chunk_size T st.mem c = sz at *
  have ep : padd T n.1 n.2 = n.1 + n.2 := padd_eq T _ _ (by omega)
  have epc : padd T c sz = c + sz := padd_eq T _ _ (by omega)
  have hins : ¬ c < n.1 := by omega
  unfold free_link
  simp only [s2, ep, hsz]
  by_cases heq : n.1 + n.2 = c
  · -- the chunk starts where `n` ends
    have es : sadd T n.2 sz = n.2 + sz := sadd_eq T _ _ (by omega)
    have e1 : chunk_size T (set_size T st.mem n.1 (n.2 + sz)) n.1 = n.2 + sz := by
      rw [size_set_size]; exact Nat.mod_eq_of_lt (by omega)
    have ep2 : padd T n.1 (n.2 + sz) = n.1 + n.2 + sz := by
      rw [padd_eq T _ _ (by omega)]; omega
    simp only [heq, if_true, es, e1, ep2]
    cases rest with
    | nil =>
      have hq0 : chunk_next T st.mem n.1 = 0 := s3
      have hne : ¬ (c + sz = 0) := by omega
      simp only [hq0, hne, if_false]
      refine ⟨_, rfl, ?_, ?_, ?_⟩
      · simp only [insert_free, hins, if_false, heq, if_true]
        refine ⟨rfl, e1, ?_⟩
        show chunk_next T _ n.1 = 0
        rw [next_set_size_ne T _ _ _ _ (by omega)]; exact hq0
      · intro x _ hx
        rw [covered_cons] at hx
        exact set_size_apply T _ _ _ _ (by omega)
      · intro _ x hx
        rw [covered_cons] at hx
        exact set_size_apply T _ _ _ _ (by omega)
    | cons n2 rest2 =>
      obtain ⟨t1, t2, t3⟩ := s3
      obtain ⟨a2, b2, c2, d2, e2⟩ := e
      have hq2 := hq n2 (by simp)
      simp only [t1]
      by_cases heq2 : c + sz = n2.1
      · -- and it ends where the next node starts
        have e3 : chunk_size T (set_size T st.mem n.1 (n.2 + sz)) n2.1 = n2.2 := by
          rw [size_set_size_ne T _ _ _ _ (by omega)]; exact t2
        have es2 : sadd T (n.2 + sz) n2.2 = n.2 + sz + n2.2 := sadd_eq T _ _ (by omega)
        simp only [heq2, if_true, e3, es2]
        refine ⟨_, rfl, ?_, ?_, ?_⟩
        · have hi2 : n.1 + n.2 + sz = n2.1 := by omega
          simp only [insert_free, hins, if_false, heq, if_true, heq2]
          refine ⟨rfl, ?_, ?_⟩
          · show chunk_size T _ n.1 = n.2 + sz + n2.2
            rw [size_set_next_ne T _ _ _ _ (by omega), size_set_size]
            exact Nat.mod_eq_of_lt (by omega)
          · have e4 : chunk_next T (set_size T (set_size T st.mem n.1 (n.2 + sz)) n.1
                (n.2 + sz + n2.2)) n2.1 = chunk_next T st.mem n2.1 := by
              rw [next_set_size_ne T _ _ _ _ (by omega), next_set_size_ne T _ _ _ _ (by omega)]
            show Seg T _ (chunk_next T _ n.1) rest2 0
            rw [next_set_next, e4, Nat.mod_eq_of_lt (chunk_next_lt T _ _)]
            refine seg_frame T st.mem _ rest2 _ hi _ 0 e2 ?_ t3
            intro x h1 h2
            rw [set_next_apply T _ _ _ _ (by omega), set_size_apply T _ _ _ _ (by omega),
              set_size_apply T _ _ _ _ (by omega)]
        · intro x _ hx
          rw [covered_cons] at hx
          rw [set_next_apply T _ _ _ _ (by omega), set_size_apply T _ _ _ _ (by omega),
            set_size_apply T _ _ _ _ (by omega)]
        · intro _ x hx
          rw [covered_cons] at hx
          rw [set_next_apply T _ _ _ _ (by omega), set_size_apply T _ _ _ _ (by omega),
            set_size_apply T _ _ _ _ (by omega)]
      · simp only [heq2, if_false]
        refine ⟨_, rfl, ?_, ?_, ?_⟩
        · have hi2 : ¬ (n.1 + n.2 + sz = n2.1) := by omega
          simp only [insert_free, hins, if_false, heq, if_true, heq2]
          refine ⟨rfl, e1, ?_, ?_, ?_⟩
          · show chunk_next T _ n.1 = n2.1
            rw [next_set_size_ne T _ _ _ _ (by omega)]; exact t1
          · show chunk_size T _ n2.1 = n2.2
            rw [size_set_size_ne T _ _ _ _ (by omega)]; exact t2
          · show Seg T _ (chunk_next T _ n2.1) rest2 0
            rw [next_set_size_ne T _ _ _ _ (by omega)]
            refine seg_frame T st.mem _ rest2 _ hi _ 0 e2 ?_ t3
            intro x h1 h2
            rw [set_size_apply T _ _ _ _ (by omega)]
        · intro x _ hx
          rw [covered_cons] at hx
          exact set_size_apply T _ _ _ _ (by omega)
        · intro _ x hx
          rw [covered_cons] at hx
          exact set_size_apply T _ _ _ _ (by omega)
  · -- a gap separates `n` from the chunk
    have hgt : ¬ (n.1 + n.2 > c) := by omega
    simp only [heq, if_false, hgt, epc]
    cases rest with
    | nil =>
      have hq0 : chunk_next T st.mem n.1 = 0 := s3
      have hne : ¬ (c + sz = 0) := by omega
      simp only [hq0, hne, if_false]
      refine ⟨_, rfl, ?_, ?_, ?_⟩
      · simp only [insert_free, hins, if_false, heq]
        refine ⟨rfl, ?_, ?_, ?_, ?_⟩
        · show chunk_size T _ n.1 = n.2
          rw [size_set_next_ne T _ _ _ _ (by omega), size_set_next_ne T _ _ _ _ (by omega)]
          exact s2
        · show chunk_next T _ n.1 = c
          rw [next_set_next]; exact Nat.mod_eq_of_lt (by omega)
        · show chunk_size T _ c = sz
          rw [size_set_next_ne T _ _ _ _ (by omega), size_set_next_ne T _ _ _ _ (by omega)]
          exact hsz
        · show chunk_next T _ c = 0
          rw [next_set_next_ne T _ _ _ _ (by omega), next_set_next]; rfl
      · intro x hx1 hx
        rw [covered_cons] at hx
        rw [set_next_apply T _ _ _ _ (by omega), set_next_apply T _ _ _ _ (by omega)]
      · intro h
        exact False.elim h
    | cons n2 rest2 =>
      obtain ⟨t1, t2, t3⟩ := s3
      obtain ⟨a2, b2, c2, d2, e2⟩ := e
      have hq2 := hq n2 (by simp)
      have hlt2 : c < n2.1 := by omega
      simp only [t1]
      by_cases heq2 : c + sz = n2.1
      · -- the chunk ends where the next node starts
        have es2 : sadd T sz n2.2 = sz + n2.2 := sadd_eq T _ _ (by omega)
        simp only [heq2, if_true, t2, es2]
        refine ⟨_, rfl, ?_, ?_, ?_⟩
        · simp only [insert_free, hins, if_false, heq, hlt2, if_true, heq2]
          refine ⟨rfl, ?_, ?_, ?_, ?_⟩
          · show chunk_size T _ n.1 = n.2
            rw [size_set_next_ne T _ _ _ _ (by omega), size_set_next_ne T _ _ _ _ (by omega),
              size_set_size_ne T _ _ _ _ (by omega)]
            exact s2
          · show chunk_next T _ n.1 = c
            rw [next_set_next]; exact Nat.mod_eq_of_lt (by omega)
          · show chunk_size T _ c = sz + n2.2
            rw [size_set_next_ne T _ _ _ _ (by omega), size_set_next_ne T _ _ _ _ (by omega),
              size_set_size]
            exact Nat.mod_eq_of_lt (by omega)
          · show Seg T _ (chunk_next T _ c) rest2 0
            rw [next_set_next_ne T _ _ _ _ (by omega), next_set_next,
              next_set_size_ne T _ _ _ _ (by omega), Nat.mod_eq_of_lt (chunk_next_lt T _ _)]
            refine seg_frame T st.mem _ rest2 _ hi _ 0 e2 ?_ t3
            intro x h1 h2
            rw [set_next_apply T _ _ _ _ (by omega), set_next_apply T _ _ _ _ (by omega),
              set_size_apply T _ _ _ _ (by omega)]
        · intro x hx1 hx
          rw [covered_cons] at hx
          rw [set_next_apply T _ _ _ _ (by omega), set_next_apply T _ _ _ _ (by omega),
            set_size_apply T _ _ _ _ (by omega)]
        · intro h
          exact False.elim h
      · simp only [heq2, if_false]
        refine ⟨_, rfl, ?_, ?_, ?_⟩
        · simp only [insert_free, hins, if_false, heq, hlt2, if_true, heq2]
          refine ⟨rfl, ?_, ?_, ?_, ?_, ?_, ?_⟩
          · show chunk_size T _ n.1 = n.2
            rw [size_set_next_ne T _ _ _ _ (by omega), size_set_next_ne T _ _ _ _ (by omega)]
            exact s2
          · show chunk_next T _ n.1 = c
            rw [next_set_next]; exact Nat.mod_eq_of_lt (by omega)
          · show chunk_size T _ c = sz
            rw [size_set_next_ne T _ _ _ _ (by omega), size_set_next_ne T _ _ _ _ (by omega)]
            exact hsz
          · show chunk_next T _ c = n2.1
            rw [next_set_next_ne T _ _ _ _ (by omega), next_set_next]
            exact Nat.mod_eq_of_lt (by omega)
          · show chunk_size T _ n2.1 = n2.2
            rw [size_set_next_ne T _ _ _ _ (by omega), size_set_next_ne T _ _ _ _ (by omega)]
            exact t2
          · show Seg T _ (chunk_next T _ n2.1) rest2 0
            rw [next_set_next_ne T _ _ _ _ (by omega), next_set_next_ne T _ _ _ _ (by omega)]
            refine seg_frame T st.mem _ rest2 _ hi _ 0 e2 ?_ t3
            intro x h1 h2
            rw [set_next_apply T _ _ _ _ (by omega), set_next_apply T _ _ _ _ (by omega)]
        · intro x hx1 hx
          rw [covered_cons] at hx
          rw [set_next_apply T _ _ _ _ (by omega), set_next_apply T _ _ _ _ (by omega)]
        · intro h
          exact False.elim h

/-- The walk of `nano_free` from the node `n`, which lies below the chunk,
followed by the statements after the walk. -/
theorem free_from_spec (T : Target) (st : State) (c lo hi : Nat)
    (hlo : 0 < lo) (hhi : hi ≤ SIZE_MOD T)
    (hmin : MALLOC_MINCHUNK T ≤ chunk_size T st.mem c)
    (hc : c + chunk_size T st.mem c < hi) :
    ∀ (rest : List Node) (n : Node) (fuel : Nat),
      Seg T st.mem n.1 (n :: rest) 0 → NodesOK T lo hi (n :: rest) → n.1 + n.2 ≤ c →
      (∀ k ∈ rest, k.1 + k.2 ≤ c ∨ c + chunk_size T st.mem c ≤ k.1) →
      rest.length < fuel →
      ∃ p q m1, free_walk T st.mem c fuel n.1 = some (p, q) ∧
        free_link T st c p q = .ok { st with mem := m1 } ∧
        Seg T m1 n.1 (insert_free c (chunk_size T st.mem c) (n :: rest)) 0 ∧
        (∀ x, ¬ (c ≤ x ∧ x < c + 2 * sizeof_size_t T) → ¬ Covered (n :: rest) x →
          m1 x = st.mem x) ∧
        ((∃ k ∈ n :: rest, k.1 + k.2 = c) → ∀ x, ¬ Covered (n :: rest) x →
          m1 x = st.mem x) := by
  have hW := sizeof_pos T
  have hm := minchunk_eq T
  intro rest
  induction rest with
  | nil =>
    intro n fuel hs hn hnc hd hf
    obtain ⟨f, rfl⟩ : ∃ f, fuel = f + 1 := ⟨fuel - 1, by simp at hf; omega⟩
    have hq0 : chunk_next T st.mem n.1 = 0 := hs.2.2
    obtain ⟨m1, h1, h2, h3, h5⟩ := free_link_spec T st c lo hi hlo hhi hmin hc n [] hs hn hnc
      (by simp)
    refine ⟨n.1, chunk_next T st.mem n.1, m1, ?_, h1, h2, h3, ?_⟩
    · simp [free_walk, hq0]
    · rintro ⟨k, hk, hkc⟩
      have : k = n := by simpa using hk
      subst this
      exact h5 hkc
  | cons n2 rest2 ih =>
    intro n fuel hs hn hnc hd hf
    obtain ⟨f, rfl⟩ : ∃ f, fuel = f + 1 := ⟨fuel - 1, by simp at hf; omega⟩
    have hq : chunk_next T st.mem n.1 = n2.1 := hs.2.2.1
    have hd2 := hd n2 (by simp)
    obtain ⟨a, b, c1, d, e⟩ := hn
    have e' := e
    obtain ⟨a2, b2, c2, d2, e2⟩ := e'
    by_cases hle : n2.1 ≤ c
    · -- the walk goes on
      have hs2 : Seg T st.mem n2.1 (n2 :: rest2) 0 := by
        have := hs.2.2
        rw [hq] at this
        exact this
      obtain ⟨p, q, m1, h1, h2, h3, h4, h5⟩ := ih n2 f hs2
        (nodesOK_mono T _ _ _ _ _ (by omega) (le_refl _) e) (by omega)
        (fun k hk => hd k (by simp [hk])) (by simp at hf; omega)
      refine ⟨p, q, m1, ?_, h2, ?_, ?_, ?_⟩
      · have hne : n2.1 ≠ 0 := by omega
        simp [free_walk, hq, hne, hle, h1]
      · have hins : ¬ c < n.1 := by omega
        have hne : ¬ (n.1 + n.2 = c) := by omega
        have e5 : insert_free c (chunk_size T st.mem c) (n :: n2 :: rest2) =
            n :: insert_free c (chunk_size T st.mem c) (n2 :: rest2) := by
          simp only [insert_free, hins, if_false, hne]
        rw [e5]
        have hout : ∀ x, n.1 ≤ x → x < n.1 + n.2 → m1 x = st.mem x := by
          intro x hx1 hx2
          refine h4 x (by omega) ?_
          intro hcov
          have := nodesOK_covered T _ _ _ x e hcov
          omega
        refine ⟨rfl, ?_, ?_⟩
        · rw [chunk_size_congr T m1 st.mem n.1 (fun x h1 h2 => hout x (by omega) (by omega))]
          exact hs.2.1
        · rw [chunk_next_congr T m1 st.mem n.1 (fun x h1 h2 => hout x (by omega) (by omega)),
            hq]
          exact h3
      · intro x hx1 hx2
        refine h4 x hx1 ?_
        intro hcov
        exact hx2 ((covered_cons n _ x).2 (Or.inr hcov))
      · rintro ⟨k, hk, hkc⟩ x hx2
        rcases List.mem_cons.1 hk with hkn | hkr
        · subst hkn
          omega
        · refine h5 ⟨k, hkr, hkc⟩ x ?_
          intro hcov
          exact hx2 ((covered_cons n _ x).2 (Or.inr hcov))
    · -- the walk stops at `n`
      obtain ⟨m1, h1, h2, h3, h5⟩ := free_link_spec T st c lo hi hlo hhi hmin hc n (n2 :: rest2) hs
        ⟨a, b, c1, d, e⟩ hnc (by simp; omega)
      refine ⟨n.1, chunk_next T st.mem n.1, m1, ?_, h1, h2, h3, ?_⟩
      · simp [free_walk, hq, hle]
      · rintro ⟨k, hk, hkc⟩
        rcases List.mem_cons.1 hk with hkn | hkr
        · subst hkn
          exact h5 hkc
        · have := nodesOK_mem T (n2 :: rest2) n2.1 hi k ⟨le_refl _, b2, c2, d2, e2⟩ hkr
          omega

/-- What `nano_free` does to a live chunk: it returns, the free list becomes
the abstract insertion of the chunk, only bytes of the header of the chunk and
bytes of free nodes change, and the other variables are untouched. -/
theorem nano_free_spec (T : Target) (st : State) (l : List Node) (u fuel : Nat)
    (henv : Env T st) (hrepr : Repr T st.mem st.free_list l)
    (hn : NodesOK T (region_lo st) (st.brk + 1) l) (hu : u ≠ 0)
    (hlive : LiveChunk T st l (get_chunk_from_ptr T st.mem u)) (hfuel : l.length < fuel) :
    ∃ m1 h1, nano_free T fuel st u = .ok { st with mem := m1, free_list := h1 } ∧
      Repr T m1 h1 (insert_free (get_chunk_from_ptr T st.mem u)
        (chunk_size T st.mem (get_chunk_from_ptr T st.mem u)) l) ∧
      (∀ x, ¬ (get_chunk_from_ptr T st.mem u ≤ x ∧
          x < get_chunk_from_ptr T st.mem u + 2 * sizeof_size_t T) →
        ¬ Covered l x → m1 x = st.mem x) ∧
      ((∃ k ∈ l, k.1 + k.2 = get_chunk_from_ptr T st.mem u) →
        ∀ x, ¬ Covered l x → m1 x = st.mem x) := by
  have hW := sizeof_pos T
  have hm := minchunk_eq T
  have hpm := ptr_mod_eq T
  obtain ⟨e1, e2, e3, e4⟩ := henv
  obtain ⟨v1, v2, v3, v4, v5, v6⟩ := hlive
  generalize hc : get_chunk_from_ptr T st.mem u = c at *
  have hlo : 0 < region_lo st := by
    unfold region_lo; split <;> omega
  have hbog : ¬ (chunk_size T st.mem c &&& (CHUNK_ALIGN T - 1) ≠ 0) := by
    rw [and_chunk_mask]; simp [v2]
  unfold nano_free
  simp only [hu, if_false, hc, hbog]
  cases l with
  | nil =>
    have h0 : st.free_list = 0 := hrepr
    simp only [h0, if_true]
    refine ⟨_, _, rfl, ?_, ?_, ?_⟩
    · refine ⟨rfl, ?_, ?_⟩
      · show chunk_size T _ c = _
        rw [size_set_next_ne T _ _ _ _ (by omega)]
      · show chunk_next T _ c = 0
        rw [next_set_next]; rfl
    · intro x hx _
      rw [set_next_apply T _ _ _ _ (by omega)]
    · rintro ⟨k, hk, _⟩
      exact absurd hk (List.not_mem_nil k)
  | cons n rest =>
    obtain ⟨s1, s2, s3⟩ := hrepr
    have hn' := hn
    obtain ⟨a, b, c1, d, e⟩ := hn'
    have hne : ¬ (n.1 = 0) := by omega
    have hdn := v6 n (by simp)
    simp only [s1, hne, if_false]
    generalize hsz : chunk_size T st.mem c = sz at *
    by_cases hlt : c < n.1
    · have habove : ¬ ∃ k ∈ n :: rest, k.1 + k.2 = c := by
        rintro ⟨k, hk, hkc⟩
        have := nodesOK_mem T (n :: rest) n.1 _ k ⟨le_refl _, b, c1, d, e⟩ hk
        omega
      have epc : padd T c sz = c + sz := padd_eq T _ _ (by omega)
      simp only [hlt, if_true, epc]
      by_cases heq : c + sz = n.1
      · have es : sadd T sz n.2 = sz + n.2 := sadd_eq T _ _ (by omega)
        simp only [heq, if_true, s2, es]
        refine ⟨_, _, rfl, ?_, ?_, fun h => absurd h habove⟩
        · simp only [insert_free, hlt, if_true, heq]
          refine ⟨rfl, ?_, ?_⟩
          · show chunk_size T _ c = sz + n.2
            rw [size_set_next_ne T _ _ _ _ (by omega), size_set_size]
            exact Nat.mod_eq_of_lt (by omega)
          · show Seg T _ (chunk_next T _ c) rest 0
            rw [next_set_next, next_set_size_ne T _ _ _ _ (by omega),
              Nat.mod_eq_of_lt (chunk_next_lt T _ _)]
            refine seg_frame T st.mem _ rest _ _ _ 0 e ?_ s3
            intro x h1 h2
            rw [set_next_apply T _ _ _ _ (by omega), set_size_apply T _ _ _ _ (by omega)]
        · intro x hx _
          rw [set_next_apply T _ _ _ _ (by omega), set_size_apply T _ _ _ _ (by omega)]
      · simp only [heq, if_false]
        refine ⟨_, _, rfl, ?_, ?_, fun h => absurd h habove⟩
        · simp only [insert_free, hlt, if_true, heq, if_false]
          have hfr : ∀ x, n.1 ≤ x → x < st.brk + 1 → set_next T st.mem c n.1 x = st.mem x := by
            intro x h1 h2
            rw [set_next_apply T _ _ _ _ (by omega)]
          refine ⟨rfl, ?_, ?_⟩
          · show chunk_size T _ c = sz
            rw [size_set_next_ne T _ _ _ _ (by omega)]; exact hsz
          · show Seg T _ (chunk_next T _ c) (n :: rest) 0
            rw [next_set_next, Nat.mod_eq_of_lt (by omega)]
            exact seg_frame T st.mem _ (n :: rest) n.1 _ _ 0
              (nodesOK_mono T _ _ _ _ _ (le_refl _) (le_refl _) ⟨le_refl _, b, c1, d, e⟩) hfr
              ⟨rfl, s2, s3⟩
        · intro x hx _
          rw [set_next_apply T _ _ _ _ (by omega)]
    · simp only [hlt, if_false]
      have hsz' : chunk_size T st.mem c = sz := hsz
      obtain ⟨p, q, m1, h1, h2, h3, h4, h5⟩ := free_from_spec T st c (region_lo st) (st.brk + 1) hlo
        (by omega) (by omega) (by omega) rest n fuel ⟨rfl, s2, s3⟩ hn (by omega)
        (fun k hk => by rw [hsz']; exact v6 k (by simp [hk])) (by simp at hfuel; omega)
      rw [hsz'] at h3
      refine ⟨m1, n.1, ?_, h3, h4, h5⟩
      rw [h1]
      simp only [h2]
      congr 1
      cases st
      simp only [State.mk.injEq, true_and, and_true]
      simpa using s1

/-! ## The first-fit walk of nano_malloc -/

theorem walk_cursors_cons (pq : Nat × Nat) (n : Node) (l : List Node) :
    walk_cursors pq (n :: l) = walk_cursors (n.1, pq.1) l := rfl

theorem walk_cursors_shape (h : Nat) (l : List Node) :
    (l = [] ∧ walk_cursors (h, h) l = (h, h)) ∨
    (∃ a, l = [a] ∧ walk_cursors (h, h) l = (a.1, h)) ∨
    (∃ l0 b a, l = l0 ++ [b, a] ∧ walk_cursors (h, h) l = (a.1, b.1)) := by
  rcases List.eq_nil_or_concat l with rfl | ⟨l1, a, rfl⟩
  · left; exact ⟨rfl, rfl⟩
  · right
    rcases List.eq_nil_or_concat l1 with rfl | ⟨l0, b, rfl⟩
    · left; exact ⟨a, rfl, rfl⟩
    · right
      refine ⟨l0, b, a, by simp, ?_⟩
      simp [walk_cursors, List.foldl_append]

theorem malloc_walk_spec (T : Target) (m : Mem) (need lo hi : Nat) (hlo : 0 < lo) :
    ∀ (l : List Node) (p0 q0 r fuel : Nat), Seg T m r l 0 → NodesOK T lo hi l →
      l.length < fuel →
      (∃ l1 n l2, l = l1 ++ n :: l2 ∧ (∀ k ∈ l1, k.2 < need) ∧ need ≤ n.2 ∧
        malloc_walk T m need fuel p0 q0 r =
          .done (walk_cursors (p0, q0) l1).1 (walk_cursors (p0, q0) l1).2 n.1) ∨
      ((∀ k ∈ l, k.2 < need) ∧
        malloc_walk T m need fuel p0 q0 r =
          .done (walk_cursors (p0, q0) l).1 (walk_cursors (p0, q0) l).2 0) := by
  intro l
  induction l with
  | nil =>
    intro p0 q0 r fuel hs _ hf
    obtain ⟨f, rfl⟩ : ∃ f, fuel = f + 1 := ⟨fuel - 1, by simp at hf; omega⟩
    have hr : r = 0 := hs
    right
    refine ⟨by simp, ?_⟩
    simp [malloc_walk, hr, walk_cursors]
  | cons n rest ih =>
    intro p0 q0 r fuel hs hn hf
    obtain ⟨f, rfl⟩ : ∃ f, fuel = f + 1 := ⟨fuel - 1, by simp at hf; omega⟩
    obtain ⟨s1, s2, s3⟩ := hs
    obtain ⟨a, b, c1, d, e⟩ := hn
    have hr : ¬ (r = 0) := by omega
    have hbog : ¬ (chunk_size T m r &&& (CHUNK_ALIGN T - 1) ≠ 0) := by
      rw [and_chunk_mask, s1, s2]; simp [b]
    by_cases hfit : need ≤ n.2
    · left
      refine ⟨[], n, rest, rfl, by simp, hfit, ?_⟩
      have hge : chunk_size T m r ≥ need := by rw [s1, s2]; exact hfit
      simp only [malloc_walk, hr, if_false, hbog, hge, if_true]
      rw [s1]; rfl
    · have hlt : ¬ (chunk_size T m r ≥ need) := by rw [s1, s2]; omega
      have hstep : malloc_walk T m need (f + 1) p0 q0 r =
          malloc_walk T m need f r p0 (chunk_next T m r) := by
        simp only [malloc_walk, hr, if_false, hbog, hlt]
      rw [hstep]
      have hs3 : Seg T m (chunk_next T m r) rest 0 := by rw [s1]; exact s3
      rcases ih r p0 (chunk_next T m r) f hs3
        (nodesOK_mono T rest (n.1 + n.2 + 1) hi lo hi (by omega) (le_refl _) e)
        (by simp at hf; omega) with ⟨l1, k, l2, h1, h2, h3, h4⟩ | ⟨h1, h2⟩
      · left
        refine ⟨n :: l1, k, l2, by simp [h1], ?_, h3, ?_⟩
        · intro x hx
          rcases List.mem_cons.1 hx with rfl | hx
          · omega
          · exact h2 x hx
        · rw [h4, walk_cursors_cons, s1]
      · right
        refine ⟨?_, ?_⟩
        · intro x hx
          rcases List.mem_cons.1 hx with rfl | hx
          · omega
          · exact h1 x hx
        · rw [h2, walk_cursors_cons, s1]

/-! ## sbrk_aligned -/

theorem sbrk_zero (T : Target) (st : State) (h : st.brk ≤ st.heap_end) :
    sbrk T st 0 = (st, st.brk) := by
  simp [sbrk, h]

/-- Rounding the break up to `CHUNK_ALIGN`. -/
theorem align_brk (T : Target) (b : Nat) (h : b + CHUNK_ALIGN T ≤ SIZE_MOD T) :
    ALIGN_PTR_TO T b (CHUNK_ALIGN T) = b + (CHUNK_ALIGN T - 1) - (b + (CHUNK_ALIGN T - 1)) % CHUNK_ALIGN T := by
  have hW := sizeof_pos T
  have hca := chunk_align_eq T
  rw [align_ptr_to_chunk, ptr_mod_eq, Nat.mod_eq_of_lt (by omega)]
  have : b + CHUNK_ALIGN T - 1 = b + (CHUNK_ALIGN T - 1) := by omega
  rw [this]

/-- The outcome of `sbrk_aligned` for a request of at least `CHUNK_ALIGN`
bytes: a failure that leaves the break where it was or `s` bytes further, which
happens only when no chunk-aligned block of `s` bytes at or after the break ends
at or below `heap_end`, or a chunk-aligned block of `s` bytes between the old
and the new break. -/
theorem sbrk_aligned_spec (T : Target) (st : State) (s : Nat) (henv : Env T st)
    (hs : CHUNK_ALIGN T ≤ s) :
    ∃ b1 r, sbrk_aligned T st s =
        ({ st with brk := b1, sbrk_start := region_lo st }, r) ∧
      st.brk ≤ b1 ∧ b1 ≤ st.heap_end ∧
      ((r = SBRK_FAIL T ∧
          ∀ c, st.brk ≤ c → c % CHUNK_ALIGN T = 0 → st.heap_end < c + s) ∨
        (r ≠ SBRK_FAIL T ∧ st.brk ≤ r ∧ r + s = b1 ∧ r % CHUNK_ALIGN T = 0 ∧
          r < st.brk + CHUNK_ALIGN T)) := by
  have hW := sizeof_pos T
  have hca := chunk_align_eq T
  have hpm := ptr_mod_eq T
  obtain ⟨e1, e2, e3, e4⟩ := henv
  have hfail : SBRK_FAIL T = SIZE_MOD T - 1 := by unfold SBRK_FAIL; rw [hpm]
  have hst0 : (if st.sbrk_start = 0 then { st with sbrk_start := (sbrk T st 0).2 } else st) =
      { st with sbrk_start := region_lo st } := by
    unfold region_lo
    split
    · rw [sbrk_zero T st e2]
    · cases st; rfl
  unfold sbrk_aligned
  simp only [hst0]
  by_cases h1 : st.brk + s ≤ st.heap_end
  · have hb : st.brk ≠ SBRK_FAIL T := by omega
    have hal := align_brk T st.brk (by omega)
    simp only [sbrk, h1, if_true, hb, if_false]
    generalize ALIGN_PTR_TO T st.brk (CHUNK_ALIGN T) = ap at *
    have hmod := Nat.mod_lt (st.brk + (CHUNK_ALIGN T - 1)) (show 0 < CHUNK_ALIGN T by omega)
    have hdm := Nat.div_add_mod (st.brk + (CHUNK_ALIGN T - 1)) (CHUNK_ALIGN T)
    have hapmod : ap % CHUNK_ALIGN T = 0 := by
      have : ap = CHUNK_ALIGN T * ((st.brk + (CHUNK_ALIGN T - 1)) / CHUNK_ALIGN T) := by omega
      rw [this]; exact Nat.mul_mod_right _ _
    by_cases h2 : ap = st.brk
    · simp only [h2, ne_eq, not_true_eq_false, if_false]
      refine ⟨st.brk + s, st.brk, rfl, by omega, h1, Or.inr ⟨hb, le_refl _, rfl, ?_, by omega⟩⟩
      rw [← h2]; exact hapmod
    · have eps : psub T ap st.brk = ap - st.brk := psub_eq T _ _ (by omega) (by omega)
      simp only [ne_eq, h2, not_false_eq_true, if_true, eps]
      by_cases h3 : st.brk + s + (ap - st.brk) ≤ st.heap_end
      · have hb2 : st.brk + s ≠ SBRK_FAIL T := by omega
        simp only [h3, if_true, hb2, if_false]
        refine ⟨st.brk + s + (ap - st.brk), ap, rfl, by omega, h3,
          Or.inr ⟨by omega, by omega, by omega, hapmod, by omega⟩⟩
      · simp only [h3, if_false, if_true]
        refine ⟨st.brk + s, SBRK_FAIL T, rfl, by omega, h1, Or.inl ⟨rfl, fun c c1 c2 => ?_⟩⟩
        rcases T with _ | _ | _ <;> simp only [consts] at * <;> omega
  · simp only [sbrk, h1, if_false, if_true]
    exact ⟨st.brk, SBRK_FAIL T, by cases st; rfl, le_refl _, e2,
      Or.inl ⟨rfl, fun c c1 _ => by omega⟩⟩

/-! ## Splitting and unlinking in nano_malloc -/

theorem malloc_split_spec (T : Target) (m : Mem) (need r rs hi : Nat) (l2 : List Node)
    (hhi : hi ≤ SIZE_MOD T) (hrs : chunk_size T m r = rs)
    (hl2 : Seg T m (chunk_next T m r) l2 0) (hn : NodesOK T (r + rs + 1) hi l2)
    (hrhi : r + rs < hi) (hrm : rs % CHUNK_ALIGN T = 0)
    (hneed : need ≤ rs) (hnm : need % CHUNK_ALIGN T = 0) (hnmin : MALLOC_MINCHUNK T ≤ need) :
    chunk_size T (malloc_split T m need r) r = claimed_size T need (r, rs) ∧
    Seg T (malloc_split T m need r) (chunk_next T (malloc_split T m need r) r)
      (split_node T need (r, rs) ++ l2) 0 ∧
    NodesOK T (r + need) hi (split_node T need (r, rs) ++ l2) ∧
    (∀ x, x < r ∨ r + rs ≤ x → malloc_split T m need r x = m x) := by
  have hW := sizeof_pos T
  have hm := minchunk_eq T
  have erem : ssub T rs need = rs - need := ssub_eq T _ _ hneed (by omega)
  unfold malloc_split split_node claimed_size
  simp only [hrs, erem]
  by_cases hsp : rs - need ≥ MALLOC_MINCHUNK T
  · have epa : padd T r need = r + need := padd_eq T _ _ (by omega)
    simp only [hsp, if_true, epa]
    have en1 : chunk_next T (set_size T m (r + need) (rs - need)) r = chunk_next T m r := by
      rw [next_set_size_ne T _ _ _ _ (by omega)]
    simp only [en1]
    refine ⟨?_, ?_, ?_, ?_⟩
    · rw [size_set_next_ne T _ _ _ _ (by omega), size_set_size]
      exact Nat.mod_eq_of_lt (by omega)
    · rw [next_set_next, Nat.mod_eq_of_lt (by omega)]
      refine ⟨rfl, ?_, ?_⟩
      · show chunk_size T _ (r + need) = rs - need
        rw [size_set_next_ne T _ _ _ _ (by omega), size_set_size_ne T _ _ _ _ (by omega),
          size_set_next_ne T _ _ _ _ (by omega), size_set_size]
        exact Nat.mod_eq_of_lt (by omega)
      · show Seg T _ (chunk_next T _ (r + need)) l2 0
        rw [next_set_next_ne T _ _ _ _ (by omega), next_set_size_ne T _ _ _ _ (by omega),
          next_set_next, Nat.mod_eq_of_lt (chunk_next_lt T _ _)]
        refine seg_frame T m _ l2 _ hi _ 0 hn ?_ hl2
        intro x h1 h2
        rw [set_next_apply T _ _ _ _ (by omega), set_size_apply T _ _ _ _ (by omega),
          set_next_apply T _ _ _ _ (by omega), set_size_apply T _ _ _ _ (by omega)]
    · refine ⟨le_refl _, sub_mod_zero _ _ _ hrm hnm, hsp, ?_, ?_⟩
      · show r + need + (rs - need) < hi
        omega
      · exact nodesOK_mono T l2 _ hi _ hi (by show r + need + (rs - need) + 1 ≤ r + rs + 1; omega)
          (le_refl _) hn
    · intro x hx
      rw [set_next_apply T _ _ _ _ (by omega), set_size_apply T _ _ _ _ (by omega),
        set_next_apply T _ _ _ _ (by omega), set_size_apply T _ _ _ _ (by omega)]
  · simp only [hsp, if_false]
    refine ⟨hrs, hl2, ?_, ?_⟩
    · exact nodesOK_mono T l2 _ hi _ hi (by omega) (le_refl _) hn
    · simp

/-- The user pointer of the chunk at `r`: `r + CHUNK_OFFSET` rounded up to
`MALLOC_ALIGN`. -/
theorem align_user (T : Target) (r : Nat) (h : r + sizeof_size_t T + 8 ≤ SIZE_MOD T) :
    ALIGN_PTR_TO T (r + sizeof_size_t T) MALLOC_ALIGN =
      r + sizeof_size_t T + 7 - (r + sizeof_size_t T + 7) % 8 := by
  have e7 : r + sizeof_size_t T + 8 - 1 = r + sizeof_size_t T + 7 := by omega
  rw [align_ptr_to_malloc, ptr_mod_eq, Nat.mod_eq_of_lt (by omega), e7]

theorem malloc_claim_spec (T : Target) (st : State) (need p r rs lo hi e : Nat)
    (pre l2 : List Node) (hlo : 0 < lo) (hhi : hi ≤ SIZE_MOD T)
    (hpre : Seg T st.mem st.free_list pre e)
    (hrs : chunk_size T st.mem r = rs)
    (hl2 : Seg T st.mem (chunk_next T st.mem r) l2 0)
    (hn : NodesOK T lo hi (pre ++ (r, rs) :: l2))
    (hneed : need ≤ rs) (hnm : need % CHUNK_ALIGN T = 0) (hnmin : MALLOC_MINCHUNK T ≤ need)
    (hp : (pre = [] ∧ p = r) ∨ (∃ l0 a, pre = l0 ++ [a] ∧ p = a.1)) :
    ∃ m1 h1, malloc_claim T st need p r =
        ({ st with mem := m1, free_list := h1 },
          ALIGN_PTR_TO T (r + sizeof_size_t T) MALLOC_ALIGN) ∧
      Seg T m1 h1 (pre ++ split_node T need (r, rs) ++ l2) 0 ∧
      (∀ x, ¬ Covered (pre ++ (r, rs) :: l2) x → m1 x = st.mem x) ∧
      (r % CHUNK_ALIGN T = 0 →
        chunk_size T m1 r = claimed_size T need (r, rs) ∧
        (ALIGN_PTR_TO T (r + sizeof_size_t T) MALLOC_ALIGN = r + sizeof_size_t T ∨
          (r + 2 * sizeof_size_t T ≤ ALIGN_PTR_TO T (r + sizeof_size_t T) MALLOC_ALIGN ∧
            chunk_size T m1 (ALIGN_PTR_TO T (r + sizeof_size_t T) MALLOC_ALIGN - sizeof_size_t T) =
              (ALIGN_PTR_TO T (r + sizeof_size_t T) MALLOC_ALIGN - sizeof_size_t T - r) ||| 1))) := by
  have hW := sizeof_pos T
  have hm := minchunk_eq T
  have hca := chunk_align_eq T
  have hnr := nodesOK_append_right T pre _ lo hi hn
  obtain ⟨a1, b1, c1, d1, e1⟩ := hnr
  have hnl := nodesOK_append_left T pre _ l2 lo hi hn
  simp only at a1 b1 c1 d1 e1 hnl
  obtain ⟨g1, g2, g3, g4⟩ := malloc_split_spec T st.mem need r rs hi l2 hhi hrs hl2 e1 d1 b1
    hneed hnm hnmin
  have hal := align_user T r (by omega)
  have epa : padd T r (CHUNK_OFFSET T) = r + sizeof_size_t T := by
    rw [chunk_offset_eq]; exact padd_eq T _ _ (by omega)
  have hmod8 := Nat.mod_lt (r + sizeof_size_t T + 7) (show 0 < 8 by decide)
  unfold malloc_claim
  simp only [epa]
  generalize hu : ALIGN_PTR_TO T (r + sizeof_size_t T) MALLOC_ALIGN = u at *
  generalize hms : malloc_split T st.mem need r = ms at *
  have eoff : psub T u (r + sizeof_size_t T) = u - (r + sizeof_size_t T) :=
    psub_eq T _ _ (by omega) (by omega)
  have epo : padd T r (u - (r + sizeof_size_t T)) = u - sizeof_size_t T := by
    rw [padd_eq T _ _ (by omega)]; omega
  simp only [eoff, epo]
  -- the skip-back write stays inside the claimed bytes of the chunk
  have hskip : ∀ (m0 : Mem) (v x : Nat), x < r ∨ r + need ≤ x →
      (if u - (r + sizeof_size_t T) ≠ 0 then set_size T m0 (u - sizeof_size_t T) v else m0) x
        = m0 x := by
    intro m0 v x hx
    split
    · rw [set_size_apply T _ _ _ _ (by omega)]
    · rfl
  -- the chunk header and the skip-back record, when the chunk is aligned
  have hrec : ∀ (m0 : Mem), chunk_size T m0 r = claimed_size T need (r, rs) →
      r % CHUNK_ALIGN T = 0 →
      chunk_size T (if u - (r + sizeof_size_t T) ≠ 0 then
          set_size T m0 (u - sizeof_size_t T) ((u - (r + sizeof_size_t T)) ||| 1) else m0) r =
        claimed_size T need (r, rs) ∧
      (u = r + sizeof_size_t T ∨ (r + 2 * sizeof_size_t T ≤ u ∧
        chunk_size T (if u - (r + sizeof_size_t T) ≠ 0 then
          set_size T m0 (u - sizeof_size_t T) ((u - (r + sizeof_size_t T)) ||| 1) else m0)
            (u - sizeof_size_t T) = (u - sizeof_size_t T - r) ||| 1)) := by
    intro m0 h0 hral
    rw [hca] at hral
    have hWd : (u - (r + sizeof_size_t T)) % sizeof_size_t T = 0 := by
      rcases T with _ | _ | _ <;> simp only [consts] at * <;> omega
    by_cases hz : u - (r + sizeof_size_t T) = 0
    · simp only [hz, ne_eq, not_true_eq_false, if_false]
      exact ⟨h0, Or.inl (by omega)⟩
    · have hge : sizeof_size_t T ≤ u - (r + sizeof_size_t T) :=
        Nat.le_of_dvd (by omega) (Nat.dvd_of_mod_eq_zero hWd)
      simp only [ne_eq, hz, not_false_eq_true, if_true]
      refine ⟨?_, Or.inr ⟨by omega, ?_⟩⟩
      · rw [size_set_size_ne T _ _ _ _ (by omega)]; exact h0
      · rw [size_set_size]
        have e3 : u - (r + sizeof_size_t T) = u - sizeof_size_t T - r := by omega
        rw [e3]
        apply Nat.mod_eq_of_lt
        have h7 : u - sizeof_size_t T - r < 8 := by omega
        have : (u - sizeof_size_t T - r) ||| 1 < 2 ^ 3 := Nat.or_lt_two_pow h7 (by decide)
        have := size_mod_ge T
        omega
  rcases hp with ⟨hp1, hp2⟩ | ⟨l0, a, hp1, hp2⟩
  · -- the chunk is the head of the list
    subst hp1
    have hh : st.free_list = e := hpre
    simp only [hp2, if_true]
    refine ⟨_, _, rfl, ?_, ?_, ?_⟩
    · simp only [List.nil_append]
      refine seg_frame T ms _ _ (r + need) hi _ 0 g3 ?_ g2
      intro x h1 h2
      exact hskip ms _ x (by omega)
    · intro x hx
      simp only [List.nil_append, covered_cons] at hx
      rw [hskip ms _ x (by omega)]
      exact g4 x (by omega)
    · intro hral
      exact hrec ms g1 hral
  · -- the chunk follows the node `a`
    subst hp1 hp2
    have hna := nodesOK_append_right T l0 [a] lo r hnl
    obtain ⟨a2, b2, c2, d2, _⟩ := hna
    have hnl0 := nodesOK_append_left T l0 a [] lo r hnl
    obtain ⟨x0, hx1, hx2⟩ := (seg_append T st.mem l0 [a] st.free_list e).1 hpre
    obtain ⟨y1, y2, y3⟩ := hx2
    have hne : ¬ (a.1 = r) := by omega
    simp only [hne, if_false]
    refine ⟨_, _, rfl, ?_, ?_, ?_⟩
    · rw [List.append_assoc, List.append_assoc]
      refine (seg_append T _ l0 _ st.free_list 0).2 ⟨x0, ?_, ?_⟩
      · refine seg_frame T st.mem _ l0 lo a.1 _ _ hnl0 ?_ hx1
        intro x h1 h2
        rw [hskip _ _ x (by omega), set_next_apply T _ _ _ _ (by omega)]
        exact g4 x (by omega)
      · refine ⟨y1, ?_, ?_⟩
        · show chunk_size T _ a.1 = a.2
          rw [chunk_size_congr T _ (set_next T ms a.1 (chunk_next T ms r)) a.1
            (fun x h1 h2 => hskip _ _ x (by omega)), size_set_next_ne T _ _ _ _ (by omega),
            chunk_size_congr T ms st.mem a.1 (fun x h1 h2 => g4 x (by omega))]
          exact y2
        · show Seg T _ (chunk_next T _ a.1) _ 0
          rw [chunk_next_congr T _ (set_next T ms a.1 (chunk_next T ms r)) a.1
            (fun x h1 h2 => hskip _ _ x (by omega)), next_set_next,
            Nat.mod_eq_of_lt (chunk_next_lt T _ _)]
          refine seg_frame T ms _ _ (r + need) hi _ 0 g3 ?_ g2
          intro x h1 h2
          rw [hskip _ _ x (by omega), set_next_apply T _ _ _ _ (by omega)]
    · intro x hx
      have hxa : ¬ (a.1 ≤ x ∧ x < a.1 + a.2) := by
        intro h
        apply hx
        exact ⟨a, by simp, h.1, h.2⟩
      have hxr : ¬ (r ≤ x ∧ x < r + rs) := by
        intro h
        apply hx
        exact ⟨(r, rs), by simp, h.1, h.2⟩
      rw [hskip _ _ x (by omega), set_next_apply T _ _ _ _ (by omega)]
      exact g4 x (by omega)
    · intro hral
      refine hrec _ ?_ hral
      rw [size_set_next_ne T _ _ _ _ (by omega)]
      exact g1

/-! ## The request size -/

/-- When the size check of `nano_malloc` passes, no addition has wrapped and
`alloc_size` is the request rounded up to `CHUNK_ALIGN`, plus the padding and
the header, or `MALLOC_MINCHUNK` when that is larger. -/
theorem request_size_spec (T : Target) (s : Nat) (hs : s < SIZE_MOD T)
    (hchk : ¬ (request_size T s ≥ MAX_ALLOC_SIZE ∨ request_size T s < s)) :
    ∃ a, a % CHUNK_ALIGN T = 0 ∧ s ≤ a ∧ a < s + CHUNK_ALIGN T ∧
      a + MALLOC_PADDING T + CHUNK_OFFSET T < SIZE_MOD T ∧
      request_size T s = MAX (a + MALLOC_PADDING T + CHUNK_OFFSET T) (MALLOC_MINCHUNK T) := by
  have hal := align_to_chunk T s
  unfold request_size sadd at hchk ⊢
  unfold MAX at hchk ⊢
  generalize ALIGN_TO T s (CHUNK_ALIGN T) = a at *
  refine ⟨a, ?_⟩
  rcases T with _ | _ | _ <;> simp only [consts] at * <;> split_ifs at hchk ⊢ <;> omega

theorem request_size_props (T : Target) (s : Nat) (hs : s < SIZE_MOD T)
    (hchk : ¬ (request_size T s ≥ MAX_ALLOC_SIZE ∨ request_size T s < s)) :
    request_size T s % CHUNK_ALIGN T = 0 ∧ MALLOC_MINCHUNK T ≤ request_size T s ∧
      s + MALLOC_PADDING T + CHUNK_OFFSET T ≤ request_size T s ∧
      request_size T s < MAX_ALLOC_SIZE ∧ request_size T s < SIZE_MOD T := by
  obtain ⟨a, h1, h2, h3, h4, h5⟩ := request_size_spec T s hs hchk
  rw [h5]
  have hlt : request_size T s < MAX_ALLOC_SIZE := by omega
  rw [h5] at hlt
  unfold MAX at hlt ⊢
  rcases T with _ | _ | _ <;> simp only [consts] at * <;> split_ifs at hlt ⊢ <;> omega

/-! ## Growing the region in nano_malloc -/

theorem nodesOK_shrink (T : Target) (hi : Nat) : ∀ (l : List Node) (lo : Nat),
    NodesOK T lo (hi + 1) l → (∀ a ∈ l.getLast?, a.1 + a.2 ≠ hi) → NodesOK T lo hi l := by
  intro l
  induction l with
  | nil => intros; trivial
  | cons n rest ih =>
    intro lo hn hl
    obtain ⟨a, b, c, d, e⟩ := hn
    cases rest with
    | nil =>
      have := hl n (by simp)
      exact ⟨a, b, c, by omega, trivial⟩
    | cons n2 rest2 =>
      have e' := e
      obtain ⟨a2, b2, c2, d2, e2⟩ := e'
      refine ⟨a, b, c, by omega, ih _ e ?_⟩
      intro x hx
      exact hl x (by simpa [List.getLast?_cons_cons] using hx)

theorem split_node_self (T : Target) (need c : Nat) (h : 0 < MALLOC_MINCHUNK T) :
    split_node T need (c, need) = [] := by
  have : ¬ (need - need ≥ MALLOC_MINCHUNK T) := by omega
  unfold split_node
  simp only [this, if_false]

theorem claimed_size_self (T : Target) (need c : Nat) (h : 0 < MALLOC_MINCHUNK T) :
    claimed_size T need (c, need) = need := by
  have : ¬ (need - need ≥ MALLOC_MINCHUNK T) := by omega
  unfold claimed_size
  simp only [this, if_false]

/-- The block `if (r == NULL)` of `nano_malloc` when no free node ends at the
break: either the region source fails, or a fresh chunk of `need` bytes is
carved at the chunk-aligned break and handed out, and the free list is as
before. -/
theorem malloc_fresh_spec (T : Target) (st : State) (l : List Node) (need p q : Nat)
    (henv : Env T st) (hrepr : Repr T st.mem st.free_list l)
    (hn : NodesOK T (region_lo st) (st.brk + 1) l)
    (hnm : need % CHUNK_ALIGN T = 0) (hnmin : MALLOC_MINCHUNK T ≤ need)
    (hnlt : need < SIZE_MOD T)
    (hp : (l = [] ∧ p = 0) ∨ (∃ l0 a, l = l0 ++ [a] ∧ p = a.1))
    (hnf : ∀ a ∈ l.getLast?, a.1 + a.2 ≠ st.brk) :
    (∃ b1, malloc_grow T st need p q 0 =
        ({ st with brk := b1, sbrk_start := region_lo st, errno := ENOMEM }, none) ∧
      st.brk ≤ b1 ∧ b1 ≤ st.heap_end ∧
      ∀ c, st.brk ≤ c → c % CHUNK_ALIGN T = 0 → st.heap_end < c + need) ∨
    (∃ c p1 m1 h1 stg, malloc_grow T st need p q 0 = (stg, some (p1, c)) ∧
      malloc_claim T stg need p1 c =
        ({ st with brk := c + need, sbrk_start := region_lo st, mem := m1, free_list := h1 },
          ALIGN_PTR_TO T (c + sizeof_size_t T) MALLOC_ALIGN) ∧
      st.brk ≤ c ∧ c < st.brk + CHUNK_ALIGN T ∧ c % CHUNK_ALIGN T = 0 ∧
      c + need ≤ st.heap_end ∧ Seg T m1 h1 l 0 ∧
      (∀ x, ¬ Covered l x → x < st.brk → m1 x = st.mem x) ∧
      chunk_size T m1 c = need ∧
      (ALIGN_PTR_TO T (c + sizeof_size_t T) MALLOC_ALIGN = c + sizeof_size_t T ∨
        (c + 2 * sizeof_size_t T ≤ ALIGN_PTR_TO T (c + sizeof_size_t T) MALLOC_ALIGN ∧
          chunk_size T m1 (ALIGN_PTR_TO T (c + sizeof_size_t T) MALLOC_ALIGN - sizeof_size_t T) =
            (ALIGN_PTR_TO T (c + sizeof_size_t T) MALLOC_ALIGN - sizeof_size_t T - c) ||| 1))) := by
  have hW := sizeof_pos T
  have hm := minchunk_eq T
  have hca := chunk_align_eq T
  have hpm := ptr_mod_eq T
  have henv' := henv
  obtain ⟨e1, e2, e3, e4⟩ := henv'
  have hlo : 0 < region_lo st := by
    unfold region_lo; split <;> omega
  have hlob : region_lo st ≤ st.brk := by
    unfold region_lo; split <;> omega
  have hadj : ¬ (p ≠ 0 ∧ padd T p (chunk_size T st.mem p) = st.brk) := by
    rintro ⟨h1, h2⟩
    rcases hp with ⟨_, hp0⟩ | ⟨l0, a, hl, hpa⟩
    · exact h1 hp0
    · subst hl hpa
      obtain ⟨x0, _, hx2⟩ := (seg_append T st.mem l0 [a] st.free_list 0).1 hrepr
      have hna := nodesOK_append_right T l0 [a] _ _ hn
      rw [hx2.2.1, padd_eq T _ _ (by have := hna.2.2.2.1; omega)] at h2
      exact hnf a (by simp) h2
  have hn2 := nodesOK_shrink T st.brk l _ hn hnf
  unfold malloc_grow
  simp only [if_true, sbrk_zero T st e2, hadj, if_false]
  have ess : ssub T need 0 = need := by
    rw [ssub_eq T _ _ (Nat.zero_le _) (by omega)]; rfl
  rw [ess]
  obtain ⟨b1, r, hg, g1, g2, g3⟩ := sbrk_aligned_spec T st need henv (by omega)
  rw [hg]
  rcases g3 with ⟨g3, g3r⟩ | ⟨g3, g4, g5, g6, g7⟩
  · left
    simp only [g3, if_true]
    exact ⟨b1, rfl, g1, g2, g3r⟩
  · right
    simp only [g3, if_false, ne_eq, not_true_eq_false]
    have hfr : ∀ x, x < st.brk → set_next T (set_size T st.mem r need) r 0 x = st.mem x := by
      intro x hx
      rw [set_next_apply T _ _ _ _ (by omega), set_size_apply T _ _ _ _ (by omega)]
    have hsplit := split_node_self T need r (by omega)
    have hclaim := claimed_size_self T need r (by omega)
    obtain ⟨m1, h1, k1, k2, k3, k4⟩ := malloc_claim_spec T
      { st with brk := b1, sbrk_start := region_lo st,
                mem := set_next T (set_size T st.mem r need) r 0 }
      need (if p = 0 then r else p) r need (region_lo st) (r + need + 1) 0 l []
      hlo (by omega)
      (seg_frame T st.mem _ l _ st.brk _ 0 hn2 (fun x _ h2 => hfr x h2) hrepr)
      (by show chunk_size T (set_next T (set_size T st.mem r need) r 0) r = need
          rw [size_set_next_ne T _ _ _ _ (by omega), size_set_size]
          exact Nat.mod_eq_of_lt (by omega))
      (by show chunk_next T (set_next T (set_size T st.mem r need) r 0) r = 0
          rw [next_set_next]; rfl)
      (nodesOK_join T l [(r, need)] _ st.brk _ hn2
        ⟨g4, hnm, hnmin, by show r + need < r + need + 1; omega, trivial⟩
        hlob (by omega))
      (le_refl _) hnm hnmin
      (by
        rcases hp with ⟨hl, hp0⟩ | ⟨l0, a, hl, hpa⟩
        · left; exact ⟨hl, by simp [hp0]⟩
        · right
          refine ⟨l0, a, hl, ?_⟩
          subst hl
          have hna := nodesOK_append_right T l0 [a] _ _ hn
          have : a.1 ≠ 0 := by have := hna.1; omega
          simp [hpa, this])
    have hpr : (if p = 0 then (r, r) else (p, r)) = ((if p = 0 then r else p), r) := by
      split <;> rfl
    have hb1 : b1 = r + need := g5.symm
    subst hb1
    refine ⟨r, (if p = 0 then r else p), m1, h1, _, ?_, k1, g4, g7, g6, g2, ?_, ?_, ?_⟩
    · simp only [hpr]
    · rw [hsplit] at k2
      simpa using k2
    · intro x hcl hx
      rw [k3 x ?_]
      · exact hfr x hx
      · intro hcov
        obtain ⟨k, hk, hk1, hk2⟩ := hcov
        rcases List.mem_append.1 hk with hk | hk
        · exact hcl ⟨k, hk, hk1, hk2⟩
        · simp at hk
          subst hk
          simp at hk1
          omega
    · have := k4 g6
      rw [hclaim] at this
      exact this

/-- Growth of `nano_malloc` when the last free node `a` ends at the break: the
region source is asked for the missing bytes only, and `a`, extended to the
request size, is the chunk that is claimed. -/
theorem malloc_flush_spec (T : Target) (st : State) (l0 : List Node) (a : Node) (need q : Nat)
    (henv : Env T st) (hrepr : Repr T st.mem st.free_list (l0 ++ [a]))
    (hn : NodesOK T (region_lo st) (st.brk + 1) (l0 ++ [a]))
    (hnm : need % CHUNK_ALIGN T = 0) (hnmin : MALLOC_MINCHUNK T ≤ need)
    (hnlt : need < SIZE_MOD T) (hlt : a.2 < need) (hfl : a.1 + a.2 = st.brk)
    (hq : (l0 = [] ∧ q = a.1) ∨ (∃ l00 b, l0 = l00 ++ [b] ∧ q = b.1)) :
    (∃ b1, malloc_grow T st need a.1 q 0 =
        ({ st with brk := b1, sbrk_start := region_lo st, errno := ENOMEM }, none) ∧
      st.brk ≤ b1 ∧ b1 ≤ st.heap_end ∧
      ∀ c, st.brk ≤ c → c % CHUNK_ALIGN T = 0 → st.heap_end < c + (need - a.2)) ∨
    (∃ b1 m1 h1 stg, malloc_grow T st need a.1 q 0 = (stg, some (q, a.1)) ∧
      malloc_claim T stg need q a.1 =
        ({ st with brk := b1, sbrk_start := region_lo st, mem := m1, free_list := h1 },
          ALIGN_PTR_TO T (a.1 + sizeof_size_t T) MALLOC_ALIGN) ∧
      a.1 + need ≤ b1 ∧ b1 < a.1 + need + CHUNK_ALIGN T ∧ b1 ≤ st.heap_end ∧
      (a.1 % CHUNK_ALIGN T = 0 → b1 = a.1 + need) ∧
      Seg T m1 h1 l0 0 ∧
      (∀ x, ¬ Covered (l0 ++ [a]) x → x < st.brk → m1 x = st.mem x) ∧
      (a.1 % CHUNK_ALIGN T = 0 →
        chunk_size T m1 a.1 = need ∧
        (ALIGN_PTR_TO T (a.1 + sizeof_size_t T) MALLOC_ALIGN = a.1 + sizeof_size_t T ∨
          (a.1 + 2 * sizeof_size_t T ≤ ALIGN_PTR_TO T (a.1 + sizeof_size_t T) MALLOC_ALIGN ∧
            chunk_size T m1
                (ALIGN_PTR_TO T (a.1 + sizeof_size_t T) MALLOC_ALIGN - sizeof_size_t T) =
              (ALIGN_PTR_TO T (a.1 + sizeof_size_t T) MALLOC_ALIGN - sizeof_size_t T - a.1)
                ||| 1)))) := by
  have hW := sizeof_pos T
  have hm := minchunk_eq T
  have hca := chunk_align_eq T
  have hpm := ptr_mod_eq T
  have henv' := henv
  obtain ⟨e1, e2, e3, e4⟩ := henv'
  have hlo : 0 < region_lo st := by
    unfold region_lo; split <;> omega
  obtain ⟨x0, hx1, hx2⟩ := (seg_append T st.mem l0 [a] st.free_list 0).1 hrepr
  obtain ⟨y1, y2, y3⟩ := hx2
  have hna := nodesOK_append_right T l0 [a] _ _ hn
  obtain ⟨a1, a2, a3, a4, _⟩ := hna
  have hnl0 := nodesOK_append_left T l0 a [] _ _ hn
  have hadj : padd T a.1 a.2 = st.brk := by
    rw [padd_eq T _ _ (by omega)]; exact hfl
  have ha1 : ¬ (a.1 = 0) := by omega
  have ha0 : a.2 ≠ 0 := by omega
  have hstep : CHUNK_ALIGN T ≤ need - a.2 := by
    apply Nat.le_of_dvd (by omega)
    exact Nat.dvd_sub' (Nat.dvd_of_mod_eq_zero hnm) (Nat.dvd_of_mod_eq_zero a2)
  unfold malloc_grow
  simp only [if_true, sbrk_zero T st e2, y2, hadj, and_self, ne_eq, ha1, ha0,
    not_false_eq_true]
  have ess : ssub T need a.2 = need - a.2 := ssub_eq T _ _ (by omega) (by omega)
  rw [ess]
  obtain ⟨b1, r, hg, g1, g2, g3⟩ := sbrk_aligned_spec T st (need - a.2) henv hstep
  rw [hg]
  rcases g3 with ⟨g3, g3r⟩ | ⟨g3, g4, g5, g6, g7⟩
  · left
    simp only [g3, if_true]
    exact ⟨b1, rfl, g1, g2, g3r⟩
  · right
    simp only [g3, if_false]
    have hfr : ∀ x, x < a.1 → set_next T (set_size T st.mem a.1 need) a.1 0 x = st.mem x := by
      intro x hx
      rw [set_next_apply T _ _ _ _ (by omega), set_size_apply T _ _ _ _ (by omega)]
    have hsplit := split_node_self T need a.1 (by omega)
    have hclaim := claimed_size_self T need a.1 (by omega)
    obtain ⟨m1, h1, k1, k2, k3, k4⟩ := malloc_claim_spec T
      { st with brk := b1, sbrk_start := region_lo st,
                mem := set_next T (set_size T st.mem a.1 need) a.1 0 }
      need q a.1 need (region_lo st) (b1 + 1) x0 l0 []
      hlo (by omega)
      (seg_frame T st.mem _ l0 _ a.1 _ x0 hnl0 (fun x _ h2 => hfr x h2) hx1)
      (by show chunk_size T (set_next T (set_size T st.mem a.1 need) a.1 0) a.1 = need
          rw [size_set_next_ne T _ _ _ _ (by omega), size_set_size]
          exact Nat.mod_eq_of_lt (by omega))
      (by show chunk_next T (set_next T (set_size T st.mem a.1 need) a.1 0) a.1 = 0
          rw [next_set_next]; rfl)
      (nodesOK_join T l0 [(a.1, need)] _ a.1 _ hnl0
        ⟨le_refl _, hnm, hnmin, by show a.1 + need < b1 + 1; omega, trivial⟩
        a1 (by omega))
      (le_refl _) hnm hnmin hq
    refine ⟨b1, m1, h1, _, rfl, k1, by omega, by omega, g2, ?_, ?_, ?_, ?_⟩
    · intro hal
      rw [hca] at hal g6
      have : r = st.brk := by
        rcases T with _ | _ | _ <;> simp only [consts] at * <;> omega
      omega
    · rw [hsplit] at k2
      simpa using k2
    · intro x hcl hx
      have hxa : ¬ (a.1 ≤ x ∧ x < a.1 + a.2) := by
        intro h
        exact hcl ⟨a, by simp, h.1, h.2⟩
      rw [k3 x ?_]
      · exact hfr x (by omega)
      · intro hcov
        obtain ⟨k, hk, hk1, hk2⟩ := hcov
        rcases List.mem_append.1 hk with hk | hk
        · exact hcl ⟨k, by simp [hk], hk1, hk2⟩
        · simp at hk
          subst hk
          simp at hk1
          omega
    · intro hal
      have := k4 hal
      rw [hclaim] at this
      exact this

/-! ## nano_malloc as a whole -/

/-- The value of `adjust` for a list that ends with the node `a`. -/
theorem tail_adjust_concat (brk : Nat) (l : List Node) (a : Node) :
    tail_adjust brk (l ++ [a]) = if a.1 + a.2 = brk then a.2 else 0 := by
  unfold tail_adjust
  rw [List.getLast?_concat]

/-- The value of `adjust` for a list of one node. -/
theorem tail_adjust_single (brk : Nat) (a : Node) :
    tail_adjust brk [a] = if a.1 + a.2 = brk then a.2 else 0 :=
  tail_adjust_concat brk [] a

/-- What `nano_malloc` does from a state whose free list is `l`, for a request
that passes the size check: either the region source fails, having no room for
the bytes asked for, and the call returns null with only `errno`, `sbrk_start`
and the break changed, or the call returns
the user pointer of a chunk obtained in one of the three ways of `MallocStep`. -/
theorem nano_malloc_spec (T : Target) (st : State) (l : List Node) (s fuel : Nat)
    (henv : Env T st) (hrepr : Repr T st.mem st.free_list l)
    (hn : NodesOK T (region_lo st) (st.brk + 1) l) (hs : s < SIZE_MOD T)
    (hchk : ¬ (request_size T s ≥ MAX_ALLOC_SIZE ∨ request_size T s < s))
    (hfuel : l.length < fuel) :
    (∃ b1, nano_malloc T fuel st s =
        .ok ({ st with brk := b1, sbrk_start := region_lo st, errno := ENOMEM }, 0) ∧
      st.brk ≤ b1 ∧ b1 ≤ st.heap_end ∧ (∀ k ∈ l, k.2 < request_size T s) ∧
      (∀ c, st.brk ≤ c → c % CHUNK_ALIGN T = 0 →
        st.heap_end < c + (request_size T s - tail_adjust st.brk l))) ∨
    (∃ st1 l1 c sz, nano_malloc T fuel st s =
        .ok (st1, ALIGN_PTR_TO T (c + sizeof_size_t T) MALLOC_ALIGN) ∧
      Repr T st1.mem st1.free_list l1 ∧ st1.heap_end = st.heap_end ∧
      st1.errno = st.errno ∧ st1.brk ≤ st1.heap_end ∧
      MallocStep T st l (request_size T s) st1 l1 c sz ∧
      (∀ x, ¬ Covered l x → x < st.brk → st1.mem x = st.mem x) ∧
      (c % CHUNK_ALIGN T = 0 →
        UserPtr T st1.mem c sz (ALIGN_PTR_TO T (c + sizeof_size_t T) MALLOC_ALIGN))) := by
  have hW := sizeof_pos T
  have hm := minchunk_eq T
  have hpm := ptr_mod_eq T
  obtain ⟨r1, r2, r3, r4, r5⟩ := request_size_props T s hs hchk
  have henv' := henv
  obtain ⟨e1, e2, e3, e4⟩ := henv'
  have hlo : 0 < region_lo st := by
    unfold region_lo; split <;> omega
  unfold nano_malloc
  simp only [hchk, if_false]
  generalize hneed : request_size T s = need at *
  rcases malloc_walk_spec T st.mem need (region_lo st) (st.brk + 1) hlo l st.free_list
      st.free_list st.free_list fuel hrepr hn hfuel with
    ⟨pre, n, l2, hl, hpre, hfit, hwalk⟩ | ⟨hall, hwalk⟩
  · -- a free node is large enough
    right
    subst hl
    rw [hwalk]
    obtain ⟨x0, hx1, hx2⟩ := (seg_append T st.mem pre (n :: l2) st.free_list 0).1 hrepr
    obtain ⟨y1, y2, y3⟩ := hx2
    have hnr := nodesOK_append_right T pre (n :: l2) _ _ hn
    have hn0 : ¬ (n.1 = 0) := by have := hnr.1; omega
    have hgrow : malloc_grow T st need (walk_cursors (st.free_list, st.free_list) pre).1
        (walk_cursors (st.free_list, st.free_list) pre).2 n.1 =
        (st, some ((walk_cursors (st.free_list, st.free_list) pre).1, n.1)) := by
      unfold malloc_grow
      simp only [hn0, if_false]
    simp only [hgrow]
    have hp : (pre = [] ∧ (walk_cursors (st.free_list, st.free_list) pre).1 = n.1) ∨
        (∃ l0 a, pre = l0 ++ [a] ∧ (walk_cursors (st.free_list, st.free_list) pre).1 = a.1) := by
      rcases walk_cursors_shape st.free_list pre with ⟨h1, h2⟩ | ⟨a, h1, h2⟩ | ⟨l0, b, a, h1, h2⟩
      · left
        refine ⟨h1, ?_⟩
        rw [h2]
        subst h1
        have : st.free_list = x0 := hx1
        show st.free_list = n.1
        omega
      · right; exact ⟨[], a, by simpa using h1, by rw [h2]⟩
      · right; exact ⟨l0 ++ [b], a, by simpa using h1, by rw [h2]⟩
    obtain ⟨m1, h1, k1, k2, k3, k4⟩ := malloc_claim_spec T st need
      (walk_cursors (st.free_list, st.free_list) pre).1 n.1 n.2 (region_lo st) (st.brk + 1) x0
      pre l2 hlo (by omega) hx1 y2 y3 hn hfit r1 r2 hp
    rw [k1]
    refine ⟨_, pre ++ split_node T need n ++ l2, n.1, claimed_size T need n, rfl, k2, rfl, rfl,
      e2, Or.inl ⟨pre, n, l2, rfl, hpre, hfit, rfl, rfl, rfl, rfl, rfl⟩, ?_, ?_⟩
    · intro x hx _
      exact k3 x hx
    · intro hal
      exact k4 hal
  · -- no free node is large enough
    rw [hwalk]
    rcases walk_cursors_shape st.free_list l with ⟨h1, h2⟩ | ⟨a, h1, h2⟩ | ⟨l0, b, a, h1, h2⟩
    · -- the free list is empty
      subst h1
      have hfl0 : st.free_list = 0 := hrepr
      simp only [h2]
      rcases malloc_fresh_spec T st [] need st.free_list st.free_list henv hrepr hn r1 r2 r5
          (Or.inl ⟨rfl, hfl0⟩) (by simp) with ⟨b1, g1, g2, g3, g3r⟩ | ⟨c, p1, m1, h1, stg, g1, g2, g3, g4, g5, g6, g7, g8, g9, g10⟩
      · left
        rw [g1]
        exact ⟨b1, rfl, g2, g3, hall, by simpa [tail_adjust] using g3r⟩
      · right
        rw [g1]
        simp only [g2]
        exact ⟨_, [], c, need, rfl, g7, rfl, rfl, g6,
          Or.inr (Or.inr ⟨hall, by simp, rfl, g3, g4, g5, rfl, rfl, rfl⟩), g8, fun _ => ⟨g9, g10⟩⟩
    · -- one free node
      subst h1
      have hfa : st.free_list = a.1 := hrepr.1
      simp only [h2]
      by_cases hflush : a.1 + a.2 = st.brk
      · rcases malloc_flush_spec T st [] a need st.free_list henv hrepr hn r1 r2 r5
            (hall a (by simp)) hflush (Or.inl ⟨rfl, hfa⟩) with
          ⟨b1, g1, g2, g3, g3r⟩ | ⟨b1, m1, h1, stg, g1, g2, g3, g4, g5, g6, g7, g8, g9⟩
        · left
          rw [g1]
          exact ⟨b1, rfl, g2, g3, hall, by rw [tail_adjust_single, if_pos hflush]; exact g3r⟩
        · right
          rw [g1]
          simp only [g2]
          exact ⟨_, [], a.1, need, rfl, g7, rfl, rfl, g5,
            Or.inr (Or.inl ⟨hall, a, rfl, hflush, rfl, rfl, g3, g4, g6, rfl⟩), g8,
            fun hal => g9 hal⟩
      · rcases malloc_fresh_spec T st [a] need a.1 st.free_list henv hrepr hn r1 r2 r5
            (Or.inr ⟨[], a, rfl, rfl⟩) (by simpa using hflush) with
          ⟨b1, g1, g2, g3, g3r⟩ | ⟨c, p1, m1, h1, stg, g1, g2, g3, g4, g5, g6, g7, g8, g9, g10⟩
        · left
          rw [g1]
          exact ⟨b1, rfl, g2, g3, hall, by rw [tail_adjust_single, if_neg hflush]; exact g3r⟩
        · right
          rw [g1]
          simp only [g2]
          exact ⟨_, [a], c, need, rfl, g7, rfl, rfl, g6,
            Or.inr (Or.inr ⟨hall, by simpa using hflush, rfl, g3, g4, g5, rfl, rfl, rfl⟩), g8,
            fun _ => ⟨g9, g10⟩⟩
    · -- two free nodes or more
      have h1' : l = (l0 ++ [b]) ++ [a] := by simpa using h1
      subst h1'
      simp only [h2]
      by_cases hflush : a.1 + a.2 = st.brk
      · rcases malloc_flush_spec T st (l0 ++ [b]) a need b.1 henv hrepr hn r1 r2 r5
            (hall a (by simp)) hflush (Or.inr ⟨l0, b, rfl, rfl⟩) with
          ⟨b1, g1, g2, g3, g3r⟩ | ⟨b1, m1, h1, stg, g1, g2, g3, g4, g5, g6, g7, g8, g9⟩
        · left
          rw [g1]
          exact ⟨b1, rfl, g2, g3, hall, by rw [tail_adjust_concat, if_pos hflush]; exact g3r⟩
        · right
          rw [g1]
          simp only [g2]
          exact ⟨_, l0 ++ [b], a.1, need, rfl, g7, rfl, rfl, g5,
            Or.inr (Or.inl ⟨hall, a, rfl, hflush, rfl, rfl, g3, g4, g6, rfl⟩), g8,
            fun hal => g9 hal⟩
      · rcases malloc_fresh_spec T st (l0 ++ [b] ++ [a]) need a.1 b.1 henv hrepr hn r1 r2 r5
            (Or.inr ⟨l0 ++ [b], a, rfl, rfl⟩) (by simpa using hflush) with
          ⟨b1, g1, g2, g3, g3r⟩ | ⟨c, p1, m1, h1, stg, g1, g2, g3, g4, g5, g6, g7, g8, g9, g10⟩
        · left
          rw [g1]
          exact ⟨b1, rfl, g2, g3, hall, by rw [tail_adjust_concat, if_neg hflush]; exact g3r⟩
        · right
          rw [g1]
          simp only [g2]
          exact ⟨_, l0 ++ [b] ++ [a], c, need, rfl, g7, rfl, rfl, g6,
            Or.inr (Or.inr ⟨hall, by simpa using hflush, rfl, g3, g4, g5, rfl, rfl, rfl⟩), g8,
            fun _ => ⟨g9, g10⟩⟩

/-! ## Consequences of a successful nano_malloc -/

theorem total_append (l1 l2 : List Node) : total (l1 ++ l2) = total l1 + total l2 := by
  simp [total]

theorem covered_append (l1 l2 : List Node) (x : Nat) :
    Covered (l1 ++ l2) x ↔ Covered l1 x ∨ Covered l2 x := by
  simp only [Covered, List.mem_append]
  constructor
  · rintro ⟨n, hn | hn, h⟩
    · exact Or.inl ⟨n, hn, h⟩
    · exact Or.inr ⟨n, hn, h⟩
  · rintro (⟨n, hn, h⟩ | ⟨n, hn, h⟩)
    · exact ⟨n, Or.inl hn, h⟩
    · exact ⟨n, Or.inr hn, h⟩

theorem region_lo_grow (st : State) (b1 : Nat) (h : 0 < region_lo st) (mm : Mem) (fl er : Nat) :
    region_lo { mem := mm, free_list := fl, sbrk_start := region_lo st, errno := er,
                brk := b1, heap_end := st.heap_end } = region_lo st := by
  have h0 : ¬ (region_lo st = 0) := by omega
  show (if region_lo st = 0 then b1 else region_lo st) = region_lo st
  simp only [h0, if_false]

theorem region_lo_of_start (st st1 : State) (h : 0 < region_lo st)
    (hs : st1.sbrk_start = region_lo st) : region_lo st1 = region_lo st := by
  have h0 : ¬ (region_lo st = 0) := by omega
  unfold region_lo at *
  rw [hs]
  simp only [h0, if_false]

theorem region_lo_le (T : Target) (st : State) (henv : Env T st) :
    0 < region_lo st ∧ region_lo st ≤ st.brk := by
  obtain ⟨e1, e2, e3, e4⟩ := henv
  unfold region_lo
  split <;> omega

/-- The facts about the chunk and the new free list that hold in each of the
three ways of `MallocStep`. -/
theorem malloc_step_props (T : Target) (st : State) (l : List Node) (need : Nat) (st1 : State)
    (l1 : List Node) (c sz : Nat) (henv : Env T st)
    (hn : NodesOK T (region_lo st) (st.brk + 1) l)
    (hnm : need % CHUNK_ALIGN T = 0) (hnmin : MALLOC_MINCHUNK T ≤ need)
    (hstep : MallocStep T st l need st1 l1 c sz)
    (hhe : st1.heap_end = st.heap_end) (hble : st1.brk ≤ st1.heap_end) :
    Env T st1 ∧ region_lo st1 = region_lo st ∧ st.brk ≤ st1.brk ∧
    NodesOK T (region_lo st1) (st1.brk + 1) l1 ∧
    need ≤ sz ∧ sz < need + MALLOC_MINCHUNK T ∧ sz % CHUNK_ALIGN T = 0 ∧
    region_lo st ≤ c ∧ c + sz ≤ st1.brk ∧
    (∀ k ∈ l1, k.1 + k.2 ≤ c ∨ c + sz ≤ k.1) ∧
    (∀ x, Covered l1 x → Covered l x) ∧
    (NodesAligned T l → c % CHUNK_ALIGN T = 0 ∧ NodesAligned T l1) := by
  have hW := sizeof_pos T
  have hm := minchunk_eq T
  have hca := chunk_align_eq T
  obtain ⟨hlo, hlob⟩ := region_lo_le T st henv
  obtain ⟨e1, e2, e3, e4⟩ := henv
  rcases hstep with ⟨pre, n, l2, hl, hpre, hfit, hc, hsz, hl1, hb, hss⟩ |
    ⟨hall, a, hl, hfl, hc, hsz, hb1, hb2, hb3, hss⟩ |
    ⟨hall, hnf, hl1, hc1, hc2, hc3, hsz, hb, hss⟩
  · -- first fit
    subst hl hc hl1
    have hnr := nodesOK_append_right T pre (n :: l2) _ _ hn
    obtain ⟨a1, a2, a3, a4, a5⟩ := hnr
    have hnl := nodesOK_append_left T pre n l2 _ _ hn
    have hrl : region_lo st1 = region_lo st := by
      unfold region_lo; rw [hb, hss]
    have hsplit : NodesOK T n.1 (st.brk + 1) (split_node T need n ++ l2) := by
      unfold split_node
      split
      · rename_i hsp
        refine ⟨by show n.1 ≤ n.1 + need; omega, sub_mod_zero _ _ _ a2 hnm, hsp,
          by show n.1 + need + (n.2 - need) < st.brk + 1; omega, ?_⟩
        exact nodesOK_mono T l2 _ _ _ _
          (by show n.1 + need + (n.2 - need) + 1 ≤ n.1 + n.2 + 1; omega) (le_refl _) a5
      · exact nodesOK_mono T l2 _ _ _ _ (by omega) (le_refl _) a5
    have hszle : need ≤ sz ∧ sz < need + MALLOC_MINCHUNK T ∧ sz % CHUNK_ALIGN T = 0 ∧
        sz ≤ n.2 := by
      rw [hsz]; unfold claimed_size
      split
      · exact ⟨le_refl _, by omega, hnm, hfit⟩
      · exact ⟨hfit, by omega, a2, le_refl _⟩
    refine ⟨⟨by omega, hble, by rw [hhe]; exact e3, by rw [hss, hb]; exact e4⟩, hrl,
      by omega, ?_, hszle.1, hszle.2.1, hszle.2.2.1, a1, by omega, ?_, ?_, ?_⟩
    · rw [hrl, hb, List.append_assoc]
      exact nodesOK_join T pre _ _ n.1 _ hnl hsplit a1 (by omega)
    · intro k hk
      rw [List.append_assoc] at hk
      rcases List.mem_append.1 hk with hk | hk
      · have := nodesOK_mem T _ _ _ k hnl hk
        left; omega
      · rcases List.mem_append.1 hk with hk | hk
        · right
          unfold split_node at hk
          unfold claimed_size at hsz
          split at hk
          · rename_i hsp
            simp only [hsp, if_true] at hsz
            simp at hk
            subst hk
            show n.1 + sz ≤ n.1 + need
            omega
          · simp at hk
        · have := nodesOK_mem T _ _ _ k a5 hk
          right; omega
    · intro x hx
      rw [List.append_assoc, covered_append, covered_append] at hx
      rw [covered_append, covered_cons]
      rcases hx with hx | hx | hx
      · exact Or.inl hx
      · right; left
        obtain ⟨k, hk, hk1, hk2⟩ := hx
        unfold split_node at hk
        split at hk
        · simp at hk
          subst hk
          simp at hk1 hk2
          omega
        · simp at hk
      · exact Or.inr (Or.inr hx)
    · intro hal
      refine ⟨hal n (by simp), ?_⟩
      intro k hk
      rw [List.append_assoc] at hk
      rcases List.mem_append.1 hk with hk | hk
      · exact hal k (by simp [hk])
      · rcases List.mem_append.1 hk with hk | hk
        · unfold split_node at hk
          split at hk
          · simp at hk
            subst hk
            exact add_mod_zero _ _ _ (hal n (by simp)) hnm
          · simp at hk
        · exact hal k (by simp [hk])
  · -- the last node is extended
    have ha := hall a (by rw [hl]; simp)
    subst hl hc hsz
    have hnr := nodesOK_append_right T l1 [a] _ _ hn
    obtain ⟨a1, a2, a3, a4, a5⟩ := hnr
    have hnl := nodesOK_append_left T l1 a [] _ _ hn
    have hrl := region_lo_of_start st st1 hlo hss
    refine ⟨⟨by omega, hble, by rw [hhe]; exact e3, by rw [hss]; omega⟩, hrl, by omega, ?_,
      le_refl _, by omega, hnm, a1, hb1, ?_, ?_, ?_⟩
    · rw [hrl]
      exact nodesOK_mono T l1 _ _ _ _ (le_refl _) (by omega) hnl
    · intro k hk
      have := nodesOK_mem T _ _ _ k hnl hk
      left; omega
    · intro x hx
      rw [covered_append]; exact Or.inl hx
    · intro hal
      exact ⟨hal a (by simp), fun k hk => hal k (by simp [hk])⟩
  · -- a new block
    subst hl1 hsz
    have hn2 := nodesOK_shrink T st.brk l1 _ hn hnf
    have hrl := region_lo_of_start st st1 hlo hss
    refine ⟨⟨by omega, hble, by rw [hhe]; exact e3, by rw [hss]; omega⟩, hrl, by omega, ?_,
      le_refl _, by omega, hnm, by omega, by omega, ?_, fun x hx => hx, ?_⟩
    · rw [hrl]
      exact nodesOK_mono T l1 _ _ _ _ (le_refl _) (by omega) hn2
    · intro k hk
      have := nodesOK_mem T _ _ _ k hn2 hk
      left; omega
    · intro hal
      exact ⟨hc3, hal⟩

/-- The free-list total after a successful `nano_malloc`: the bytes of the
chunk come out of the total, the bytes obtained from the region source for the
chunk do not. -/
theorem malloc_step_total (T : Target) (st : State) (l : List Node) (need : Nat) (st1 : State)
    (l1 : List Node) (c sz : Nat) (hstep : MallocStep T st l need st1 l1 c sz) :
    ((∃ k ∈ l, need ≤ k.2) → total l1 + sz = total l ∧ st1.brk = st.brk) ∧
    ((∀ k ∈ l, k.2 < need) → total l1 + sz = total l + (need - tail_adjust st.brk l)) := by
  rcases hstep with ⟨pre, n, l2, hl, hpre, hfit, hc, hsz, hl1, hb, hss⟩ |
    ⟨hall, a, hl, hfl, hc, hsz, hb1, hb2, hb3, hss⟩ |
    ⟨hall, hnf, hl1, hc1, hc2, hc3, hsz, hb, hss⟩
  · have htot : total l1 + sz = total l := by
      subst hl hl1 hsz
      simp only [total_append, total_cons]
      unfold split_node claimed_size
      split
      · simp only [total_cons, total]
        simp
        omega
      · simp [total]
        omega
    refine ⟨fun _ => ⟨htot, hb⟩, ?_⟩
    intro hall
    have := hall n (by rw [hl]; simp)
    omega
  · constructor
    · rintro ⟨k, hk, hk2⟩
      have := hall k hk
      omega
    · intro _
      subst hl hsz
      have ha := hall a (by simp)
      have ht : tail_adjust st.brk (l1 ++ [a]) = a.2 := by
        unfold tail_adjust
        rw [List.getLast?_concat]
        simp only [hfl, if_true]
      have h2 : total (l1 ++ [a]) = total l1 + a.2 := by
        rw [total_append, total_cons]
        simp [total]
      rw [ht, h2]
      omega
  · constructor
    · rintro ⟨k, hk, hk2⟩
      have := hall k hk
      omega
    · intro _
      subst hl1 hsz
      have : tail_adjust st.brk l1 = 0 := by
        unfold tail_adjust
        cases hg : l1.getLast? with
        | none => rfl
        | some a =>
          have := hnf a (by rw [hg]; simp)
          simp [this]
      rw [this]
      omega

/-! ## The invariants F1 to F4 and the interval form of the free list -/

theorem nodesOK_pairwise (T : Target) : ∀ (l : List Node) (lo hi : Nat),
    NodesOK T lo hi l → l.Pairwise (fun a b => a.1 < b.1) := by
  intro l
  induction l with
  | nil => intro lo hi _; exact List.Pairwise.nil
  | cons n rest ih =>
    intro lo hi h
    obtain ⟨_, _, _, _, h5⟩ := h
    refine List.Pairwise.cons ?_ (ih _ _ h5)
    intro b hb
    have := nodesOK_mem T rest _ _ b h5 hb
    omega

theorem nodesOK_chain (T : Target) : ∀ (l : List Node) (lo hi : Nat),
    NodesOK T lo hi l → l.Chain' (fun a b => a.1 + a.2 < b.1) := by
  intro l
  induction l with
  | nil => intro lo hi _; exact List.chain'_nil
  | cons n rest ih =>
    intro lo hi h
    obtain ⟨_, _, _, _, h5⟩ := h
    rw [List.chain'_cons']
    refine ⟨?_, ih _ _ h5⟩
    intro b hb
    have hm : b ∈ rest := List.mem_of_mem_head? hb
    have := nodesOK_mem T rest _ _ b h5 hm
    omega

theorem nodesOK_of_chain (T : Target) (hi : Nat) : ∀ (l : List Node) (lo : Nat),
    l.Chain' (fun a b => a.1 + a.2 < b.1) →
    (∀ n ∈ l, n.2 % CHUNK_ALIGN T = 0 ∧ MALLOC_MINCHUNK T ≤ n.2) →
    (∀ n ∈ l, n.1 + n.2 < hi) → (∀ n ∈ l.head?, lo ≤ n.1) → NodesOK T lo hi l := by
  intro l
  induction l with
  | nil => intro lo _ _ _ _; exact True.intro
  | cons n rest ih =>
    intro lo hc h3 h4 hh
    rw [List.chain'_cons'] at hc
    have a3 := h3 n (List.mem_cons_self _ _)
    have a4 := h4 n (List.mem_cons_self _ _)
    refine ⟨hh n (by simp), a3.1, a3.2, a4, ?_⟩
    apply ih _ hc.2 (fun k hk => h3 k (List.mem_cons_of_mem _ hk))
      (fun k hk => h4 k (List.mem_cons_of_mem _ hk))
    intro b hb
    have := hc.1 b hb
    omega

/-- A free list in interval form satisfies F1 to F4. -/
theorem wf_of_nodesOK (T : Target) (st : State) (l : List Node)
    (hrepr : Repr T st.mem st.free_list l)
    (hn : NodesOK T (region_lo st) (st.brk + 1) l) : WF T st l := by
  refine ⟨hrepr, nodesOK_pairwise T l _ _ hn, nodesOK_chain T l _ _ hn, ?_, ?_⟩
  · intro n hm
    have := nodesOK_mem T l _ _ n hn hm
    exact ⟨this.2.2.1, this.2.2.2⟩
  · intro n hm
    have := nodesOK_mem T l _ _ n hn hm
    exact ⟨this.1, by omega⟩

/-- A free list that satisfies F1 to F4 is in interval form. -/
theorem nodesOK_of_wf (T : Target) (st : State) (l : List Node) (h : WF T st l) :
    NodesOK T (region_lo st) (st.brk + 1) l := by
  apply nodesOK_of_chain T _ l _ h.F2 h.F3
  · intro n hm
    have := (h.F4 n hm).2
    omega
  · intro n hm
    exact (h.F4 n (List.mem_of_mem_head? hm)).1

theorem insert_free_length (c sz : Nat) : ∀ l : List Node,
    (insert_free c sz l).length ≤ l.length + 1 := by
  intro l
  induction l with
  | nil => simp [insert_free]
  | cons n rest ih =>
    unfold insert_free
    split_ifs
    · simp
    · simp
    · cases rest with
      | nil => simp
      | cons n2 rest2 =>
        simp only
        split_ifs <;> simp
    · simp only [List.length_cons]
      omega

theorem malloc_step_length (T : Target) (st : State) (l : List Node) (need : Nat) (st1 : State)
    (l1 : List Node) (c sz : Nat) (hstep : MallocStep T st l need st1 l1 c sz) :
    l1.length ≤ l.length := by
  rcases hstep with ⟨pre, n, l2, hl, _, _, _, _, hl1, _, _⟩ | ⟨_, a, hl, _⟩ | ⟨_, _, hl1, _⟩
  · subst hl hl1
    unfold split_node
    split_ifs <;> simp
  · subst hl
    simp
  · subst hl1
    exact le_refl _

/-- A chunk that shares no byte with the free nodes overlaps none of them. -/
theorem disjoint_of_not_covered (T : Target) (l : List Node) (lo hi c sz : Nat)
    (hn : NodesOK T lo hi l) (hsz : 0 < sz)
    (h : ∀ x, c ≤ x → x < c + sz → ¬ Covered l x) :
    ∀ k ∈ l, k.1 + k.2 ≤ c ∨ c + sz ≤ k.1 := by
  intro k hk
  have hm := nodesOK_mem T l lo hi k hn hk
  have hpos : 0 < MALLOC_MINCHUNK T := by
    rcases T with _ | _ | _ <;> simp only [consts] <;> omega
  by_contra hcon
  push_neg at hcon
  by_cases hck : c ≤ k.1
  · exact h k.1 hck (by omega) ⟨k, hk, le_refl _, by omega⟩
  · exact h c (le_refl _) (by omega) ⟨k, hk, by omega, by omega⟩

/-! ## Recovering the chunk from a user pointer -/

theorem and_one_even (x : Nat) (h : x % 2 = 0) : x &&& 1 = 0 := by
  rw [Nat.and_one_is_mod]
  exact h

theorem and_one_odd (x : Nat) (h : x % 2 = 0) : (x ||| 1) &&& 1 = 1 := by
  rw [or_one_even x h, Nat.and_one_is_mod]
  omega

/-- The skip-back rule: from a user pointer `get_chunk_from_ptr` finds the
header of the chunk, and `nano_malloc_usable_size` is the size of the chunk
less the header and less the distance from the header to the word before the
user pointer. -/
theorem ptr_chunk (T : Target) (m : Mem) (c sz u : Nat) (hu : UserPtr T m c sz u)
    (hc : c % CHUNK_ALIGN T = 0) (hua : u % CHUNK_ALIGN T = 0) (hszm : sz % CHUNK_ALIGN T = 0)
    (hnear : u < c + sizeof_size_t T + MALLOC_MINCHUNK T) (hpay : u ≤ c + sz)
    (hlt : c + sz < PTR_MOD T) :
    get_chunk_from_ptr T m u = c ∧
    nano_malloc_usable_size T m u = sz - sizeof_size_t T - (u - sizeof_size_t T - c) := by
  obtain ⟨h1, h2⟩ := hu
  have hW : CHUNK_OFFSET T = sizeof_size_t T := rfl
  have hP : PTR_MOD T = SIZE_MOD T := by rcases T with _ | _ | _ <;> rfl
  have hszlt := chunk_size_lt T m c
  rw [h1] at hszlt
  rcases h2 with h2 | ⟨h3, h4⟩
  · subst h2
    have hps : psub T (c + sizeof_size_t T) (CHUNK_OFFSET T) = c := by
      rw [psub_eq T _ _ (by rw [hW]; omega) (by omega), hW]
      omega
    have hev : sz &&& 1 = 0 := by
      apply and_one_even
      rcases T with _ | _ | _ <;> simp only [consts] at hszm <;> omega
    unfold get_chunk_from_ptr nano_malloc_usable_size
    simp only [hps, h1, hev, ne_eq, not_true_eq_false, if_false]
    refine ⟨trivial, ?_⟩
    rw [hW, ssub_eq T _ _ (by omega) hszlt]
    omega
  · have hps : psub T u (CHUNK_OFFSET T) = u - sizeof_size_t T := by
      rw [psub_eq T _ _ (by rw [hW]; omega) (by omega), hW]
    have hd2 : (u - sizeof_size_t T - c) % 2 = 0 := by
      rcases T with _ | _ | _ <;> simp only [consts] at * <;> omega
    have hdu : u - sizeof_size_t T - c < UINT_MOD T := by
      rcases T with _ | _ | _ <;> simp only [consts] at * <;> omega
    have hds : u - sizeof_size_t T - c + 1 < SIZE_MOD T := by
      rcases T with _ | _ | _ <;> simp only [consts] at * <;> omega
    have hdu1 : u - sizeof_size_t T - c + 1 < UINT_MOD T := by
      rcases T with _ | _ | _ <;> simp only [consts] at * <;> omega
    have hodd : ((u - sizeof_size_t T - c) ||| 1) &&& 1 = 1 := and_one_odd _ hd2
    have hm1 : ((u - sizeof_size_t T - c) ||| 1) &&& (UINT_MOD T - 2) = u - sizeof_size_t T - c := by
      rw [or_one_even _ hd2, and_uint_mask T _ hdu1]
      omega
    have hm2 : ((u - sizeof_size_t T - c) ||| 1) &&& (SIZE_MOD T - 2) = u - sizeof_size_t T - c := by
      rw [or_one_even _ hd2, and_size_mask T _ hds]
      omega
    have hps2 : psub T (u - sizeof_size_t T) (u - sizeof_size_t T - c) = c := by
      rw [psub_eq T _ _ (by omega) (by omega)]
      omega
    unfold get_chunk_from_ptr nano_malloc_usable_size
    simp only [hps, h4, hodd, hm1, hm2, hps2, h1, ne_eq, one_ne_zero, not_false_eq_true, if_true]
    refine ⟨trivial, ?_⟩
    rw [hW, ssub_eq T _ _ (by omega) hszlt, ssub_eq T _ _ (by omega) (by omega)]

/-! ## The pointer returned by nano_malloc is a live pointer -/

theorem aligned_user_bounds (T : Target) (c : Nat) (hc : c % CHUNK_ALIGN T = 0)
    (h : c + sizeof_size_t T + 8 ≤ SIZE_MOD T) :
    ALIGN_PTR_TO T (c + sizeof_size_t T) MALLOC_ALIGN % 8 = 0 ∧
    c + sizeof_size_t T ≤ ALIGN_PTR_TO T (c + sizeof_size_t T) MALLOC_ALIGN ∧
    ALIGN_PTR_TO T (c + sizeof_size_t T) MALLOC_ALIGN ≤
      c + sizeof_size_t T + MALLOC_PADDING T := by
  rw [align_user T c h]
  rcases T with _ | _ | _ <;> simp only [consts] at * <;> omega

/-- Every call of `nano_malloc` returns, and a non-null result is a live
pointer of the chunk the call has taken out of the free list or obtained from
the region source. -/
theorem nano_malloc_live (T : Target) (st : State) (l : List Node) (s fuel : Nat)
    (henv : Env T st) (hrepr : Repr T st.mem st.free_list l)
    (hn : NodesOK T (region_lo st) (st.brk + 1) l) (hal : NodesAligned T l)
    (hs : s < SIZE_MOD T) (hfuel : l.length < fuel) :
    ∃ st1 u, nano_malloc T fuel st s = .ok (st1, u) ∧
      (u ≠ 0 → ∃ l1 c sz,
        ¬ (request_size T s ≥ MAX_ALLOC_SIZE ∨ request_size T s < s) ∧
        u = ALIGN_PTR_TO T (c + sizeof_size_t T) MALLOC_ALIGN ∧
        Repr T st1.mem st1.free_list l1 ∧ NodesOK T (region_lo st1) (st1.brk + 1) l1 ∧
        NodesAligned T l1 ∧ Env T st1 ∧ st1.heap_end = st.heap_end ∧
        MallocStep T st l (request_size T s) st1 l1 c sz ∧
        LivePtr T st1 l1 c u ∧ chunk_size T st1.mem c = sz ∧
        u % 8 = 0 ∧ c + sizeof_size_t T ≤ u ∧ u ≤ c + sizeof_size_t T + MALLOC_PADDING T ∧
        request_size T s ≤ sz ∧ sz < request_size T s + MALLOC_MINCHUNK T ∧
        (∀ x, ¬ Covered l x → x < st.brk → st1.mem x = st.mem x)) := by
  by_cases hchk : request_size T s ≥ MAX_ALLOC_SIZE ∨ request_size T s < s
  · refine ⟨{ st with errno := ENOMEM }, 0, ?_, fun h => absurd rfl h⟩
    unfold nano_malloc
    simp only [hchk, if_true]
  · have hp := request_size_props T s hs hchk
    rcases nano_malloc_spec T st l s fuel henv hrepr hn hs hchk hfuel with
      ⟨b1, h1, _⟩ | ⟨st1, l1, c, sz, h1, h2, h3, h4, h5, h6, h7, h8⟩
    · exact ⟨_, 0, h1, fun h => absurd rfl h⟩
    · refine ⟨st1, _, h1, fun _ => ⟨l1, c, sz, hchk, rfl, h2, ?_⟩⟩
      obtain ⟨p1, p2, p3, p4, p5, p6, p7, p8, p9, p10, p11, p12⟩ :=
        malloc_step_props T st l _ st1 l1 c sz henv hn hp.1 hp.2.1 h6 h3 h5
      obtain ⟨hca, hal1⟩ := p12 hal
      have hup := h8 hca
      have hP : PTR_MOD T = SIZE_MOD T := by rcases T with _ | _ | _ <;> rfl
      have hmc : MALLOC_MINCHUNK T = sizeof_size_t T + MALLOC_PADDING T + MALLOC_MINSIZE T := rfl
      have hW8 : sizeof_size_t T + MALLOC_PADDING T = 8 := by
        rcases T with _ | _ | _ <;> simp only [consts]
      have hms : MALLOC_MINSIZE T = sizeof_size_t T ∧ 0 < sizeof_size_t T := by
        rcases T with _ | _ | _ <;> exact ⟨rfl, by decide⟩
      have hend := p1.end_lt
      have hb := aligned_user_bounds T c hca (by omega)
      have hu8 : ALIGN_PTR_TO T (c + sizeof_size_t T) MALLOC_ALIGN % CHUNK_ALIGN T = 0 := by
        have := hb.1
        rcases T with _ | _ | _ <;> simp only [consts] at * <;> omega
      have hcs := hup.1
      refine ⟨p4, hal1, p1, h3, h6, ⟨⟨hca, ?_, ?_, ?_, ?_, ?_⟩, ?_, hu8, ?_, ?_⟩, hcs,
        hb.1, hb.2.1, hb.2.2, p5, p6, h7⟩
      · rw [hcs]; exact p7
      · rw [hcs]; omega
      · rw [p2]; exact p8
      · rw [hcs]; exact p9
      · rw [hcs]; exact p10
      · rw [hcs]; exact hup
      · omega
      · rw [hcs]; omega

/-! ## nano_free on a chunk that is already free -/

/-- The walk of `nano_free` from the node `n`, when the chunk address lies at
or inside a free node: the walk stops at that node and the statements after
the walk report a double free. -/
theorem free_from_abort (T : Target) (st : State) (c lo hi : Nat)
    (hlo : 0 < lo) (hhi : hi ≤ SIZE_MOD T) :
    ∀ (rest : List Node) (n : Node) (fuel : Nat),
      Seg T st.mem n.1 (n :: rest) 0 → NodesOK T lo hi (n :: rest) →
      (∃ k ∈ n :: rest, k.1 ≤ c ∧ c < k.1 + k.2) → rest.length < fuel →
      ∃ p q, free_walk T st.mem c fuel n.1 = some (p, q) ∧
        free_link T st c p q = .abort .free_possible_double_free st := by
  intro rest
  induction rest with
  | nil =>
    intro n fuel hs hn hk hf
    obtain ⟨f, rfl⟩ : ∃ f, fuel = f + 1 := ⟨fuel - 1, by simp at hf; omega⟩
    obtain ⟨k, hk, hk1, hk2⟩ := hk
    have : k = n := by simpa using hk
    subst this
    have hq0 : chunk_next T st.mem k.1 = 0 := hs.2.2
    obtain ⟨a, b, c1, d, e⟩ := hn
    have ep : padd T k.1 k.2 = k.1 + k.2 := padd_eq T _ _ (by omega)
    refine ⟨k.1, 0, by simp [free_walk, hq0], ?_⟩
    unfold free_link
    have h1 : ¬ (k.1 + k.2 = c) := by omega
    have h2 : k.1 + k.2 > c := by omega
    simp only [hs.2.1, ep, h1, if_false, h2, if_true]
  | cons n2 rest2 ih =>
    intro n fuel hs hn hk hf
    obtain ⟨f, rfl⟩ : ∃ f, fuel = f + 1 := ⟨fuel - 1, by simp at hf; omega⟩
    have hq : chunk_next T st.mem n.1 = n2.1 := hs.2.2.1
    obtain ⟨a, b, c1, d, e⟩ := hn
    have e' := e
    obtain ⟨a2, b2, c2, d2, e2⟩ := e'
    obtain ⟨k, hk, hk1, hk2⟩ := hk
    by_cases hle : n2.1 ≤ c
    · have hs2 : Seg T st.mem n2.1 (n2 :: rest2) 0 := by
        have := hs.2.2
        rw [hq] at this
        exact this
      have hkr : k ∈ n2 :: rest2 := by
        rcases List.mem_cons.1 hk with hkn | hkr
        · subst hkn
          omega
        · exact hkr
      obtain ⟨p, q, h1, h2⟩ := ih n2 f hs2
        (nodesOK_mono T _ _ _ _ _ (by omega) (le_refl _) e) ⟨k, hkr, hk1, hk2⟩
        (by simp at hf; omega)
      refine ⟨p, q, ?_, h2⟩
      have hne : n2.1 ≠ 0 := by omega
      simp [free_walk, hq, hne, hle, h1]
    · have hkn : k = n := by
        rcases List.mem_cons.1 hk with hkn | hkr
        · exact hkn
        · have := nodesOK_mem T (n2 :: rest2) n2.1 hi k ⟨le_refl _, b2, c2, d2, e2⟩ hkr
          omega
      subst hkn
      have ep : padd T k.1 k.2 = k.1 + k.2 := padd_eq T _ _ (by omega)
      refine ⟨k.1, n2.1, by simp [free_walk, hq, hle], ?_⟩
      unfold free_link
      have h1 : ¬ (k.1 + k.2 = c) := by omega
      have h2 : k.1 + k.2 > c := by omega
      simp only [hs.2.1, ep, h1, if_false, h2, if_true]

/-- `nano_free` on a pointer whose chunk address lies at or inside a free node
and reads a size that is a multiple of `CHUNK_ALIGN`: the call reports a
possible double free and aborts in the state it was called in. -/
theorem nano_free_abort (T : Target) (st : State) (l : List Node) (u fuel : Nat)
    (henv : Env T st) (hrepr : Repr T st.mem st.free_list l)
    (hn : NodesOK T (region_lo st) (st.brk + 1) l) (hu : u ≠ 0)
    (hsz : chunk_size T st.mem (get_chunk_from_ptr T st.mem u) % CHUNK_ALIGN T = 0)
    (hin : ∃ k ∈ l, k.1 ≤ get_chunk_from_ptr T st.mem u ∧
      get_chunk_from_ptr T st.mem u < k.1 + k.2)
    (hfuel : l.length < fuel) :
    nano_free T fuel st u = .abort .free_possible_double_free st := by
  have hpm := ptr_mod_eq T
  have hrl := region_lo_le T st henv
  obtain ⟨e1, e2, e3, e4⟩ := henv
  generalize hc : get_chunk_from_ptr T st.mem u = c at *
  have hbog : ¬ (chunk_size T st.mem c &&& (CHUNK_ALIGN T - 1) ≠ 0) := by
    rw [and_chunk_mask]; simp [hsz]
  unfold nano_free
  simp only [hu, if_false, hc, hbog]
  cases l with
  | nil =>
    obtain ⟨k, hk, _⟩ := hin
    exact absurd hk (List.not_mem_nil k)
  | cons n rest =>
    obtain ⟨s1, s2, s3⟩ := hrepr
    have hn' := hn
    obtain ⟨a, b, c1, d, e⟩ := hn'
    have hne : ¬ (n.1 = 0) := by omega
    have hlt : ¬ (c < n.1) := by
      obtain ⟨k, hk, hk1, _⟩ := hin
      have := nodesOK_mem T (n :: rest) n.1 _ k ⟨le_refl _, b, c1, d, e⟩ hk
      omega
    simp only [s1, hne, if_false, hlt]
    obtain ⟨p, q, h1, h2⟩ := free_from_abort T st c (region_lo st) (st.brk + 1) hrl.1
      (by omega) rest n fuel ⟨rfl, s2, s3⟩ hn hin (by simp at hfuel; omega)
    rw [h1]
    simp only [h2]

theorem seg_mem (T : Target) (m : Mem) : ∀ (l : List Node) (h e : Nat) (n : Node),
    Seg T m h l e → n ∈ l →
    chunk_size T m n.1 = n.2 ∧ (chunk_next T m n.1 = e ∨ ∃ k ∈ l, chunk_next T m n.1 = k.1) := by
  intro l
  induction l with
  | nil => intro h e n _ hm; exact absurd hm (List.not_mem_nil n)
  | cons a rest ih =>
    intro h e n hs hm
    obtain ⟨_, s2, s3⟩ := hs
    rcases List.mem_cons.1 hm with hna | hnr
    · subst hna
      refine ⟨s2, ?_⟩
      cases rest with
      | nil => exact Or.inl s3
      | cons b rest2 => exact Or.inr ⟨b, by simp, s3.1⟩
    · obtain ⟨i1, i2⟩ := ih _ e n s3 hnr
      refine ⟨i1, ?_⟩
      rcases i2 with i2 | ⟨k, hk, i2⟩
      · exact Or.inl i2
      · exact Or.inr ⟨k, List.mem_cons_of_mem _ hk, i2⟩

/-- When no free node ends at `c`, the chunk at `c` heads a node of the free
list after the insertion, which holds at least the bytes of the chunk. -/
theorem insert_free_node (c sz : Nat) : ∀ l : List Node,
    (¬ ∃ k ∈ l, k.1 + k.2 = c) → ∃ sz1, (c, sz1) ∈ insert_free c sz l ∧ sz ≤ sz1 := by
  intro l
  induction l with
  | nil => intro _; exact ⟨sz, by simp [insert_free], le_refl _⟩
  | cons n rest ih =>
    intro h
    unfold insert_free
    by_cases h1 : c < n.1
    · simp only [h1, if_true]
      by_cases h2 : c + sz = n.1
      · simp only [h2, if_true]
        exact ⟨sz + n.2, by simp, by omega⟩
      · simp only [h2, if_false]
        exact ⟨sz, by simp, le_refl _⟩
    · have h3 : ¬ (n.1 + n.2 = c) := fun e => h ⟨n, by simp, e⟩
      simp only [h1, if_false, h3]
      obtain ⟨sz1, hm, hle⟩ := ih (fun ⟨k, hk, e⟩ => h ⟨k, List.mem_cons_of_mem _ hk, e⟩)
      exact ⟨sz1, List.mem_cons_of_mem _ hm, hle⟩

theorem size_at_next (T : Target) (m : Mem) (c : Nat) :
    chunk_size T m (c + sizeof_size_t T) = chunk_next T m c := by
  rcases T with _ | _ | _ <;> rfl

/-! ## nano_free on a live pointer -/

theorem live_ptr_chunk (T : Target) (st : State) (l : List Node) (c u : Nat)
    (henv : Env T st) (hlive : LivePtr T st l c u) :
    get_chunk_from_ptr T st.mem u = c ∧ u ≠ 0 ∧ c + sizeof_size_t T ≤ u ∧
    nano_malloc_usable_size T st.mem u =
      chunk_size T st.mem c - sizeof_size_t T - (u - sizeof_size_t T - c) := by
  have hc := hlive.chunk
  have hpc := ptr_chunk T st.mem c _ u hlive.user hc.aligned hlive.aligned hc.size_mod hlive.near
    (by have := hlive.payload; omega)
    (by have := hc.hi; have := henv.brk_le; have := henv.end_lt; omega)
  have hW := sizeof_pos T
  have h2 : c + sizeof_size_t T ≤ u := by
    rcases hlive.user.2 with h | h
    · omega
    · omega
  exact ⟨hpc.1, by omega, h2, hpc.2⟩

/-- What `nano_free` does to a live pointer: it returns, the free list becomes
the abstract insertion of the chunk and satisfies the invariants again. -/
theorem nano_free_live (T : Target) (st : State) (l : List Node) (c u fuel : Nat)
    (henv : Env T st) (hrepr : Repr T st.mem st.free_list l)
    (hn : NodesOK T (region_lo st) (st.brk + 1) l)
    (hlive : LivePtr T st l c u) (hfuel : l.length < fuel) :
    ∃ m1 h1, nano_free T fuel st u = .ok { st with mem := m1, free_list := h1 } ∧
      Repr T m1 h1 (insert_free c (chunk_size T st.mem c) l) ∧
      NodesOK T (region_lo st) (st.brk + 1) (insert_free c (chunk_size T st.mem c) l) ∧
      (∀ x, ¬ (c ≤ x ∧ x < c + 2 * sizeof_size_t T) → ¬ Covered l x → m1 x = st.mem x) ∧
      ((∃ k ∈ l, k.1 + k.2 = c) → ∀ x, ¬ Covered l x → m1 x = st.mem x) := by
  obtain ⟨hg, hu, _, _⟩ := live_ptr_chunk T st l c u henv hlive
  have hc := hlive.chunk
  have hsp := nano_free_spec T st l u fuel henv hrepr hn hu (by rw [hg]; exact hc) hfuel
  rw [hg] at hsp
  obtain ⟨m1, h1, a1, a2, a3, a4⟩ := hsp
  refine ⟨m1, h1, a1, a2, ?_, a3, a4⟩
  exact nodesOK_insert T _ _ _ hc.size_mod hc.size_min
    (by have := hc.hi; omega) l _ hn hc.lo hc.disjoint

/-- The bytes of a live chunk belong to no free node. -/
theorem live_not_covered (T : Target) (st : State) (l : List Node) (c x : Nat)
    (hc : LiveChunk T st l c) (h1 : c ≤ x) (h2 : x < c + chunk_size T st.mem c) :
    ¬ Covered l x := by
  rintro ⟨k, hk, k1, k2⟩
  have := hc.disjoint k hk
  omega

/-! ## Freeing a live pointer twice -/

/-- The second of two calls `nano_free(u); nano_free(u)` on a live pointer
reports a possible double free and aborts. -/
theorem double_free_second (T : Target) (st : State) (l : List Node) (c u fuel : Nat)
    (henv : Env T st) (hrepr : Repr T st.mem st.free_list l)
    (hn : NodesOK T (region_lo st) (st.brk + 1) l) (hal : NodesAligned T l)
    (hlive : LivePtr T st l c u) (hfuel : l.length + 1 < fuel) :
    ∃ st1, nano_free T fuel st u = .ok st1 ∧
      nano_free T fuel st1 u = .abort .free_possible_double_free st1 := by
  obtain ⟨m1, h1, a1, a2, a3, a4, a5⟩ :=
    nano_free_live T st l c u fuel henv hrepr hn hlive (by omega)
  obtain ⟨hg, hu, hcu, _⟩ := live_ptr_chunk T st l c u henv hlive
  have hc := hlive.chunk
  have hW := sizeof_pos T
  have hm := minchunk_eq T
  have hca := chunk_align_eq T
  have hpm := ptr_mod_eq T
  have hms : MALLOC_MINSIZE T = sizeof_size_t T := by rcases T with _ | _ | _ <;> rfl
  have hpay := hlive.payload
  have hhi := hc.hi
  have hmin := hc.size_min
  have hb1 := henv.brk_le
  have hb2 := henv.end_lt
  refine ⟨_, a1, ?_⟩
  have henv1 : Env T { st with mem := m1, free_list := h1 } :=
    ⟨henv.brk_pos, henv.brk_le, henv.end_lt, henv.start_le⟩
  have hlen := insert_free_length c (chunk_size T st.mem c) l
  have hcov : Covered (insert_free c (chunk_size T st.mem c) l) c :=
    (covered_insert c _ l c).2 (Or.inr ⟨le_refl _, by omega⟩)
  have hal1 := aligned_insert T c (chunk_size T st.mem c) hc.aligned l hal
  by_cases hpred : ∃ k ∈ l, k.1 + k.2 = c
  · have hfr := a5 hpred
    have e1 : chunk_size T m1 c = chunk_size T st.mem c :=
      chunk_size_congr T m1 st.mem c fun x x1 x2 =>
        hfr x (live_not_covered T st l c x hc x1 (by omega))
    have e2 : chunk_size T m1 (u - sizeof_size_t T) = chunk_size T st.mem (u - sizeof_size_t T) :=
      chunk_size_congr T m1 st.mem _ fun x x1 x2 =>
        hfr x (live_not_covered T st l c x hc (by omega) (by omega))
    have hup : UserPtr T m1 c (chunk_size T st.mem c) u := by
      refine ⟨e1, ?_⟩
      rcases hlive.user.2 with h | ⟨h, h'⟩
      · exact Or.inl h
      · exact Or.inr ⟨h, by rw [e2]; exact h'⟩
    have hpc := ptr_chunk T m1 c _ u hup hc.aligned hlive.aligned hc.size_mod hlive.near
      (by omega) (by omega)
    refine nano_free_abort T _ _ u fuel henv1 a2 a3 hu ?_ ?_ (by omega)
    · show chunk_size T m1 (get_chunk_from_ptr T m1 u) % CHUNK_ALIGN T = 0
      rw [hpc.1, e1]
      exact hc.size_mod
    · show ∃ k ∈ _, k.1 ≤ get_chunk_from_ptr T m1 u ∧ get_chunk_from_ptr T m1 u < k.1 + k.2
      rw [hpc.1]
      exact hcov
  · obtain ⟨sz1, hmem, hle⟩ := insert_free_node c (chunk_size T st.mem c) l hpred
    obtain ⟨s1, s2⟩ := seg_mem T m1 _ _ _ (c, sz1) a2 hmem
    have hnm := nodesOK_mem T _ _ _ (c, sz1) a3 hmem
    have s1' : chunk_size T m1 c = sz1 := s1
    have hnext : chunk_next T m1 c % CHUNK_ALIGN T = 0 := by
      rcases s2 with s2 | ⟨k, hk, s2⟩
      · have : chunk_next T m1 c = 0 := s2
        rw [this]; exact Nat.zero_mod _
      · have : chunk_next T m1 c = k.1 := s2
        rw [this]; exact hal1 k hk
    have hin : ∀ a, c ≤ a → a < c + sz1 →
        ∃ k ∈ insert_free c (chunk_size T st.mem c) l, k.1 ≤ a ∧ a < k.1 + k.2 :=
      fun a h1 h2 => ⟨(c, sz1), hmem, h1, h2⟩
    have hsz1m : sz1 % CHUNK_ALIGN T = 0 := hnm.2.2.1
    have hsz1hi : c + sz1 < st.brk + 1 := hnm.2.1
    have hcase : (u = c + sizeof_size_t T ∨ c + 3 * sizeof_size_t T ≤ u) ∨
        u = c + 2 * sizeof_size_t T := by
      have := hc.aligned
      have := hlive.aligned
      rcases hlive.user.2 with h | ⟨h, _⟩
      · exact Or.inl (Or.inl h)
      · rcases T with _ | _ | _ <;> simp only [consts] at * <;> omega
    rcases hcase with hcase | hcase
    · -- the word before the user pointer is untouched or is the header itself
      have hup : UserPtr T m1 c sz1 u := by
        refine ⟨s1', ?_⟩
        rcases hlive.user.2 with h | ⟨h, h'⟩
        · exact Or.inl h
        · have h3 : c + 3 * sizeof_size_t T ≤ u := by omega
          refine Or.inr ⟨h, ?_⟩
          rw [← h']
          exact chunk_size_congr T m1 st.mem _ fun x x1 x2 =>
            a4 x (by omega) (live_not_covered T st l c x hc (by omega) (by omega))
      have hpc := ptr_chunk T m1 c sz1 u hup hc.aligned hlive.aligned hsz1m hlive.near
        (by omega) (by omega)
      refine nano_free_abort T _ _ u fuel henv1 a2 a3 hu ?_ ?_ (by omega)
      · show chunk_size T m1 (get_chunk_from_ptr T m1 u) % CHUNK_ALIGN T = 0
        rw [hpc.1, s1']
        exact hsz1m
      · show ∃ k ∈ _, k.1 ≤ get_chunk_from_ptr T m1 u ∧ get_chunk_from_ptr T m1 u < k.1 + k.2
        rw [hpc.1]
        exact hin c (le_refl _) (by omega)
    · -- the skip-back record has been overwritten by the `next` field
      have hps : psub T u (CHUNK_OFFSET T) = c + sizeof_size_t T := by
        rw [psub_eq T _ _ (by rw [chunk_offset_eq]; omega) (by omega), chunk_offset_eq]
        omega
      have hev : chunk_next T m1 c &&& 1 = 0 := by
        apply and_one_even
        rcases T with _ | _ | _ <;> simp only [consts] at hnext <;> omega
      have hgc : get_chunk_from_ptr T m1 u = c + sizeof_size_t T := by
        unfold get_chunk_from_ptr
        simp only [hps, size_at_next, hev, ne_eq, not_true_eq_false, if_false]
      refine nano_free_abort T _ _ u fuel henv1 a2 a3 hu ?_ ?_ (by omega)
      · show chunk_size T m1 (get_chunk_from_ptr T m1 u) % CHUNK_ALIGN T = 0
        rw [hgc, size_at_next]
        exact hnext
      · show ∃ k ∈ _, k.1 ≤ get_chunk_from_ptr T m1 u ∧ get_chunk_from_ptr T m1 u < k.1 + k.2
        rw [hgc]
        exact hin _ (by omega) (by omega)

/-! ## A corrupted size field -/

/-- A user pointer that is preceded by a skip-back record leads back to the
header whatever the header holds. -/
theorem get_chunk_skip (T : Target) (m : Mem) (c u : Nat)
    (h3 : c + 2 * sizeof_size_t T ≤ u)
    (h4 : chunk_size T m (u - sizeof_size_t T) = (u - sizeof_size_t T - c) ||| 1)
    (hc : c % CHUNK_ALIGN T = 0) (hua : u % CHUNK_ALIGN T = 0)
    (hnear : u < c + sizeof_size_t T + MALLOC_MINCHUNK T) (hlt : u < PTR_MOD T) :
    get_chunk_from_ptr T m u = c := by
  have hW : CHUNK_OFFSET T = sizeof_size_t T := rfl
  have hP : PTR_MOD T = SIZE_MOD T := ptr_mod_eq T
  have hps : psub T u (CHUNK_OFFSET T) = u - sizeof_size_t T := by
    rw [psub_eq T _ _ (by rw [hW]; omega) (by omega), hW]
  have hd2 : (u - sizeof_size_t T - c) % 2 = 0 := by
    rcases T with _ | _ | _ <;> simp only [consts] at * <;> omega
  have hdu1 : u - sizeof_size_t T - c + 1 < UINT_MOD T := by
    rcases T with _ | _ | _ <;> simp only [consts] at * <;> omega
  have hodd : ((u - sizeof_size_t T - c) ||| 1) &&& 1 = 1 := and_one_odd _ hd2
  have hm1 : ((u - sizeof_size_t T - c) ||| 1) &&& (UINT_MOD T - 2) = u - sizeof_size_t T - c := by
    rw [or_one_even _ hd2, and_uint_mask T _ hdu1]
    omega
  have hps2 : psub T (u - sizeof_size_t T) (u - sizeof_size_t T - c) = c := by
    rw [psub_eq T _ _ (by omega) (by omega)]
    omega
  unfold get_chunk_from_ptr
  simp only [hps, h4, hodd, hm1, hps2, ne_eq, one_ne_zero, not_false_eq_true, if_true]

/-- `nano_free` reports a bogus chunk size when the size of the recovered
chunk is not a multiple of `CHUNK_ALIGN`. -/
theorem nano_free_bogus (T : Target) (st : State) (u fuel : Nat) (hu : u ≠ 0)
    (h : chunk_size T st.mem (get_chunk_from_ptr T st.mem u) % CHUNK_ALIGN T ≠ 0) :
    nano_free T fuel st u = .abort .free_bogus_heap_chunk_size st := by
  unfold nano_free
  have hbog : chunk_size T st.mem (get_chunk_from_ptr T st.mem u) &&& (CHUNK_ALIGN T - 1) ≠ 0 := by
    rw [and_chunk_mask]; exact h
  simp only [hu, if_false]
  rw [if_pos hbog]

/-! ## A request that fits a given chunk size -/

/-- A request that some free node can hold is served from the free list: the
call returns a non-null pointer and the region is not grown. -/
theorem nano_malloc_fits (T : Target) (st : State) (l : List Node) (s fuel : Nat)
    (henv : Env T st) (hrepr : Repr T st.mem st.free_list l)
    (hn : NodesOK T (region_lo st) (st.brk + 1) l) (hal : NodesAligned T l)
    (hs : s < SIZE_MOD T)
    (hchk : ¬ (request_size T s ≥ MAX_ALLOC_SIZE ∨ request_size T s < s))
    (hfit : ∃ k ∈ l, request_size T s ≤ k.2) (hfuel : l.length < fuel) :
    ∃ st1 p, nano_malloc T fuel st s = .ok (st1, p) ∧ p ≠ 0 ∧ st1.brk = st.brk ∧
      st1.sbrk_start = st.sbrk_start ∧ st1.heap_end = st.heap_end := by
  have hp := request_size_props T s hs hchk
  obtain ⟨k, hk, hk2⟩ := hfit
  rcases nano_malloc_spec T st l s fuel henv hrepr hn hs hchk hfuel with
    ⟨b1, _, _, _, h4, _⟩ | ⟨st1, l1, c, sz, h1, h2, h3, h4, h5, h6, h7, h8⟩
  · have := h4 k hk
    omega
  · obtain ⟨p1, p2, p3, p4, p5, p6, p7, p8, p9, p10, p11, p12⟩ :=
      malloc_step_props T st l _ st1 l1 c sz henv hn hp.1 hp.2.1 h6 h3 h5
    obtain ⟨hca, _⟩ := p12 hal
    have hpm := ptr_mod_eq T
    have hm := minchunk_eq T
    have hend := p1.end_lt
    have hb := aligned_user_bounds T c hca (by omega)
    have hW := sizeof_pos T
    refine ⟨st1, _, h1, by omega, ?_, ?_, h3⟩
    · rcases h6 with ⟨_, _, _, _, _, _, _, _, _, hb, _⟩ | ⟨hall, _⟩ | ⟨hall, _⟩
      · exact hb
      · have := hall k hk
        omega
      · have := hall k hk
        omega
    · rcases h6 with ⟨_, _, _, _, _, _, _, _, _, _, hss⟩ | ⟨hall, _⟩ | ⟨hall, _⟩
      · exact hss
      · have := hall k hk
        omega
      · have := hall k hk
        omega

/-! ## nano_memalign: the aligned pointer -/

/-- Writes outside the free nodes leave the free list as it is. -/
theorem seg_frame_cov (T : Target) (m m1 : Mem) : ∀ (l : List Node) (lo hi h e : Nat),
    NodesOK T lo hi l → (∀ x, Covered l x → m1 x = m x) → Seg T m h l e → Seg T m1 h l e := by
  intro l
  induction l with
  | nil => intro lo hi h e _ _ hs; exact hs
  | cons n rest ih =>
    intro lo hi h e hn hf hs
    obtain ⟨a, b, c, d, e1⟩ := hn
    obtain ⟨s1, s2, s3⟩ := hs
    have hW := sizeof_pos T
    have hm := minchunk_eq T
    have hcov : ∀ x, n.1 ≤ x → x < n.1 + n.2 → m1 x = m x :=
      fun x x1 x2 => hf x ((covered_cons n rest x).2 (Or.inl ⟨x1, x2⟩))
    have e2 : chunk_size T m1 n.1 = chunk_size T m n.1 :=
      chunk_size_congr T m1 m n.1 fun x x1 x2 => hcov x x1 (by omega)
    have e3 : chunk_next T m1 n.1 = chunk_next T m n.1 :=
      chunk_next_congr T m1 m n.1 fun x x1 x2 => hcov x (by omega) (by omega)
    refine ⟨s1, by rw [e2]; exact s2, ?_⟩
    rw [e3]
    exact ih _ _ _ _ e1 (fun x hx => hf x ((covered_cons n rest x).2 (Or.inr hx))) s3

/-- The alignment `MAX(align, MALLOC_ALIGN)` of a power of two is a power of
two that is at least 8. -/
theorem max_align_pow (j0 : Nat) : ∃ j, 3 ≤ j ∧ MAX (2 ^ j0) MALLOC_ALIGN = 2 ^ j := by
  unfold MAX MALLOC_ALIGN
  by_cases h : 3 ≤ j0
  · have : 2 ^ 3 ≤ 2 ^ j0 := Nat.pow_le_pow_right (by decide) h
    refine ⟨j0, h, ?_⟩
    rw [if_pos (by omega)]
  · have : 2 ^ j0 < 2 ^ 3 := Nat.pow_lt_pow_right (by decide) (by omega)
    refine ⟨3, le_refl _, ?_⟩
    rw [if_neg (by omega)]
    rfl

/-- A power of two passes the test `(align & (align-1)) != 0` of
`nano_memalign`. -/
theorem pow_two_check (T : Target) (j0 : Nat) (h : 2 ^ j0 < SIZE_MOD T) :
    2 ^ j0 &&& ((2 ^ j0 + SIZE_MOD T - 1) % SIZE_MOD T) = 0 := by
  have hpos : 0 < 2 ^ j0 := Nat.two_pow_pos _
  have e : (2 ^ j0 + SIZE_MOD T - 1) % SIZE_MOD T = 2 ^ j0 - 1 := by
    have : 2 ^ j0 + SIZE_MOD T - 1 = (2 ^ j0 - 1) + SIZE_MOD T := by omega
    rw [this, Nat.add_mod_right]
    exact Nat.mod_eq_of_lt (by omega)
  rw [e, Nat.and_pow_two_sub_one_eq_mod, Nat.mod_self]

/-- The pointer `aligned_p` of `nano_memalign` in a chunk at `c` of `sz` bytes
that holds `ma` bytes and the alignment besides the header. -/
theorem memalign_aligned_p (T : Target) (c j sz ma : Nat) (hj : 3 ≤ j)
    (hca : c % CHUNK_ALIGN T = 0) (hsz : ma + 2 ^ j ≤ sz) (hma : sizeof_size_t T ≤ ma)
    (hlt : c + sz < PTR_MOD T) :
    ALIGN_PTR_TO T (c + sizeof_size_t T) (2 ^ j) % 2 ^ j = 0 ∧
    ALIGN_PTR_TO T (c + sizeof_size_t T) (2 ^ j) % 8 = 0 ∧
    ALIGN_PTR_TO T (c + sizeof_size_t T) (2 ^ j) % CHUNK_ALIGN T = 0 ∧
    c + sizeof_size_t T ≤ ALIGN_PTR_TO T (c + sizeof_size_t T) (2 ^ j) ∧
    ALIGN_PTR_TO T (c + sizeof_size_t T) (2 ^ j) < c + sizeof_size_t T + 2 ^ j ∧
    ALIGN_PTR_TO T (c + sizeof_size_t T) (2 ^ j) + ma ≤ c + sz := by
  have hW := sizeof_pos T
  have hjlt : j ≤ 8 * sizeof_ptr T := by
    have h1 : 2 ^ j < 2 ^ (8 * sizeof_ptr T) := by
      have : PTR_MOD T = 2 ^ (8 * sizeof_ptr T) := rfl
      omega
    exact le_of_lt ((Nat.pow_lt_pow_iff_right (by decide)).1 h1)
  rw [align_ptr_to_pow T _ j hjlt]
  have h8 : 2 ^ j % 8 = 0 := by
    have : (2 : Nat) ^ 3 ∣ 2 ^ j := pow_dvd_pow 2 hj
    exact Nat.mod_eq_zero_of_dvd this
  have hpos : 0 < 2 ^ j := Nat.two_pow_pos _
  generalize 2 ^ j = A at *
  have hx : (c + sizeof_size_t T + A - 1) % PTR_MOD T = c + sizeof_size_t T + A - 1 :=
    Nat.mod_eq_of_lt (by omega)
  rw [hx]
  have hmA : (c + sizeof_size_t T + A - 1 - (c + sizeof_size_t T + A - 1) % A) % A = 0 :=
    Nat.sub_mod_eq_zero_of_mod_eq (Nat.mod_mod _ _).symm
  have hml := Nat.mod_lt (c + sizeof_size_t T + A - 1) hpos
  generalize (c + sizeof_size_t T + A - 1) % A = r at *
  have hm8 : (c + sizeof_size_t T + A - 1 - r) % 8 = 0 := by
    have h1 : A ∣ c + sizeof_size_t T + A - 1 - r := Nat.dvd_of_mod_eq_zero hmA
    have h2 : 8 ∣ A := Nat.dvd_of_mod_eq_zero h8
    exact Nat.mod_eq_zero_of_dvd (Nat.dvd_trans h2 h1)
  refine ⟨hmA, hm8, ?_, ?_, ?_, ?_⟩
  · rcases T with _ | _ | _ <;> simp only [consts] at * <;> omega
  · omega
  · omega
  · rcases T with _ | _ | _ <;> simp only [consts] at * <;> omega

/-! ## nano_memalign: the front of the chunk -/

theorem not_covered_of_disjoint (l : List Node) (c sz : Nat)
    (hdis : ∀ k ∈ l, k.1 + k.2 ≤ c ∨ c + sz ≤ k.1) :
    ∀ x, c ≤ x → x < c + sz → ¬ Covered l x := by
  rintro x h1 h2 ⟨k, hk, k1, k2⟩
  have := hdis k hk
  omega

/-- The block `if (offset)` of `nano_memalign` on the chunk at `c` of `sz`
bytes: afterwards the chunk starts at `cp`, still ends at `c + sz`, and the
aligned pointer `ap` is a user pointer of it; a front part that was split off
has joined the free list. -/
theorem memalign_front_spec (T : Target) (stm : State) (l1 : List Node) (c sz ap fuel : Nat)
    (henv : Env T stm) (hrepr : Repr T stm.mem stm.free_list l1)
    (hn : NodesOK T (region_lo stm) (stm.brk + 1) l1)
    (hca : c % CHUNK_ALIGN T = 0) (hcs : chunk_size T stm.mem c = sz)
    (hszm : sz % CHUNK_ALIGN T = 0) (hlo : region_lo stm ≤ c) (hhi : c + sz ≤ stm.brk)
    (hdis : ∀ k ∈ l1, k.1 + k.2 ≤ c ∨ c + sz ≤ k.1)
    (hap1 : c + sizeof_size_t T ≤ ap) (hapm : ap % CHUNK_ALIGN T = 0)
    (hap2 : ap + sizeof_size_t T ≤ c + sz) (hfuel : l1.length < fuel) :
    ∃ sf cp lf, memalign_front T fuel stm c (ap - (c + sizeof_size_t T)) = .ok (sf, cp) ∧
      Repr T sf.mem sf.free_list lf ∧ NodesOK T (region_lo stm) (stm.brk + 1) lf ∧
      sf.brk = stm.brk ∧ sf.sbrk_start = stm.sbrk_start ∧ sf.heap_end = stm.heap_end ∧
      lf.length ≤ l1.length + 1 ∧
      cp % CHUNK_ALIGN T = 0 ∧ c ≤ cp ∧ cp + sizeof_size_t T ≤ ap ∧
      ap < cp + sizeof_size_t T + MALLOC_MINCHUNK T ∧
      UserPtr T sf.mem cp (c + sz - cp) ap ∧
      (∀ x, cp ≤ x → x < c + sz → ¬ Covered lf x) ∧
      (NodesAligned T l1 → NodesAligned T lf) ∧
      (c < cp → MALLOC_MINCHUNK T ≤ cp - c) ∧
      (∀ x, c ≤ x → x < cp → Covered lf x) ∧
      (∀ x, Covered l1 x → Covered lf x) := by
  have hW := sizeof_pos T
  have hm := minchunk_eq T
  have hcae := chunk_align_eq T
  have hpm := ptr_mod_eq T
  have hb1 := henv.brk_le
  have hb2 := henv.end_lt
  have hncov := not_covered_of_disjoint l1 c sz hdis
  generalize hoff : ap - (c + sizeof_size_t T) = off
  have hoffm : off % CHUNK_ALIGN T = 0 := by
    rcases T with _ | _ | _ <;> simp only [consts] at * <;> omega
  unfold memalign_front
  by_cases h0 : off = 0
  · simp only [h0, ne_eq, not_true_eq_false, if_false]
    refine ⟨stm, c, l1, rfl, hrepr, hn, rfl, rfl, rfl, by omega, hca, le_refl _, hap1,
      by omega, ⟨?_, Or.inl (by omega)⟩, hncov, fun h => h, fun h => by omega,
      fun x x1 x2 => by omega, fun x h => h⟩
    rw [hcs]; omega
  · by_cases hbig : off ≥ MALLOC_MINCHUNK T
    · -- the front part is split off and freed
      have ep : padd T c off = c + off := padd_eq T _ _ (by omega)
      have ep2 : padd T c (CHUNK_OFFSET T) = c + sizeof_size_t T := by
        rw [chunk_offset_eq]; exact padd_eq T _ _ (by omega)
      have es : ssub T sz off = sz - off := ssub_eq T _ _ (by omega) (by omega)
      simp only [h0, ne_eq, not_false_eq_true, if_true, hbig, ge_iff_le, ep, ep2, hcs, es]
      generalize hm2 : set_size T (set_size T stm.mem (c + off) (sz - off)) c off = m2
      have hfr : ∀ x, x < c ∨ c + sz ≤ x → m2 x = stm.mem x := by
        intro x hx
        rw [← hm2, set_size_apply T _ _ _ _ (by omega), set_size_apply T _ _ _ _ (by omega)]
      have hsz2 : chunk_size T m2 c = off := by
        rw [← hm2, size_set_size]
        exact Nat.mod_eq_of_lt (by omega)
      have hszp : chunk_size T m2 (c + off) = sz - off := by
        rw [← hm2, size_set_size_ne T _ _ _ _ (by omega), size_set_size]
        exact Nat.mod_eq_of_lt (by omega)
      have henv2 : Env T { stm with mem := m2 } :=
        ⟨henv.brk_pos, henv.brk_le, henv.end_lt, henv.start_le⟩
      have hrepr2 : Repr T m2 stm.free_list l1 :=
        seg_frame_cov T stm.mem m2 l1 _ _ _ _ hn (fun x hx => hfr x (by
          by_contra hcon
          exact hncov x (by omega) (by omega) hx)) hrepr
      have hlive : LivePtr T { stm with mem := m2 } l1 c (c + sizeof_size_t T) := by
        refine ⟨⟨hca, ?_, ?_, hlo, ?_, ?_⟩, ⟨rfl, Or.inl rfl⟩, ?_, by omega, ?_⟩
        · show chunk_size T m2 c % CHUNK_ALIGN T = 0
          rw [hsz2]; exact hoffm
        · show MALLOC_MINCHUNK T ≤ chunk_size T m2 c
          rw [hsz2]; exact hbig
        · show c + chunk_size T m2 c ≤ stm.brk
          rw [hsz2]; omega
        · intro k hk
          show k.1 + k.2 ≤ c ∨ c + chunk_size T m2 c ≤ k.1
          rw [hsz2]
          have := hdis k hk
          omega
        · rcases T with _ | _ | _ <;> simp only [consts] at * <;> omega
        · show c + sizeof_size_t T + MALLOC_MINSIZE T ≤ c + chunk_size T m2 c
          rw [hsz2]
          have : MALLOC_MINSIZE T = sizeof_size_t T := by rcases T with _ | _ | _ <;> rfl
          omega
      obtain ⟨m3, h3, a1, a2, a3, a4, _⟩ :=
        nano_free_live T { stm with mem := m2 } l1 c (c + sizeof_size_t T) fuel henv2 hrepr2 hn
          hlive hfuel
      have a2' : Repr T m3 h3 (insert_free c off l1) := by
        have := a2
        rw [show chunk_size T ({ stm with mem := m2 } : State).mem c = off from hsz2] at this
        exact this
      have a3' : NodesOK T (region_lo stm) (stm.brk + 1) (insert_free c off l1) := by
        have := a3
        rw [show chunk_size T ({ stm with mem := m2 } : State).mem c = off from hsz2] at this
        exact this
      rw [a1]
      refine ⟨_, c + off, insert_free c off l1, rfl, a2', a3', rfl, rfl, rfl,
        insert_free_length c off l1, ?_, by omega, by omega, by omega, ⟨?_, Or.inl (by omega)⟩,
        ?_, fun h => aligned_insert T c off hca l1 h, fun _ => by omega,
        fun x x1 x2 => (covered_insert c off l1 x).2 (Or.inr ⟨x1, by omega⟩),
        fun x h => (covered_insert c off l1 x).2 (Or.inl h)⟩
      · rcases T with _ | _ | _ <;> simp only [consts] at * <;> omega
      · show chunk_size T m3 (c + off) = c + sz - (c + off)
        rw [chunk_size_congr T m3 m2 (c + off) (fun x x1 x2 =>
          a4 x (by omega) (hncov x (by omega) (by omega))), hszp]
        omega
      · intro x x1 x2 hcov
        rcases (covered_insert c off l1 x).1 hcov with h | h
        · exact hncov x (by omega) x2 h
        · omega
    · -- a skip-back record is written before the aligned pointer
      have hge : off ≥ sizeof_size_t T := by
        rcases T with _ | _ | _ <;> simp only [consts] at * <;> omega
      have ep : padd T c off = c + off := padd_eq T _ _ (by omega)
      simp only [h0, ne_eq, not_false_eq_true, if_true, hbig, ge_iff_le, if_false, hge, ep]
      have hoff2 : off % 2 = 0 := by
        rcases T with _ | _ | _ <;> simp only [consts] at * <;> omega
      have hfr : ∀ x, x < c + sizeof_size_t T ∨ c + sz ≤ x →
          set_size T stm.mem (c + off) (off ||| 1) x = stm.mem x := by
        intro x hx
        rw [set_size_apply T _ _ _ _ (by omega)]
      refine ⟨_, c, l1, rfl, ?_, hn, rfl, rfl, rfl, by omega, hca, le_refl _, hap1, by omega,
        ⟨?_, Or.inr ⟨by omega, ?_⟩⟩, hncov, fun h => h, fun h => by omega,
        fun x x1 x2 => by omega, fun x h => h⟩
      · exact seg_frame_cov T stm.mem _ l1 _ _ _ _ hn (fun x hx => hfr x (by
          by_contra hcon
          exact hncov x (by omega) (by omega) hx)) hrepr
      · show chunk_size T (set_size T stm.mem (c + off) (off ||| 1)) c = c + sz - c
        rw [size_set_size_ne T _ _ _ _ (by omega), hcs]
        omega
      · show chunk_size T (set_size T stm.mem (c + off) (off ||| 1)) (ap - sizeof_size_t T) =
          (ap - sizeof_size_t T - c) ||| 1
        have e1 : ap - sizeof_size_t T = c + off := by omega
        have e2 : c + off - c = off := by omega
        rw [e1, e2, size_set_size, or_one_even _ hoff2]
        exact Nat.mod_eq_of_lt (by omega)

/-! ## nano_memalign: the tail of the chunk -/

/-- The tail block of `nano_memalign` on the chunk `[cp, e)` with the aligned
pointer `ap`: afterwards the chunk ends at `e5`, which is `e` or, when the tail
was split off and freed, `ap + ma`; `ap` is still a user pointer of it. -/
theorem memalign_tail_spec (T : Target) (sf : State) (lf : List Node) (cp e ap ma fuel : Nat)
    (henv : Env T sf) (hroom : sf.heap_end + MALLOC_MINCHUNK T < PTR_MOD T)
    (hrepr : Repr T sf.mem sf.free_list lf)
    (hn : NodesOK T (region_lo sf) (sf.brk + 1) lf)
    (hcp : cp % CHUNK_ALIGN T = 0) (he : e % CHUNK_ALIGN T = 0)
    (hlo : region_lo sf ≤ cp) (hhi : e ≤ sf.brk)
    (hncov : ∀ x, cp ≤ x → x < e → ¬ Covered lf x)
    (hup : UserPtr T sf.mem cp (e - cp) ap) (hap1 : cp + sizeof_size_t T ≤ ap)
    (hapm : ap % CHUNK_ALIGN T = 0) (hma : ma % CHUNK_ALIGN T = 0)
    (hma1 : sizeof_size_t T ≤ ma) (hap2 : ap + ma ≤ e) (hfuel : lf.length < fuel) :
    ∃ s5 l5 e5, memalign_tail T fuel sf cp ap ma = .ok (s5, ap) ∧
      Repr T s5.mem s5.free_list l5 ∧ NodesOK T (region_lo sf) (sf.brk + 1) l5 ∧
      s5.brk = sf.brk ∧ s5.sbrk_start = sf.sbrk_start ∧ s5.heap_end = sf.heap_end ∧
      s5.errno = sf.errno ∧
      ap + ma ≤ e5 ∧ e5 ≤ e ∧ e5 ≤ ap + ma + MALLOC_MINCHUNK T ∧ e5 % CHUNK_ALIGN T = 0 ∧
      UserPtr T s5.mem cp (e5 - cp) ap ∧
      (∀ x, cp ≤ x → x < e5 → ¬ Covered l5 x) ∧
      (NodesAligned T lf → NodesAligned T l5) ∧
      (e5 < e → MALLOC_MINCHUNK T < e - e5) ∧
      (∀ x, e5 ≤ x → x < e → Covered l5 x) ∧
      (∀ x, Covered lf x → Covered l5 x) := by
  have hW := sizeof_pos T
  have hm := minchunk_eq T
  have hcae := chunk_align_eq T
  have hpm := ptr_mod_eq T
  have hb1 := henv.brk_le
  have hb2 := henv.end_lt
  have hsz := hup.1
  have e1 : padd T cp (e - cp) = e := by
    rw [padd_eq T _ _ (by omega)]; omega
  have e2 : padd T ap ma = ap + ma := padd_eq T _ _ (by omega)
  have e3 : padd T (ap + ma) (MALLOC_MINCHUNK T) = ap + ma + MALLOC_MINCHUNK T :=
    padd_eq T _ _ (by omega)
  unfold memalign_tail
  simp only [hsz, e1, e2, e3]
  by_cases ht : e > ap + ma + MALLOC_MINCHUNK T
  · have e4 : psub T (ap + ma) cp = ap + ma - cp := psub_eq T _ _ (by omega) (by omega)
    have e5 : chunk_size T (set_size T sf.mem cp (ap + ma - cp)) cp = ap + ma - cp := by
      rw [size_set_size]; exact Nat.mod_eq_of_lt (by omega)
    have e6 : ssub T (e - cp) (ap + ma - cp) = e - (ap + ma) := by
      rw [ssub_eq T _ _ (by omega) (by omega)]; omega
    have e7 : padd T (ap + ma) (CHUNK_OFFSET T) = ap + ma + sizeof_size_t T := by
      rw [chunk_offset_eq]; exact padd_eq T _ _ (by omega)
    simp only [ht, if_true, e4, e5, e6, e7]
    generalize hm2 : set_size T (set_size T sf.mem cp (ap + ma - cp)) (ap + ma)
      (e - (ap + ma)) = m2
    have hfr : ∀ x, x < cp ∨ e ≤ x → m2 x = sf.mem x := by
      intro x hx
      rw [← hm2, set_size_apply T _ _ _ _ (by omega), set_size_apply T _ _ _ _ (by omega)]
    have hszt : chunk_size T m2 (ap + ma) = e - (ap + ma) := by
      rw [← hm2, size_set_size]
      exact Nat.mod_eq_of_lt (by omega)
    have hszc : chunk_size T m2 cp = ap + ma - cp := by
      rw [← hm2, size_set_size_ne T _ _ _ _ (by omega)]
      exact e5
    have hrec : cp + 2 * sizeof_size_t T ≤ ap →
        chunk_size T m2 (ap - sizeof_size_t T) = chunk_size T sf.mem (ap - sizeof_size_t T) := by
      intro h
      rw [← hm2, size_set_size_ne T _ _ _ _ (by omega), size_set_size_ne T _ _ _ _ (by omega)]
    have henv2 : Env T { sf with mem := m2 } :=
      ⟨henv.brk_pos, henv.brk_le, henv.end_lt, henv.start_le⟩
    have hrepr2 : Repr T m2 sf.free_list lf :=
      seg_frame_cov T sf.mem m2 lf _ _ _ _ hn (fun x hx => hfr x (by
        by_contra hcon
        exact hncov x (by omega) (by omega) hx)) hrepr
    have htm : (ap + ma) % CHUNK_ALIGN T = 0 := add_mod_zero _ _ _ hapm hma
    have htsz : (e - (ap + ma)) % CHUNK_ALIGN T = 0 := sub_mod_zero _ _ _ he htm
    have hlive : LivePtr T { sf with mem := m2 } lf (ap + ma) (ap + ma + sizeof_size_t T) := by
      refine ⟨⟨htm, ?_, ?_, (show region_lo sf ≤ ap + ma by omega), ?_, ?_⟩,
        ⟨rfl, Or.inl rfl⟩, ?_, by omega, ?_⟩
      · show chunk_size T m2 (ap + ma) % CHUNK_ALIGN T = 0
        rw [hszt]; exact htsz
      · show MALLOC_MINCHUNK T ≤ chunk_size T m2 (ap + ma)
        rw [hszt]; omega
      · show ap + ma + chunk_size T m2 (ap + ma) ≤ sf.brk
        rw [hszt]; omega
      · show ∀ k ∈ lf, k.1 + k.2 ≤ ap + ma ∨ ap + ma + chunk_size T m2 (ap + ma) ≤ k.1
        rw [hszt]
        exact disjoint_of_not_covered T lf _ _ _ _ hn (by omega)
          (fun x x1 x2 => hncov x (by omega) (by omega))
      · rcases T with _ | _ | _ <;> simp only [consts] at * <;> omega
      · show ap + ma + sizeof_size_t T + MALLOC_MINSIZE T ≤ ap + ma + chunk_size T m2 (ap + ma)
        rw [hszt]
        have : MALLOC_MINSIZE T = sizeof_size_t T := by rcases T with _ | _ | _ <;> rfl
        omega
    obtain ⟨m5, h5, a1, a2, a3, a4, _⟩ :=
      nano_free_live T { sf with mem := m2 } lf (ap + ma) (ap + ma + sizeof_size_t T) fuel
        henv2 hrepr2 hn hlive hfuel
    have a2' : Repr T m5 h5 (insert_free (ap + ma) (e - (ap + ma)) lf) := by
      have := a2
      rw [show chunk_size T ({ sf with mem := m2 } : State).mem (ap + ma) = e - (ap + ma)
        from hszt] at this
      exact this
    have a3' : NodesOK T (region_lo sf) (sf.brk + 1)
        (insert_free (ap + ma) (e - (ap + ma)) lf) := by
      have := a3
      rw [show chunk_size T ({ sf with mem := m2 } : State).mem (ap + ma) = e - (ap + ma)
        from hszt] at this
      exact this
    have hkeep : ∀ x, cp ≤ x → x < ap → m5 x = m2 x := fun x x1 x2 =>
      a4 x (by omega) (hncov x x1 (by omega))
    rw [a1]
    refine ⟨_, insert_free (ap + ma) (e - (ap + ma)) lf, ap + ma, rfl, a2', a3', rfl, rfl, rfl,
      rfl, le_refl _, by omega, by omega, htm, ⟨?_, ?_⟩, ?_,
      fun h => aligned_insert T _ _ htm lf h, fun _ => by omega,
      fun x x1 x2 => (covered_insert _ _ lf x).2 (Or.inr ⟨x1, by omega⟩),
      fun x h => (covered_insert _ _ lf x).2 (Or.inl h)⟩
    · show chunk_size T m5 cp = ap + ma - cp
      rw [chunk_size_congr T m5 m2 cp (fun x x1 x2 => hkeep x x1 (by omega)), hszc]
    · rcases hup.2 with h | ⟨h, h'⟩
      · exact Or.inl h
      · refine Or.inr ⟨h, ?_⟩
        show chunk_size T m5 (ap - sizeof_size_t T) = _
        rw [chunk_size_congr T m5 m2 (ap - sizeof_size_t T)
          (fun x x1 x2 => hkeep x (by omega) (by omega)), hrec h]
        exact h'
    · intro x x1 x2 hcov
      rcases (covered_insert _ _ lf x).1 hcov with h | h
      · exact hncov x x1 (by omega) h
      · omega
  · simp only [ht, if_false]
    exact ⟨sf, lf, e, rfl, hrepr, hn, rfl, rfl, rfl, rfl, hap2, le_refl _, by omega, he, hup,
      hncov, fun h => h, fun h => by omega, fun x x1 x2 => by omega, fun x h => h⟩

/-! ## nano_memalign -/

theorem env_of_eq (T : Target) (st st1 : State) (henv : Env T st) (h1 : st1.brk = st.brk)
    (h2 : st1.sbrk_start = st.sbrk_start) (h3 : st1.heap_end = st.heap_end) : Env T st1 := by
  obtain ⟨e1, e2, e3, e4⟩ := henv
  exact ⟨by omega, by omega, by omega, by omega⟩

theorem region_lo_eq (st st1 : State) (h1 : st1.brk = st.brk)
    (h2 : st1.sbrk_start = st.sbrk_start) : region_lo st1 = region_lo st := by
  unfold region_lo
  rw [h1, h2]

/-- The padded size `ma_size` of `nano_memalign`. -/
theorem ma_size_spec (T : Target) (s : Nat) (h : ¬ s > SIZE_MOD T - 1 - CHUNK_ALIGN T) :
    ALIGN_TO T (MAX s (MALLOC_MINSIZE T)) (CHUNK_ALIGN T) % CHUNK_ALIGN T = 0 ∧
    s ≤ ALIGN_TO T (MAX s (MALLOC_MINSIZE T)) (CHUNK_ALIGN T) ∧
    sizeof_size_t T ≤ ALIGN_TO T (MAX s (MALLOC_MINSIZE T)) (CHUNK_ALIGN T) := by
  rw [align_to_chunk]
  unfold MAX
  rcases T with _ | _ | _ <;> simp only [consts] at * <;> split_ifs <;> omega

/-- What `nano_memalign` does for a power-of-two alignment: it returns, and a
non-null result `u` is a multiple of the alignment and a user pointer of a
chunk `[c, e)` of the region that shares no byte with the free list and holds
the requested bytes behind `u`. -/
theorem nano_memalign_spec (T : Target) (st : State) (l : List Node) (j0 s fuel : Nat)
    (henv : Env T st) (hroom : st.heap_end + MALLOC_MINCHUNK T < PTR_MOD T)
    (hrepr : Repr T st.mem st.free_list l)
    (hn : NodesOK T (region_lo st) (st.brk + 1) l) (hal : NodesAligned T l)
    (hj : 2 ^ j0 < SIZE_MOD T) (hs : s < SIZE_MOD T) (hfuel : l.length + 1 < fuel) :
    ∃ st1 u, nano_memalign T fuel st (2 ^ j0) s = .ok (st1, u) ∧
      (u ≠ 0 → u % MAX (2 ^ j0) MALLOC_ALIGN = 0 ∧ u % 8 = 0 ∧
        ∃ l1 c e, Repr T st1.mem st1.free_list l1 ∧
          NodesOK T (region_lo st1) (st1.brk + 1) l1 ∧ NodesAligned T l1 ∧ Env T st1 ∧
          c % CHUNK_ALIGN T = 0 ∧ e % CHUNK_ALIGN T = 0 ∧ region_lo st1 ≤ c ∧ e ≤ st1.brk ∧
          (∀ x, c ≤ x → x < e → ¬ Covered l1 x) ∧
          UserPtr T st1.mem c (e - c) u ∧ c + sizeof_size_t T ≤ u ∧
          u < c + sizeof_size_t T + MALLOC_MINCHUNK T ∧ u + s ≤ e ∧
          u + MALLOC_MINSIZE T ≤ e ∧
          ∃ stm al c0 sz0,
            nano_malloc T fuel st (ALIGN_TO T (MAX s (MALLOC_MINSIZE T)) (CHUNK_ALIGN T) +
              (MAX (2 ^ j0) MALLOC_ALIGN - MALLOC_ALIGN)) = .ok (stm, al) ∧
            get_chunk_from_ptr T stm.mem al = c0 ∧ chunk_size T stm.mem c0 = sz0 ∧
            c0 ≤ c ∧ e ≤ c0 + sz0 ∧
            (c0 < c → MALLOC_MINCHUNK T ≤ c - c0) ∧
            (e < c0 + sz0 → MALLOC_MINCHUNK T < c0 + sz0 - e) ∧
            (∀ x, c0 ≤ x → x < c → Covered l1 x) ∧
            (∀ x, e ≤ x → x < c0 + sz0 → Covered l1 x) ∧
            u + ALIGN_TO T (MAX s (MALLOC_MINSIZE T)) (CHUNK_ALIGN T) ≤ e) := by
  have hW := sizeof_pos T
  have hm := minchunk_eq T
  have hcae := chunk_align_eq T
  have hpm := ptr_mod_eq T
  have hpad := padding_eq T
  have hms : MALLOC_MINSIZE T = sizeof_size_t T := by rcases T with _ | _ | _ <;> rfl
  obtain ⟨j, hj3, hA⟩ := max_align_pow j0
  have hpos : 0 < 2 ^ j := Nat.two_pow_pos _
  have h8 : 8 ≤ 2 ^ j := by
    have : 2 ^ 3 ≤ 2 ^ j := Nat.pow_le_pow_right (by decide) hj3
    omega
  unfold nano_memalign
  have hchk0 : ¬ (2 ^ j0 &&& ((2 ^ j0 + SIZE_MOD T - 1) % SIZE_MOD T) ≠ 0) := by
    rw [pow_two_check T j0 hj]; simp
  simp only [hchk0, if_false, hA]
  by_cases h1 : s > SIZE_MOD T - 1 - CHUNK_ALIGN T
  · simp only [h1, if_true]
    exact ⟨_, 0, rfl, fun h => absurd rfl h⟩
  simp only [h1, if_false]
  obtain ⟨hma, hmas, hmaw⟩ := ma_size_spec T s h1
  generalize ALIGN_TO T (MAX s (MALLOC_MINSIZE T)) (CHUNK_ALIGN T) = ma at *
  have hMA : MALLOC_ALIGN = 8 := rfl
  by_cases h2 : ma > SIZE_MOD T - 1 - (2 ^ j - MALLOC_ALIGN)
  · simp only [h2, if_true]
    exact ⟨_, 0, rfl, fun h => absurd rfl h⟩
  simp only [h2, if_false]
  have hswp : ma + (2 ^ j - MALLOC_ALIGN) < SIZE_MOD T := by omega
  clear h1 h2 hchk0
  obtain ⟨stm, al, hm1, hm2⟩ :=
    nano_malloc_live T st l (ma + (2 ^ j - MALLOC_ALIGN)) fuel henv hrepr hn hal hswp
      (by omega)
  simp only [hm1]
  simp only [Outcome.bind]
  by_cases hal0 : al = 0
  · simp only [hal0, if_true]
    exact ⟨_, 0, rfl, fun h => absurd rfl h⟩
  simp only [hal0, if_false]
  obtain ⟨l1, c, sz, hchk, _, hrepr1, hn1, hal1, henv1, hhe, hstep, hlive, hcs, _, _, _, hsz1,
    _, _⟩ := hm2 hal0
  obtain ⟨hg, _, _, _⟩ := live_ptr_chunk T stm l1 c al henv1 hlive
  have hrp := request_size_props T (ma + (2 ^ j - MALLOC_ALIGN)) hswp hchk
  have hc := hlive.chunk
  have hca := hc.aligned
  have hszm := hc.size_mod
  have hlo := hc.lo
  have hhi := hc.hi
  have hdis := hc.disjoint
  rw [hcs] at hszm hhi hdis
  have hb1 := henv1.brk_le
  have hb2 := henv1.end_lt
  have hszge : ma + 2 ^ j ≤ sz := by
    have := hrp.2.2.1
    rw [chunk_offset_eq] at this
    omega
  have ep : padd T c (CHUNK_OFFSET T) = c + sizeof_size_t T := by
    rw [chunk_offset_eq]; exact padd_eq T _ _ (by omega)
  obtain ⟨p1, p2, p3, p4, p5, p6⟩ :=
    memalign_aligned_p T c j sz ma hj3 hca hszge hmaw (by omega)
  simp only [hg, ep]
  generalize ALIGN_PTR_TO T (c + sizeof_size_t T) (2 ^ j) = ap at *
  have eo : psub T ap (c + sizeof_size_t T) = ap - (c + sizeof_size_t T) :=
    psub_eq T _ _ p4 (by omega)
  rw [eo]
  have hlen1 := malloc_step_length T st l _ stm l1 c sz hstep
  obtain ⟨sf, cp, lf, f1, f2, f3, f4, f5, f6, f7, f8, f9, f10, f11, f12, f13, f14, f15, f16,
    f17⟩ :=
    memalign_front_spec T stm l1 c sz ap fuel henv1 hrepr1 hn1 hca hcs hszm hlo hhi hdis p4 p3
      (by omega) (by omega)
  rw [f1]
  have henvf := env_of_eq T stm sf henv1 f4 f5 f6
  have hrlf := region_lo_eq stm sf f4 f5
  have hcsm : (c + sz) % CHUNK_ALIGN T = 0 := add_mod_zero _ _ _ hca hszm
  obtain ⟨s5, l5, e5, t1, t2, t3, t4, t5, t6, _, t7, t8, t9, t10, t11, t12, t13, t14, t15,
    t16⟩ :=
    memalign_tail_spec T sf lf cp (c + sz) ap ma fuel henvf (by rw [f6, hhe]; exact hroom) f2
      (by rw [hrlf, f4]; exact f3) f8 hcsm (by rw [hrlf]; omega) (by rw [f4]; exact hhi)
      f13 f12 f10 p3 hma hmaw p6 (by omega)
  refine ⟨s5, ap, t1, fun _ => ⟨p1, p2, l5, cp, e5, t2, ?_, t13 (f14 hal1), ?_, f8, t10, ?_, ?_,
    t12, t11, f10, f11, by omega, by omega, stm, al, c, sz, rfl, hg, hcs, f9, t8,
    fun h => f15 h, fun h => t14 h, fun x x1 x2 => t16 x (f16 x x1 x2), t15, t7⟩⟩
  · rw [region_lo_eq sf s5 t4 t5, t4]; exact t3
  · exact env_of_eq T sf s5 henvf t4 t5 t6
  · rw [region_lo_eq sf s5 t4 t5, hrlf]; omega
  · rw [t4, f4]; omega

/-! ## A failed nano_malloc -/

/-- Every call of `nano_malloc` returns, and when it returns null the state is
the one it was called in except for `errno`, and, when the region source was
asked, the break and the start of the region. -/
theorem nano_malloc_null (T : Target) (st : State) (l : List Node) (s fuel : Nat)
    (henv : Env T st) (hrepr : Repr T st.mem st.free_list l)
    (hn : NodesOK T (region_lo st) (st.brk + 1) l)
    (hs : s < SIZE_MOD T) (hfuel : l.length < fuel) :
    ∃ st1 u, nano_malloc T fuel st s = .ok (st1, u) ∧
      (u = 0 → st1 = { st with errno := ENOMEM } ∨
        ∃ b1, st1 = { st with brk := b1, sbrk_start := region_lo st, errno := ENOMEM } ∧
          st.brk ≤ b1 ∧ b1 ≤ st.heap_end) := by
  by_cases hchk : request_size T s ≥ MAX_ALLOC_SIZE ∨ request_size T s < s
  · refine ⟨{ st with errno := ENOMEM }, 0, ?_, fun _ => Or.inl rfl⟩
    unfold nano_malloc
    simp only [hchk, if_true]
  · have hp := request_size_props T s hs hchk
    rcases nano_malloc_spec T st l s fuel henv hrepr hn hs hchk hfuel with
      ⟨b1, h1, h2, h3, _⟩ | ⟨st1, l1, c, sz, h1, h2, h3, h4, h5, h6, h7, h8⟩
    · exact ⟨_, 0, h1, fun _ => Or.inr ⟨b1, rfl, h2, h3⟩⟩
    · refine ⟨st1, _, h1, fun hu => ?_⟩
      exfalso
      obtain ⟨p1, p2, p3, p4, p5, p6, p7, p8, p9, _⟩ :=
        malloc_step_props T st l _ st1 l1 c sz henv hn hp.1 hp.2.1 h6 h3 h5
      have hpm := ptr_mod_eq T
      have hm := minchunk_eq T
      have hend := p1.end_lt
      have hW := sizeof_pos T
      rw [align_user T c (by omega)] at hu
      omega

/-! ## The power-of-two test of nano_memalign -/

/-- A positive number that shares no bit with its predecessor is a power of
two. -/
theorem pow_two_of_and_pred : ∀ a : Nat, 0 < a → a &&& (a - 1) = 0 → ∃ j, a = 2 ^ j := by
  intro a
  induction a using Nat.strong_induction_on with
  | _ a ih =>
    intro hpos hand
    by_cases h1 : a = 1
    · exact ⟨0, by rw [h1]; rfl⟩
    · have hdiv : (a &&& (a - 1)) / 2 = a / 2 &&& (a - 1) / 2 := Nat.and_div_two
      rw [hand] at hdiv
      by_cases hodd : a % 2 = 1
      · have e : (a - 1) / 2 = a / 2 := by omega
        rw [e, Nat.and_self] at hdiv
        omega
      · have e : (a - 1) / 2 = a / 2 - 1 := by omega
        rw [e] at hdiv
        obtain ⟨j, hj⟩ := ih (a / 2) (by omega) (by omega) hdiv.symm
        refine ⟨j + 1, ?_⟩
        rw [pow_succ, ← hj]
        omega

/-- A non-zero alignment that is not a power of two fails the test
`(align & (align-1)) != 0` of `nano_memalign`, which returns null at once. -/
theorem memalign_not_pow_two (T : Target) (fuel : Nat) (st : State) (a s : Nat)
    (ha0 : 0 < a) (ha : a < SIZE_MOD T) (hnp : ∀ j, a ≠ 2 ^ j) :
    nano_memalign T fuel st a s = .ok (st, 0) := by
  have e : (a + SIZE_MOD T - 1) % SIZE_MOD T = a - 1 := by
    have : a + SIZE_MOD T - 1 = (a - 1) + SIZE_MOD T := by omega
    rw [this, Nat.add_mod_right]
    exact Nat.mod_eq_of_lt (by omega)
  have hne : a &&& ((a + SIZE_MOD T - 1) % SIZE_MOD T) ≠ 0 := by
    rw [e]
    intro h
    obtain ⟨j, hj⟩ := pow_two_of_and_pred a ha0 h
    exact hnp j hj
  unfold nano_memalign
  rw [if_pos hne]

/-! ## Live pointers across calls -/

/-- A live pointer stays live when the bytes of its chunk are unchanged, the
region has not shrunk and the chunk overlaps no node of the new free list. -/
theorem live_ptr_frame (T : Target) (st st1 : State) (l l1 : List Node) (c u : Nat)
    (hlive : LivePtr T st l c u)
    (hmem : ∀ x, c ≤ x → x < c + chunk_size T st.mem c → st1.mem x = st.mem x)
    (hlo : region_lo st1 = region_lo st) (hbrk : st.brk ≤ st1.brk)
    (hdis : ∀ k ∈ l1, k.1 + k.2 ≤ c ∨ c + chunk_size T st.mem c ≤ k.1) :
    LivePtr T st1 l1 c u ∧ chunk_size T st1.mem c = chunk_size T st.mem c := by
  have hW := sizeof_pos T
  have hm := minchunk_eq T
  have hms : MALLOC_MINSIZE T = sizeof_size_t T := by rcases T with _ | _ | _ <;> rfl
  obtain ⟨⟨a1, a2, a3, a4, a5, a6⟩, b, c1, d, e⟩ := hlive
  have e1 : chunk_size T st1.mem c = chunk_size T st.mem c :=
    chunk_size_congr T st1.mem st.mem c fun x x1 x2 => hmem x x1 (by omega)
  have hcu : c + sizeof_size_t T ≤ u := by
    rcases b.2 with h | h
    · omega
    · omega
  refine ⟨⟨⟨a1, by rw [e1]; exact a2, by rw [e1]; exact a3, by rw [hlo]; exact a4,
    by rw [e1]; omega, by rw [e1]; exact hdis⟩, ⟨?_, ?_⟩, c1, d, by rw [e1]; exact e⟩, e1⟩
  · rw [e1]
  · rcases b.2 with h | ⟨h, h'⟩
    · exact Or.inl h
    · refine Or.inr ⟨h, ?_⟩
      rw [chunk_size_congr T st1.mem st.mem (u - sizeof_size_t T)
        (fun x x1 x2 => hmem x (by omega) (by omega))]
      exact h'

/-- A live pointer stays live when another live chunk, disjoint from its own,
is freed. -/
theorem live_ptr_after_free (T : Target) (st : State) (l : List Node) (c u c2 u2 fuel : Nat)
    (henv : Env T st) (hrepr : Repr T st.mem st.free_list l)
    (hn : NodesOK T (region_lo st) (st.brk + 1) l)
    (hlive : LivePtr T st l c u) (hlive2 : LivePtr T st l c2 u2)
    (hdis : c + chunk_size T st.mem c ≤ c2 ∨ c2 + chunk_size T st.mem c2 ≤ c)
    (hfuel : l.length < fuel) :
    ∃ st1, nano_free T fuel st u = .ok st1 ∧ Env T st1 ∧ st1.brk = st.brk ∧
      region_lo st1 = region_lo st ∧ st1.heap_end = st.heap_end ∧
      Repr T st1.mem st1.free_list (insert_free c (chunk_size T st.mem c) l) ∧
      NodesOK T (region_lo st1) (st1.brk + 1) (insert_free c (chunk_size T st.mem c) l) ∧
      LivePtr T st1 (insert_free c (chunk_size T st.mem c) l) c2 u2 ∧
      chunk_size T st1.mem c2 = chunk_size T st.mem c2 := by
  have hW := sizeof_pos T
  have hm := minchunk_eq T
  obtain ⟨m1, h1, a1, a2, a3, a4, _⟩ := nano_free_live T st l c u fuel henv hrepr hn hlive hfuel
  have hmin := hlive.chunk.size_min
  have hmin2 := hlive2.chunk.size_min
  have hfr := live_ptr_frame T st { st with mem := m1, free_list := h1 }
    l (insert_free c (chunk_size T st.mem c) l) c2 u2 hlive2
    (fun x x1 x2 => a4 x (by omega) (live_not_covered T st l c2 x hlive2.chunk x1 x2))
    rfl (le_refl _)
    (disjoint_of_not_covered T _ _ _ c2 _ a3 (by omega) (fun x x1 x2 hcov => by
      rcases (covered_insert c _ l x).1 hcov with h | h
      · exact live_not_covered T st l c2 x hlive2.chunk x1 x2 h
      · omega))
  exact ⟨_, a1, ⟨henv.brk_pos, henv.brk_le, henv.end_lt, henv.start_le⟩, rfl, rfl, rfl, a2, a3,
    hfr.1, hfr.2⟩

/-- With an empty free list `nano_malloc` carves a chunk of the padded request
size at the break rounded up to `CHUNK_ALIGN`; the free list stays empty and no
byte below the old break changes. -/
theorem nano_malloc_empty (T : Target) (st : State) (s fuel : Nat)
    (henv : Env T st) (hfl : st.free_list = 0) (hs : s < SIZE_MOD T) (hfuel : 0 < fuel) :
    ∃ st1 u, nano_malloc T fuel st s = .ok (st1, u) ∧
      (u ≠ 0 → ∃ c sz, st1.free_list = 0 ∧ Env T st1 ∧ region_lo st1 = region_lo st ∧
        st1.heap_end = st.heap_end ∧
        st.brk ≤ c ∧ c < st.brk + CHUNK_ALIGN T ∧ c % CHUNK_ALIGN T = 0 ∧
        st1.brk = c + sz ∧ sz % CHUNK_ALIGN T = 0 ∧ MALLOC_MINCHUNK T ≤ sz ∧
        LivePtr T st1 [] c u ∧ chunk_size T st1.mem c = sz ∧
        (∀ x, x < st.brk → st1.mem x = st.mem x) ∧ sz = request_size T s) := by
  have hrepr : Repr T st.mem st.free_list [] := hfl
  have hrl := region_lo_le T st henv
  obtain ⟨st1, u, h1, h2⟩ :=
    nano_malloc_live T st [] s fuel henv hrepr trivial (fun k hk => absurd hk (List.not_mem_nil k))
      hs (by simpa using hfuel)
  refine ⟨st1, u, h1, fun hu => ?_⟩
  obtain ⟨l1, c, sz, hchk, _, hrepr1, hn1, _, henv1, hhe, hstep, hlive, hcs, _, _, _, _, _,
    hframe⟩ := h2 hu
  have hp := request_size_props T s hs hchk
  rcases hstep with ⟨pre, n, post, hl, _⟩ | ⟨_, a, hl, _⟩ |
    ⟨_, _, hl1, hc1, hc2, hc3, hsz, hb, hss⟩
  · exact absurd hl (by simp)
  · exact absurd hl (by simp)
  · subst hl1
    have hfl1 : st1.free_list = 0 := hrepr1
    rw [hsz] at hcs
    refine ⟨c, request_size T s, hfl1, henv1, region_lo_of_start st st1 hrl.1 hss, hhe, hc1, hc2,
      hc3, hb, hp.1, hp.2.1, ?_, hcs, fun x hx => hframe x (covered_nil x) hx, rfl⟩
    exact hlive

/-! ## Tilings and the free list that covers an interval -/

theorem tile_le : ∀ (bl : List Block) (a b : Nat), Tile a bl b → a ≤ b := by
  intro bl
  induction bl with
  | nil => intro a b h; exact le_of_eq h
  | cons blk rest ih =>
    intro a b h
    have := ih _ _ h.2
    omega

theorem tile_inside : ∀ (bl : List Block) (a b : Nat), Tile a bl b →
    ∀ blk ∈ bl, a ≤ blk.1 ∧ blk.1 + blk.2.1 ≤ b := by
  intro bl
  induction bl with
  | nil => intro a b _ blk hm; exact absurd hm (List.not_mem_nil blk)
  | cons k rest ih =>
    intro a b h blk hm
    have hle := tile_le rest _ _ h.2
    rcases List.mem_cons.1 hm with e | e
    · subst e
      have := h.1
      omega
    · have := ih _ _ h.2 blk e
      omega

theorem tile_cover : ∀ (bl : List Block) (a b : Nat), Tile a bl b →
    ∀ x, a ≤ x → x < b → ∃ blk ∈ bl, blk.1 ≤ x ∧ x < blk.1 + blk.2.1 := by
  intro bl
  induction bl with
  | nil =>
    intro a b h x x1 x2
    have : a = b := h
    omega
  | cons k rest ih =>
    intro a b h x x1 x2
    have hk := h.1
    by_cases hx : x < a + k.2.1
    · exact ⟨k, by simp, by omega, by omega⟩
    · obtain ⟨blk, hm, h1, h2⟩ := ih _ _ h.2 x (by omega) x2
      exact ⟨blk, List.mem_cons_of_mem _ hm, h1, h2⟩

theorem tile_pairwise : ∀ (bl : List Block) (a b : Nat), Tile a bl b →
    bl.Pairwise (fun p q => p.1 + p.2.1 ≤ q.1) := by
  intro bl
  induction bl with
  | nil => intro a b _; exact List.Pairwise.nil
  | cons k rest ih =>
    intro a b h
    refine List.Pairwise.cons ?_ (ih _ _ h.2)
    intro q hq
    have := tile_inside rest _ _ h.2 q hq
    have := h.1
    omega

theorem tile_sum : ∀ (bl : List Block) (a b : Nat), Tile a bl b →
    b = a + (bl.map fun blk => blk.2.1).sum := by
  intro bl
  induction bl with
  | nil => intro a b h; simpa using h.symm
  | cons k rest ih =>
    intro a b h
    have := ih _ _ h.2
    simp only [List.map_cons, List.sum_cons]
    omega

theorem tile_append : ∀ (bl bl2 : List Block) (a m b : Nat), Tile a bl m → Tile m bl2 b →
    Tile a (bl ++ bl2) b := by
  intro bl
  induction bl with
  | nil =>
    intro bl2 a m b h1 h2
    have : a = m := h1
    subst this
    exact h2
  | cons k rest ih =>
    intro bl2 a m b h1 h2
    exact ⟨h1.1, ih bl2 _ m b h1.2 h2⟩

/-- A free list whose nodes cover exactly the bytes of `[a, b)` is the single
node `(a, b - a)`: two nodes would leave a gap. -/
theorem single_node (T : Target) (lo hi a b : Nat) (l : List Node)
    (hn : NodesOK T lo hi l) (hab : a < b)
    (hcov : ∀ x, a ≤ x → x < b → Covered l x)
    (hin : ∀ x, Covered l x → a ≤ x ∧ x < b) : l = [(a, b - a)] := by
  have hm := minchunk_eq T
  have hW := sizeof_pos T
  cases l with
  | nil => exact absurd (hcov a (le_refl _) hab) (covered_nil a)
  | cons n rest =>
    obtain ⟨n1, n2, n3, n4, n5⟩ := hn
    have hself : Covered (n :: rest) n.1 := ⟨n, by simp, le_refl _, by omega⟩
    have hlast : Covered (n :: rest) (n.1 + n.2 - 1) := ⟨n, by simp, by omega, by omega⟩
    have h1 := hin _ hself
    have h2 := hin _ hlast
    have hrest : ∀ k ∈ rest, n.1 + n.2 + 1 ≤ k.1 ∧ 0 < k.2 := by
      intro k hk
      have := nodesOK_mem T rest _ _ k n5 hk
      omega
    have ha : n.1 ≤ a := by
      obtain ⟨k, hk, k1, k2⟩ := hcov a (le_refl _) hab
      rcases List.mem_cons.1 hk with e | e
      · rw [e] at k1; exact k1
      · have := hrest k e
        omega
    have hb : b ≤ n.1 + n.2 := by
      by_contra hcon
      obtain ⟨k, hk, k1, k2⟩ := hcov (n.1 + n.2) (by omega) (by omega)
      rcases List.mem_cons.1 hk with e | e
      · rw [e] at k2; omega
      · have := hrest k e
        omega
    have hnil : rest = [] := by
      cases rest with
      | nil => rfl
      | cons k rest2 =>
        have hk := hrest k (by simp)
        have := hin k.1 ⟨k, by simp, le_refl _, by omega⟩
        omega
    subst hnil
    have e1 : n.1 = a := by omega
    have e2 : n.2 = b - a := by omega
    have : n = (a, b - a) := Prod.ext e1 e2
    rw [this]

/-! ## Allocating a run of blocks from an empty free list -/

/-- With an empty free list every call of `nano_malloc` returns with the free
list still empty. -/
theorem nano_malloc_empty_returns (T : Target) (st : State) (s fuel : Nat)
    (henv : Env T st) (hfl : st.free_list = 0) (hs : s < SIZE_MOD T) (hfuel : 0 < fuel) :
    ∃ st1 u, nano_malloc T fuel st s = .ok (st1, u) ∧ Env T st1 ∧ st1.free_list = 0 := by
  have hrepr : Repr T st.mem st.free_list [] := hfl
  have hrl := region_lo_le T st henv
  obtain ⟨st1, u, h1, h2⟩ := nano_malloc_null T st [] s fuel henv hrepr trivial hs
    (by simpa using hfuel)
  obtain ⟨st1', u', h1', h2'⟩ := nano_malloc_empty T st s fuel henv hfl hs hfuel
  have hinj : st1' = st1 ∧ u' = u := by
    rw [h1] at h1'
    simp only [Outcome.ok.injEq, Prod.mk.injEq] at h1'
    exact ⟨h1'.1.symm, h1'.2.symm⟩
  obtain ⟨rfl, rfl⟩ := hinj
  refine ⟨st1', u', h1, ?_⟩
  by_cases hu : u' = 0
  · rcases h2 hu with h | ⟨b1, h, hb1, hb2⟩
    · subst h
      exact ⟨⟨henv.brk_pos, henv.brk_le, henv.end_lt, henv.start_le⟩, hfl⟩
    · subst h
      have := henv.brk_pos
      exact ⟨⟨by show 0 < b1; omega, hb2, henv.end_lt, by show region_lo st ≤ b1; omega⟩, hfl⟩
  · obtain ⟨c, sz, a1, a2, _⟩ := h2' hu
    exact ⟨a2, a1⟩

theorem malloc_all_returns (T : Target) (fuel : Nat) (hfuel : 0 < fuel) :
    ∀ (ss : List Nat) (st : State), Env T st → st.free_list = 0 →
      (∀ s ∈ ss, s < SIZE_MOD T) → ∃ st1 ps, malloc_all T fuel st ss = .ok (st1, ps) := by
  intro ss
  induction ss with
  | nil => intro st _ _ _; exact ⟨st, [], rfl⟩
  | cons s rest ih =>
    intro st henv hfl hss
    obtain ⟨st1, u, h1, h2, h3⟩ :=
      nano_malloc_empty_returns T st s fuel henv hfl (hss s (by simp)) hfuel
    obtain ⟨st2, ps, h4⟩ := ih st1 h2 h3 (fun x hx => hss x (List.mem_cons_of_mem _ hx))
    refine ⟨st2, u :: ps, ?_⟩
    unfold malloc_all
    rw [h1]
    simp only [Outcome.bind, h4]

/-- When a run of calls of `nano_malloc` from an empty free list and a
chunk-aligned break returns only non-null pointers, the chunks of the new
blocks follow the blocks that tile `[a, brk)` without a gap, all blocks are
live, and each new chunk has the padded size of its request. -/
theorem alloc_phase (T : Target) (fuel : Nat) (hfuel : 0 < fuel) :
    ∀ (ss : List Nat) (st : State) (bl : List Block) (a : Nat),
      Env T st → st.free_list = 0 → st.brk % CHUNK_ALIGN T = 0 → Tile a bl st.brk →
      (∀ blk ∈ bl, LiveBlock T st [] blk) → (∀ s ∈ ss, s < SIZE_MOD T) →
      ∀ st1 ps, malloc_all T fuel st ss = .ok (st1, ps) → (∀ p ∈ ps, p ≠ 0) →
      ∃ bl2 : List Block, (bl2.map fun blk => blk.2.2) = ps ∧ Env T st1 ∧ st1.free_list = 0 ∧
        Tile a (bl ++ bl2) st1.brk ∧ (∀ blk ∈ bl ++ bl2, LiveBlock T st1 [] blk) ∧
        region_lo st1 = region_lo st ∧ st1.heap_end = st.heap_end ∧
        (bl2.map fun blk => blk.2.1) = ss.map (request_size T) := by
  intro ss
  induction ss with
  | nil =>
    intro st bl a henv hfl _ htile hlive _ st1 ps hm _
    unfold malloc_all at hm
    simp only [Outcome.ok.injEq, Prod.mk.injEq] at hm
    obtain ⟨rfl, rfl⟩ := hm
    exact ⟨[], rfl, henv, hfl, by simpa using htile, by simpa using hlive, rfl, rfl, rfl⟩
  | cons s rest ih =>
    intro st bl a henv hfl hbrk htile hlive hss st1 ps hm hps
    obtain ⟨st', u, h1, h2⟩ := nano_malloc_empty T st s fuel henv hfl (hss s (by simp)) hfuel
    unfold malloc_all at hm
    rw [h1] at hm
    simp only [Outcome.bind] at hm
    cases hrec : malloc_all T fuel st' rest with
    | abort d s5 => rw [hrec] at hm; exact absurd hm (by simp)
    | diverge => rw [hrec] at hm; exact absurd hm (by simp)
    | ok r =>
      rw [hrec] at hm
      simp only [Outcome.ok.injEq, Prod.mk.injEq] at hm
      obtain ⟨e1, e2⟩ := hm
      have hu : u ≠ 0 := hps u (by rw [← e2]; simp)
      obtain ⟨c, sz, a1, a2, a3, a4, a5, a6, a7, a8, a9, a10, a11, a12, a13, a14⟩ := h2 hu
      have hc : c = st.brk := by
        rcases T with _ | _ | _ <;> simp only [consts] at * <;> omega
      subst hc
      have hlive' : ∀ blk ∈ bl ++ [((st.brk, sz, u) : Block)], LiveBlock T st' [] blk := by
        intro blk hb
        rcases List.mem_append.1 hb with h | h
        · obtain ⟨l1, l2⟩ := hlive blk h
          have hin := tile_inside bl a st.brk htile blk h
          have hfr := live_ptr_frame T st st' [] [] blk.1 blk.2.2 l1
            (fun x x1 x2 => a13 x (by rw [l2] at x2; omega)) a3 (by omega)
            (fun k hk => absurd hk (List.not_mem_nil k))
          exact ⟨hfr.1, by rw [hfr.2]; exact l2⟩
        · have : blk = (st.brk, sz, u) := by simpa using h
          subst this
          exact ⟨a11, a12⟩
      have htile' : Tile a (bl ++ [((st.brk, sz, u) : Block)]) st'.brk :=
        tile_append bl _ a st.brk _ htile ⟨rfl, by show st.brk + sz = st'.brk; omega⟩
      obtain ⟨bl2, b1, b2, b3, b4, b5, b6, b7, b8⟩ :=
        ih st' (bl ++ [(st.brk, sz, u)]) a a2 a1
          (by rw [a8]; exact add_mod_zero _ _ _ hbrk a9) htile' hlive'
          (fun x hx => hss x (List.mem_cons_of_mem _ hx)) r.1 r.2 (by rw [hrec])
          (fun p hp => hps p (by rw [← e2]; exact List.mem_cons_of_mem _ hp))
      refine ⟨(st.brk, sz, u) :: bl2, ?_, by rw [← e1]; exact b2, by rw [← e1]; exact b3, ?_, ?_,
        by rw [← e1, b6, a3], by rw [← e1, b7, a4], by simp only [List.map_cons, b8, a14]⟩
      · rw [← e2]
        simp only [List.map_cons, b1]
      · rw [← e1]
        simpa [List.append_assoc] using b4
      · rw [← e1]
        simpa [List.append_assoc] using b5

/-! ## Freeing a set of live blocks in any order -/

/-- Freeing live blocks one after the other, in any order: every call
returns, and when all blocks that lay in `[a, b)` beside the free nodes are
freed, the free nodes cover exactly `[a, b)`. -/
theorem free_phase (T : Target) (fuel a b : Nat) :
    ∀ (order : List Nat) (st : State) (l : List Node) (live : List Block),
      Env T st → Repr T st.mem st.free_list l →
      NodesOK T (region_lo st) (st.brk + 1) l →
      (∀ blk ∈ live, LiveBlock T st l blk) →
      (∀ b1 ∈ live, ∀ b2 ∈ live, b1.2.2 ≠ b2.2.2 →
        b1.1 + b1.2.1 ≤ b2.1 ∨ b2.1 + b2.2.1 ≤ b1.1) →
      (∀ blk ∈ live, blk.2.2 ∈ order ∧ a ≤ blk.1 ∧ blk.1 + blk.2.1 ≤ b) →
      (∀ p ∈ order, ∃ blk ∈ live, blk.2.2 = p) → order.Nodup →
      (∀ x, a ≤ x → x < b → Covered l x ∨ ∃ blk ∈ live, blk.1 ≤ x ∧ x < blk.1 + blk.2.1) →
      (∀ x, Covered l x → a ≤ x ∧ x < b) →
      l.length + order.length < fuel + 1 →
      ∃ st2 l2, free_all T fuel st order = .ok st2 ∧ Repr T st2.mem st2.free_list l2 ∧
        NodesOK T (region_lo st2) (st2.brk + 1) l2 ∧
        (∀ x, a ≤ x → x < b → Covered l2 x) ∧ (∀ x, Covered l2 x → a ≤ x ∧ x < b) := by
  intro order
  induction order with
  | nil =>
    intro st l live _ hrepr hn _ _ hin _ _ hcov hins _
    refine ⟨st, l, rfl, hrepr, hn, ?_, hins⟩
    intro x x1 x2
    rcases hcov x x1 x2 with h | ⟨blk, hb, _⟩
    · exact h
    · exact absurd (hin blk hb).1 (List.not_mem_nil _)
  | cons p rest ih =>
    intro st l live henv hrepr hn hlive hdis hin hex hnd hcov hins hfuel
    obtain ⟨blk, hblk, hp⟩ := hex p (by simp)
    obtain ⟨lp, lsz⟩ := hlive blk hblk
    rw [hp] at lp
    have hfl : l.length < fuel := by simp at hfuel; omega
    obtain ⟨m1, h1, f1, f2, f3, f4, _⟩ := nano_free_live T st l blk.1 p fuel henv hrepr hn lp hfl
    rw [lsz] at f2 f3
    have hlen := insert_free_length blk.1 blk.2.1 l
    have hnd2 := List.nodup_cons.1 hnd
    have hother : ∀ k ∈ live, k.2.2 ≠ p →
        LiveBlock T { st with mem := m1, free_list := h1 } (insert_free blk.1 blk.2.1 l) k := by
      intro k hk hkp
      obtain ⟨kp, ksz⟩ := hlive k hk
      have hd := hdis blk hblk k hk (by rw [hp]; exact fun e => hkp e.symm)
      obtain ⟨st1, e1, _, _, _, _, _, _, e8, e9⟩ :=
        live_ptr_after_free T st l blk.1 p k.1 k.2.2 fuel henv hrepr hn lp kp
          (by rw [lsz, ksz]; exact hd) hfl
      have : st1 = { st with mem := m1, free_list := h1 } := by
        rw [f1] at e1
        simp only [Outcome.ok.injEq] at e1
        exact e1.symm
      subst this
      rw [lsz] at e8
      exact ⟨e8, by rw [e9]; exact ksz⟩
    obtain ⟨st2, l2, g1, g2, g3, g4, g5⟩ :=
      ih { st with mem := m1, free_list := h1 } (insert_free blk.1 blk.2.1 l)
        (live.filter fun k => decide (k.2.2 ≠ p))
        ⟨henv.brk_pos, henv.brk_le, henv.end_lt, henv.start_le⟩ f2 f3
        (fun k hk => by
          obtain ⟨k1, k2⟩ := List.mem_filter.1 hk
          exact hother k k1 (of_decide_eq_true k2))
        (fun b1 hb1 b2 hb2 hne =>
          hdis b1 (List.mem_filter.1 hb1).1 b2 (List.mem_filter.1 hb2).1 hne)
        (fun k hk => by
          obtain ⟨k1, k2⟩ := List.mem_filter.1 hk
          have hk3 := hin k k1
          have hne : k.2.2 ≠ p := of_decide_eq_true k2
          refine ⟨?_, hk3.2⟩
          rcases List.mem_cons.1 hk3.1 with e | e
          · exact absurd e hne
          · exact e)
        (fun q hq => by
          obtain ⟨k, hk, hkq⟩ := hex q (List.mem_cons_of_mem _ hq)
          have hne : k.2.2 ≠ p := by
            rw [hkq]
            intro e
            rw [e] at hq
            exact hnd2.1 hq
          exact ⟨k, List.mem_filter.2 ⟨hk, decide_eq_true hne⟩, hkq⟩)
        hnd2.2
        (fun x x1 x2 => by
          rcases hcov x x1 x2 with h | ⟨k, hk, k1, k2⟩
          · exact Or.inl ((covered_insert _ _ l x).2 (Or.inl h))
          · by_cases hkp : k.2.2 = p
            · obtain ⟨kp, ksz⟩ := hlive k hk
              rw [hkp] at kp
              have g1 := (live_ptr_chunk T st l k.1 p henv kp).1
              have g2 := (live_ptr_chunk T st l blk.1 p henv lp).1
              have hc : k.1 = blk.1 := by rw [← g1, ← g2]
              have hs : k.2.1 = blk.2.1 := by rw [← ksz, ← lsz, hc]
              exact Or.inl ((covered_insert _ _ l x).2 (Or.inr ⟨by omega, by omega⟩))
            · exact Or.inr ⟨k, List.mem_filter.2 ⟨hk, decide_eq_true hkp⟩, k1, k2⟩)
        (fun x hx => by
          rcases (covered_insert _ _ l x).1 hx with h | h
          · exact hins x h
          · have := (hin blk hblk).2
            omega)
        (by simp at hfuel ⊢; omega)
    refine ⟨st2, l2, ?_, g2, g3, g4, g5⟩
    unfold free_all
    rw [f1]
    exact g1

/-! ## The pointers returned by a sequence of allocations -/

/-- A sequence of allocations that returns yields one pointer per request. -/
theorem malloc_all_length (T : Target) (fuel : Nat) : ∀ (ss : List Nat) (st st1 : State)
    (ps : List Nat), malloc_all T fuel st ss = .ok (st1, ps) → ps.length = ss.length := by
  intro ss
  induction ss with
  | nil =>
    intro st st1 ps h
    simp only [malloc_all, Outcome.ok.injEq, Prod.mk.injEq] at h
    rw [← h.2]
  | cons s ss ih =>
    intro st st1 ps h
    unfold malloc_all at h
    cases h1 : nano_malloc T fuel st s with
    | abort d s5 => rw [h1] at h; exact absurd h (by simp [Outcome.bind])
    | diverge => rw [h1] at h; exact absurd h (by simp [Outcome.bind])
    | ok r =>
      rw [h1] at h
      simp only [Outcome.bind] at h
      cases h2 : malloc_all T fuel r.1 ss with
      | abort d s5 => rw [h2] at h; exact absurd h (by simp)
      | diverge => rw [h2] at h; exact absurd h (by simp)
      | ok r2 =>
        rw [h2] at h
        simp only [Outcome.ok.injEq, Prod.mk.injEq] at h
        have := ih r.1 r2.1 r2.2 (by rw [h2])
        rw [← h.2]
        simp [this]

/-! ## Freeing the chunk claimed from a free node -/

/-- Putting back the chunk that `nano_malloc` claimed from the node `n` of a
well-formed list restores the list: after a split the chunk is merged with the
remainder that took the place of `n`, and a node that was unlinked whole is
inserted again between its former neighbours, with which it does not merge. -/
theorem insert_free_claimed (T : Target) (need : Nat) (n : Node) (l2 : List Node)
    (hpos : 0 < need) (hfit : need ≤ n.2) : ∀ (pre : List Node) (lo hi : Nat),
    NodesOK T lo hi (pre ++ n :: l2) →
    insert_free n.1 (claimed_size T need n) (pre ++ split_node T need n ++ l2) =
      pre ++ n :: l2 := by
  intro pre
  induction pre with
  | nil =>
    intro lo hi h
    obtain ⟨a, b, c, d, e⟩ := h
    unfold claimed_size split_node
    by_cases hrem : n.2 - need ≥ MALLOC_MINCHUNK T
    · simp only [hrem, if_true, List.nil_append, List.singleton_append, insert_free]
      rw [if_pos (by omega)]
      have : need + (n.2 - need) = n.2 := by omega
      rw [this]
    · simp only [hrem, if_false, List.nil_append]
      cases l2 with
      | nil => rfl
      | cons m rest =>
        obtain ⟨a1, _⟩ := e
        simp only [insert_free]
        rw [if_pos (by omega), if_neg (by omega)]
  | cons p pre ih =>
    intro lo hi h
    obtain ⟨a, b, c, d, e⟩ := h
    have hmem := nodesOK_mem T _ _ _ n e (by simp)
    have hm := minchunk_eq T
    have hW := sizeof_pos T
    have hih := ih _ _ e
    show insert_free n.1 (claimed_size T need n) (p :: (pre ++ split_node T need n ++ l2)) =
      p :: (pre ++ n :: l2)
    rw [← hih]
    simp only [insert_free]
    rw [if_neg (by omega), if_neg (by omega)]

/-! ## A region source with room grants the request -/

/-- When the request passes the size check and some chunk-aligned address at or
after the break leaves room, below the limit of the region source, for the bytes
`nano_malloc` asks for (the padded request size less the last free node when it
ends at the break), the call returns a non-null pointer. -/
theorem nano_malloc_room (T : Target) (st : State) (l : List Node) (s fuel : Nat)
    (henv : Env T st) (hrepr : Repr T st.mem st.free_list l)
    (hn : NodesOK T (region_lo st) (st.brk + 1) l) (hal : NodesAligned T l)
    (hs : s < SIZE_MOD T)
    (hchk : ¬ (request_size T s ≥ MAX_ALLOC_SIZE ∨ request_size T s < s))
    (hroom : ∃ c, st.brk ≤ c ∧ c % CHUNK_ALIGN T = 0 ∧
      c + (request_size T s - tail_adjust st.brk l) ≤ st.heap_end)
    (hfuel : l.length < fuel) :
    ∃ st1 p, nano_malloc T fuel st s = .ok (st1, p) ∧ p ≠ 0 := by
  have hp := request_size_props T s hs hchk
  rcases nano_malloc_spec T st l s fuel henv hrepr hn hs hchk hfuel with
    ⟨b1, _, _, _, _, h5⟩ | ⟨st1, l1, c, sz, h1, h2, h3, h4, h5, h6, h7, h8⟩
  · obtain ⟨c, c1, c2, c3⟩ := hroom
    have := h5 c c1 c2
    omega
  · obtain ⟨p1, p2, p3, p4, p5, p6, p7, p8, p9, p10, p11, p12⟩ :=
      malloc_step_props T st l _ st1 l1 c sz henv hn hp.1 hp.2.1 h6 h3 h5
    obtain ⟨hca, _⟩ := p12 hal
    have hpm := ptr_mod_eq T
    have hm := minchunk_eq T
    have hend := p1.end_lt
    have hb := aligned_user_bounds T c hca (by omega)
    have hW := sizeof_pos T
    exact ⟨st1, _, h1, by omega⟩

/-! ## A run of allocations with room in the region source -/

/-- With an empty free list and a chunk-aligned break, a run of calls of
`nano_malloc` whose requests pass the size check returns only non-null pointers
when the region source has room for the sum of the padded request sizes. -/
theorem malloc_all_grants (T : Target) (fuel : Nat) (hfuel : 0 < fuel) :
    ∀ (ss : List Nat) (st : State), Env T st → st.free_list = 0 →
      st.brk % CHUNK_ALIGN T = 0 →
      (∀ s ∈ ss, s < SIZE_MOD T ∧ ¬ (request_size T s ≥ MAX_ALLOC_SIZE ∨ request_size T s < s)) →
      st.brk + (ss.map (request_size T)).sum ≤ st.heap_end →
      ∀ st1 ps, malloc_all T fuel st ss = .ok (st1, ps) → ∀ p ∈ ps, p ≠ 0 := by
  intro ss
  induction ss with
  | nil =>
    intro st _ _ _ _ _ st1 ps hm p hp
    unfold malloc_all at hm
    simp only [Outcome.ok.injEq, Prod.mk.injEq] at hm
    rw [← hm.2] at hp
    exact absurd hp (List.not_mem_nil p)
  | cons s rest ih =>
    intro st henv hfl hbrk hss hroom st1 ps hm
    have hs := hss s (by simp)
    simp only [List.map_cons, List.sum_cons] at hroom
    obtain ⟨st2, u2, g1, g2⟩ := nano_malloc_room T st [] s fuel henv hfl trivial
      (fun k hk => absurd hk (List.not_mem_nil k)) hs.1 hs.2
      ⟨st.brk, le_refl _, hbrk, by
        have : tail_adjust st.brk [] = 0 := rfl
        rw [this]
        omega⟩ (by simpa using hfuel)
    obtain ⟨st', u, h1, h2⟩ := nano_malloc_empty T st s fuel henv hfl hs.1 hfuel
    have hinj : st2 = st' ∧ u2 = u := by
      rw [h1] at g1
      simp only [Outcome.ok.injEq, Prod.mk.injEq] at g1
      exact ⟨g1.1.symm, g1.2.symm⟩
    obtain ⟨rfl, rfl⟩ := hinj
    obtain ⟨c, sz, a1, a2, a3, a4, a5, a6, a7, a8, a9, a10, a11, a12, a13, a14⟩ := h2 g2
    have hc : c = st.brk := by
      rcases T with _ | _ | _ <;> simp only [consts] at * <;> omega
    subst hc
    unfold malloc_all at hm
    rw [h1] at hm
    simp only [Outcome.bind] at hm
    cases hrec : malloc_all T fuel st2 rest with
    | abort d s5 => rw [hrec] at hm; exact absurd hm (by simp)
    | diverge => rw [hrec] at hm; exact absurd hm (by simp)
    | ok r =>
      rw [hrec] at hm
      simp only [Outcome.ok.injEq, Prod.mk.injEq] at hm
      obtain ⟨e1, e2⟩ := hm
      have hrest := ih st2 a2 a1 (by rw [a8]; exact add_mod_zero _ _ _ hbrk a9)
        (fun x hx => hss x (List.mem_cons_of_mem _ hx)) (by rw [a8, a4, a14]; omega)
        r.1 r.2 (by rw [hrec])
      intro p hp
      rw [← e2] at hp
      rcases List.mem_cons.1 hp with h | h
      · rw [h]; exact g2
      · exact hrest p h

/-! # The claims -/

/-! ## C1: the free-list invariants are preserved -/

/-- C1: in every state whose free list satisfies F1 to F4 (`WF`), with enough
fuel for the list walks, `nano_malloc` returns normally for every request size
and `nano_free` returns normally for every pointer of a live chunk, and the
state they return in satisfies F1 to F4 again (after `nano_free` the free list
is the old one with the chunk inserted and coalesced). -/
theorem C1_wf_preserved (T : Target) (st : State) (l : List Node) (fuel : Nat)
    (henv : Env T st) (hwf : WF T st l) (hfuel : l.length < fuel) :
    (∀ s, s < SIZE_MOD T →
      ∃ st1 u l1, nano_malloc T fuel st s = .ok (st1, u) ∧ WF T st1 l1 ∧ Env T st1) ∧
    (∀ u, u ≠ 0 → LiveChunk T st l (get_chunk_from_ptr T st.mem u) →
      ∃ st1, nano_free T fuel st u = .ok st1 ∧
        WF T st1 (insert_free (get_chunk_from_ptr T st.mem u)
          (chunk_size T st.mem (get_chunk_from_ptr T st.mem u)) l) ∧ Env T st1) := by
  have hn := nodesOK_of_wf T st l hwf
  have hrl := region_lo_le T st henv
  obtain ⟨e1, e2, e3, e4⟩ := henv
  constructor
  · intro s hs
    by_cases hchk : request_size T s ≥ MAX_ALLOC_SIZE ∨ request_size T s < s
    · refine ⟨{ st with errno := ENOMEM }, 0, l, ?_, ?_, ⟨e1, e2, e3, e4⟩⟩
      · unfold nano_malloc
        simp only [hchk, if_true]
      · refine wf_of_nodesOK T _ l ?_ ?_
        · exact hwf.repr
        · exact hn
    · have hp := request_size_props T s hs hchk
      rcases nano_malloc_spec T st l s fuel ⟨e1, e2, e3, e4⟩ hwf.repr hn hs hchk hfuel with
        ⟨b1, h1, h2, h3, _⟩ | ⟨st1, l1, c, sz, h1, h2, h3, h4, h5, h6, _⟩
      · refine ⟨_, 0, l, h1, ?_, ⟨by show 0 < b1; omega, h3, e3, by show region_lo st ≤ b1; omega⟩⟩
        refine wf_of_nodesOK T _ l ?_ ?_
        · exact hwf.repr
        rw [region_lo_of_start st _ hrl.1 rfl]
        exact nodesOK_mono T l _ _ _ _ (le_refl _) (by show st.brk + 1 ≤ b1 + 1; omega) hn
      · have hs := malloc_step_props T st l _ st1 l1 c sz ⟨e1, e2, e3, e4⟩ hn hp.1 hp.2.1 h6 h3 h5
        exact ⟨st1, _, l1, h1, wf_of_nodesOK T st1 l1 h2 hs.2.2.2.1, hs.1⟩
  · intro u hu hlive
    obtain ⟨m1, h1, hfree, hrepr, _⟩ :=
      nano_free_spec T st l u fuel ⟨e1, e2, e3, e4⟩ hwf.repr hn hu hlive hfuel
    refine ⟨_, hfree, ?_, ⟨e1, e2, e3, e4⟩⟩
    refine wf_of_nodesOK T _ _ hrepr ?_
    exact nodesOK_insert T _ _ _ hlive.size_mod hlive.size_min
      (by have := hlive.hi; show _ < st.brk + 1; omega) l _ hn hlive.lo hlive.disjoint

theorem C1_wf_preserved_witness :
    (∃ st1 u l1, nano_malloc .lp64 4 heap64 100 = .ok (st1, u) ∧ WF .lp64 st1 l1 ∧
      Env .lp64 st1) ∧
    (∃ st1, nano_free .lp64 4 heap64 4120 = .ok st1 ∧
      WF .lp64 st1 (insert_free (get_chunk_from_ptr .lp64 heap64.mem 4120)
        (chunk_size .lp64 heap64.mem (get_chunk_from_ptr .lp64 heap64.mem 4120)) [(4096, 16)]) ∧
      Env .lp64 st1) :=
  have h := C1_wf_preserved .lp64 heap64 [(4096, 16)] 4
    ⟨by decide, by decide, by decide, by decide⟩
    ⟨by decide!, by simp, by simp, by decide, by decide⟩ (by decide)
  ⟨h.1 100 (by decide), h.2 4120 (by decide)
    ⟨by decide!, by decide!, by decide!, by decide!, by decide!, by decide!⟩⟩

/-! ## C2: bounds on the usable size of a fresh allocation -/

/-- C2 (I4): on every target, in every state whose free list satisfies the
invariants and whose nodes are valid chunk pointers (chunk-aligned), for every
request size `s` the call `nano_malloc(s)` returns, and when the result `u` is
not null, `s ≤ nano_malloc_usable_size(u)` and
`nano_malloc_usable_size(u) ≤ 2 * s + MALLOC_MINCHUNK + MALLOC_PADDING`. -/
theorem C2_usable_size_bounds (T : Target) (st : State) (l : List Node) (s fuel : Nat)
    (henv : Env T st) (hwf : WF T st l) (hal : NodesAligned T l)
    (hs : s < SIZE_MOD T) (hfuel : l.length < fuel) :
    ∃ st1 u, nano_malloc T fuel st s = .ok (st1, u) ∧
      (u ≠ 0 → s ≤ nano_malloc_usable_size T st1.mem u ∧
        nano_malloc_usable_size T st1.mem u ≤ 2 * s + MALLOC_MINCHUNK T + MALLOC_PADDING T) := by
  obtain ⟨st1, u, h1, h2⟩ :=
    nano_malloc_live T st l s fuel henv hwf.repr (nodesOK_of_wf T st l hwf) hal hs hfuel
  refine ⟨st1, u, h1, fun hu => ?_⟩
  obtain ⟨l1, c, sz, hchk, _, _, _, _, henv1, _, _, hlive, hcs, _, hlo, hhi, hsz1, hsz2, _⟩ := h2 hu
  have hc := hlive.chunk
  have hpc := ptr_chunk T st1.mem c sz u (by rw [← hcs]; exact hlive.user) hc.aligned hlive.aligned
    (by rw [← hcs]; exact hc.size_mod) hlive.near
    (by have := hlive.payload; rw [hcs] at this; omega)
    (by have := hc.hi; rw [hcs] at this; have := henv1.brk_le; have := henv1.end_lt; omega)
  rw [hpc.2]
  have hszm := hc.size_mod
  rw [hcs] at hszm
  obtain ⟨a, ha1, ha2, ha3, _, ha5⟩ := request_size_spec T s hs hchk
  have hp := request_size_props T s hs hchk
  rw [ha5] at hsz1 hsz2
  unfold MAX at hsz1 hsz2
  rcases T with _ | _ | _ <;> simp only [consts] at * <;> split_ifs at hsz1 hsz2 <;> omega

theorem C2_usable_size_bounds_witness :
    ∃ st1 u, nano_malloc .lp64 4 heap64 1 = .ok (st1, u) ∧
      (u ≠ 0 → 1 ≤ nano_malloc_usable_size .lp64 st1.mem u ∧
        nano_malloc_usable_size .lp64 st1.mem u ≤
          2 * 1 + MALLOC_MINCHUNK .lp64 + MALLOC_PADDING .lp64) :=
  C2_usable_size_bounds .lp64 heap64 [(4096, 16)] 1 4
    ⟨by decide, by decide, by decide, by decide⟩
    ⟨by decide!, by simp, by simp, by decide, by decide⟩
    (by unfold NodesAligned; decide) (by decide) (by decide)

/-! ## C3: alignment of the returned pointers -/

/-- C3 (I3, R4): in every state and for every request, a non-null pointer
returned by `nano_malloc(s)` is a multiple of `MALLOC_ALIGN` (8), and a
non-null pointer returned by `nano_memalign(2 ^ j, n)` is a multiple of
`MAX(2 ^ j, MALLOC_ALIGN)`.  In a state whose free list satisfies the
invariants (with chunk-aligned nodes, and a region that ends at least
`MALLOC_MINCHUNK` bytes below the top of the address space) both calls return
when the fuel exceeds the length of the free list by two. -/
theorem C3_pointers_aligned (T : Target) (st : State) (fuel : Nat) :
    (∀ s st1 u, nano_malloc T fuel st s = .ok (st1, u) → u ≠ 0 → u % MALLOC_ALIGN = 0) ∧
    (∀ j n st1 u, 2 ^ j < SIZE_MOD T → nano_memalign T fuel st (2 ^ j) n = .ok (st1, u) →
      u ≠ 0 → u % MAX (2 ^ j) MALLOC_ALIGN = 0) ∧
    (∀ l, Env T st → WF T st l → NodesAligned T l →
      st.heap_end + MALLOC_MINCHUNK T < PTR_MOD T → l.length + 1 < fuel →
      ∀ j s, 2 ^ j < SIZE_MOD T → s < SIZE_MOD T →
        (∃ st1 u, nano_malloc T fuel st s = .ok (st1, u)) ∧
        (∃ st1 u, nano_memalign T fuel st (2 ^ j) s = .ok (st1, u))) := by
  refine ⟨?_, ?_, ?_⟩
  · intro s st1 u h hu
    unfold nano_malloc at h
    simp only at h
    split_ifs at h with hc
    · simp only [Outcome.ok.injEq, Prod.mk.injEq] at h
      exact absurd h.2.symm hu
    · split at h
      · exact absurd h (by simp)
      · exact absurd h (by simp)
      · split at h
        · simp only [Outcome.ok.injEq, Prod.mk.injEq] at h
          exact absurd h.2.symm hu
        · simp only [Outcome.ok.injEq] at h
          have h2 := congrArg Prod.snd h
          simp only at h2
          rw [← h2]
          show ALIGN_PTR_TO T _ MALLOC_ALIGN % 8 = 0
          rw [align_ptr_to_malloc]
          exact Nat.sub_mod_eq_zero_of_mod_eq (Nat.mod_mod _ _).symm
  · intro j0 n st1 u hj h hu
    obtain ⟨j, hj3, hA⟩ := max_align_pow j0
    have hjlt : j ≤ 8 * sizeof_ptr T := by
      have h1 : 2 ^ j < 2 ^ (8 * sizeof_ptr T) := by
        have e1 : SIZE_MOD T = 2 ^ (8 * sizeof_ptr T) := by rcases T with _ | _ | _ <;> rfl
        have e2 : 2 ^ j = MAX (2 ^ j0) MALLOC_ALIGN := hA.symm
        have e3 : (8 : Nat) < SIZE_MOD T := by have := size_mod_ge T; omega
        rw [e2, ← e1]
        unfold MAX MALLOC_ALIGN
        split_ifs <;> omega
      exact le_of_lt ((Nat.pow_lt_pow_iff_right (by decide)).1 h1)
    have key : ∀ p, ALIGN_PTR_TO T p (MAX (2 ^ j0) MALLOC_ALIGN) % MAX (2 ^ j0) MALLOC_ALIGN = 0 := by
      intro p
      rw [hA, align_ptr_to_pow T p j hjlt]
      exact Nat.sub_mod_eq_zero_of_mod_eq (Nat.mod_mod _ _).symm
    have htail : ∀ sf cp ap ma, memalign_tail T fuel sf cp ap ma = .ok (st1, u) → u = ap := by
      intro sf cp ap ma ht
      unfold memalign_tail at ht
      simp only at ht
      split_ifs at ht
      · cases hfree : nano_free T fuel _ (padd T (padd T ap ma) (CHUNK_OFFSET T)) with
        | ok s5 =>
          rw [hfree] at ht
          simp only [Outcome.bind, Outcome.ok.injEq, Prod.mk.injEq] at ht
          exact ht.2.symm
        | abort d s5 => rw [hfree] at ht; exact absurd ht (by simp [Outcome.bind])
        | diverge => rw [hfree] at ht; exact absurd ht (by simp [Outcome.bind])
      · simp only [Outcome.ok.injEq, Prod.mk.injEq] at ht
        exact ht.2.symm
    unfold nano_memalign at h
    simp only at h
    split_ifs at h with c1 c2 c3
    · simp only [Outcome.ok.injEq, Prod.mk.injEq] at h
      exact absurd h.2.symm hu
    · simp only [Outcome.ok.injEq, Prod.mk.injEq] at h
      exact absurd h.2.symm hu
    · simp only [Outcome.ok.injEq, Prod.mk.injEq] at h
      exact absurd h.2.symm hu
    · cases hm : nano_malloc T fuel st
          (ALIGN_TO T (MAX n (MALLOC_MINSIZE T)) (CHUNK_ALIGN T) +
            (MAX (2 ^ j0) MALLOC_ALIGN - MALLOC_ALIGN)) with
      | ok r =>
        rw [hm] at h
        simp only [Outcome.bind] at h
        split_ifs at h with c4
        · simp only [Outcome.ok.injEq, Prod.mk.injEq] at h
          exact absurd h.2.symm hu
        · cases hf : memalign_front T fuel r.1 (get_chunk_from_ptr T r.1.mem r.2)
              (psub T (ALIGN_PTR_TO T (padd T (get_chunk_from_ptr T r.1.mem r.2) (CHUNK_OFFSET T))
                (MAX (2 ^ j0) MALLOC_ALIGN))
                (padd T (get_chunk_from_ptr T r.1.mem r.2) (CHUNK_OFFSET T))) with
          | ok f =>
            rw [hf] at h
            simp only at h
            rw [htail _ _ _ _ h]
            exact key _
          | abort d s5 => rw [hf] at h; exact absurd h (by simp)
          | diverge => rw [hf] at h; exact absurd h (by simp)
      | abort d s5 => rw [hm] at h; exact absurd h (by simp [Outcome.bind])
      | diverge => rw [hm] at h; exact absurd h (by simp [Outcome.bind])
  · intro l henv hwf hal hroom hfuel j s hj hs
    have hn := nodesOK_of_wf T st l hwf
    obtain ⟨st1, u, h1, _⟩ := nano_malloc_live T st l s fuel henv hwf.repr hn hal hs (by omega)
    obtain ⟨st2, u2, h2, _⟩ :=
      nano_memalign_spec T st l j s fuel henv hroom hwf.repr hn hal hj hs hfuel
    exact ⟨⟨st1, u, h1⟩, ⟨st2, u2, h2⟩⟩

theorem C3_pointers_aligned_witness :
    (∃ st1 u, nano_malloc .lp64 4 heap64 100 = .ok (st1, u)) ∧
    (∃ st1 u, nano_memalign .lp64 4 heap64 (2 ^ 5) 100 = .ok (st1, u)) :=
  (C3_pointers_aligned .lp64 heap64 4).2.2 [(4096, 16)]
    ⟨by decide, by decide, by decide, by decide⟩
    ⟨by decide!, by simp, by simp, by decide, by decide⟩
    (by unfold NodesAligned; decide) (by decide) (by decide) 5 100 (by decide) (by decide)

/-! ## C4: the skip-back round trip -/

/-- C4: in every state whose free list satisfies the invariants (with
chunk-aligned nodes), `nano_malloc(s)` and, for a power-of-two alignment,
`nano_memalign(2 ^ j, s)` return, and a non-null result `u` belongs to a chunk
with header `c` that lies in the region, shares no byte with the free list and
holds the `s` requested bytes behind `u`, such that: `get_chunk_from_ptr(u)`
is `c`; the size at `c` is even (a real header, not a skip-back record); the
word before `u` is the header itself when `u = c + sizeof(size_t)` and the
skip-back record `(u - sizeof(size_t) - c) | 1` otherwise; and
`nano_malloc_usable_size(u)` is
`c->size - sizeof(size_t) - (u - sizeof(size_t) - c)`.  For `nano_memalign`
the region is assumed to end at least `MALLOC_MINCHUNK` bytes below the top of
the address space. -/
theorem C4_skip_back_round_trip (T : Target) (st : State) (l : List Node) (fuel : Nat)
    (henv : Env T st) (hwf : WF T st l) (hal : NodesAligned T l) (hfuel : l.length + 1 < fuel) :
    (∀ s, s < SIZE_MOD T → ∃ st1 u, nano_malloc T fuel st s = .ok (st1, u) ∧
      (u ≠ 0 → ∃ l1 c, WF T st1 l1 ∧ region_lo st1 ≤ c ∧
        c + chunk_size T st1.mem c ≤ st1.brk ∧
        (∀ x, c ≤ x → x < c + chunk_size T st1.mem c → ¬ Covered l1 x) ∧
        c + sizeof_size_t T ≤ u ∧ u + s ≤ c + chunk_size T st1.mem c ∧
        get_chunk_from_ptr T st1.mem u = c ∧ chunk_size T st1.mem c % 2 = 0 ∧
        (u = c + sizeof_size_t T ∨
          chunk_size T st1.mem (u - sizeof_size_t T) = (u - sizeof_size_t T - c) ||| 1) ∧
        nano_malloc_usable_size T st1.mem u =
          chunk_size T st1.mem c - sizeof_size_t T - (u - sizeof_size_t T - c))) ∧
    (∀ j s, 2 ^ j < SIZE_MOD T → s < SIZE_MOD T →
      st.heap_end + MALLOC_MINCHUNK T < PTR_MOD T →
      ∃ st1 u, nano_memalign T fuel st (2 ^ j) s = .ok (st1, u) ∧
      (u ≠ 0 → ∃ l1 c, WF T st1 l1 ∧ region_lo st1 ≤ c ∧
        c + chunk_size T st1.mem c ≤ st1.brk ∧
        (∀ x, c ≤ x → x < c + chunk_size T st1.mem c → ¬ Covered l1 x) ∧
        c + sizeof_size_t T ≤ u ∧ u + s ≤ c + chunk_size T st1.mem c ∧
        get_chunk_from_ptr T st1.mem u = c ∧ chunk_size T st1.mem c % 2 = 0 ∧
        (u = c + sizeof_size_t T ∨
          chunk_size T st1.mem (u - sizeof_size_t T) = (u - sizeof_size_t T - c) ||| 1) ∧
        nano_malloc_usable_size T st1.mem u =
          chunk_size T st1.mem c - sizeof_size_t T - (u - sizeof_size_t T - c))) := by
  have hn := nodesOK_of_wf T st l hwf
  have hW := sizeof_pos T
  have hcae := chunk_align_eq T
  constructor
  · intro s hs
    obtain ⟨st1, u, h1, h2⟩ :=
      nano_malloc_live T st l s fuel henv hwf.repr hn hal hs (by omega)
    refine ⟨st1, u, h1, fun hu => ?_⟩
    obtain ⟨l1, c, sz, hchk, _, hrepr1, hn1, _, henv1, _, _, hlive, hcs, _, hcu1, hcu2, hsz1,
      _, _⟩ := h2 hu
    obtain ⟨hg, _, _, hus⟩ := live_ptr_chunk T st1 l1 c u henv1 hlive
    have hc := hlive.chunk
    have hrp := request_size_props T s hs hchk
    have hszm := hc.size_mod
    refine ⟨l1, c, wf_of_nodesOK T st1 l1 hrepr1 hn1, hc.lo, hc.hi,
      fun x x1 x2 => live_not_covered T st1 l1 c x hc x1 x2, hcu1, ?_, hg, ?_, ?_, hus⟩
    · have := hrp.2.2.1
      rw [chunk_offset_eq] at this
      rw [hcs]
      have := padding_eq T
      omega
    · rcases T with _ | _ | _ <;> simp only [consts] at hszm <;> omega
    · rcases hlive.user.2 with h | ⟨_, h⟩
      · exact Or.inl h
      · exact Or.inr h
  · intro j s hj hs hroom
    obtain ⟨st1, u, h1, h2⟩ :=
      nano_memalign_spec T st l j s fuel henv hroom hwf.repr hn hal hj hs hfuel
    refine ⟨st1, u, h1, fun hu => ?_⟩
    obtain ⟨_, _, l1, c, e, q1, q2, _, q4, q5, q6, q7, q8, q9, q10, q11, q12, q13, q14⟩ := h2 hu
    have hsz : chunk_size T st1.mem c = e - c := q10.1
    have hb1 := q4.brk_le
    have hb2 := q4.end_lt
    have hszm : (e - c) % CHUNK_ALIGN T = 0 := sub_mod_zero _ _ _ q6 q5
    have hua : u % CHUNK_ALIGN T = 0 := by
      have hu8 := (h2 hu).2.1
      rcases T with _ | _ | _ <;> simp only [consts] at * <;> omega
    have hpc := ptr_chunk T st1.mem c (e - c) u q10 q5 hua hszm q12 (by omega) (by omega)
    have hce : c + (e - c) = e := by omega
    refine ⟨l1, c, ?_⟩
    rw [hsz, hce]
    refine ⟨wf_of_nodesOK T st1 l1 q1 q2, q7, q8, q9, q11, q13, hpc.1, ?_, ?_, hpc.2⟩
    · rcases T with _ | _ | _ <;> simp only [consts] at hszm <;> omega
    · rcases q10.2 with h | ⟨_, h⟩
      · exact Or.inl h
      · exact Or.inr h

theorem C4_skip_back_round_trip_witness :
    ∃ st1 u, nano_memalign .lp64 4 heap64 (2 ^ 5) 100 = .ok (st1, u) ∧
      (u ≠ 0 → ∃ l1 c, WF .lp64 st1 l1 ∧ region_lo st1 ≤ c ∧
        c + chunk_size .lp64 st1.mem c ≤ st1.brk ∧
        (∀ x, c ≤ x → x < c + chunk_size .lp64 st1.mem c → ¬ Covered l1 x) ∧
        c + sizeof_size_t .lp64 ≤ u ∧ u + 100 ≤ c + chunk_size .lp64 st1.mem c ∧
        get_chunk_from_ptr .lp64 st1.mem u = c ∧ chunk_size .lp64 st1.mem c % 2 = 0 ∧
        (u = c + sizeof_size_t .lp64 ∨
          chunk_size .lp64 st1.mem (u - sizeof_size_t .lp64) =
            (u - sizeof_size_t .lp64 - c) ||| 1) ∧
        nano_malloc_usable_size .lp64 st1.mem u =
          chunk_size .lp64 st1.mem c - sizeof_size_t .lp64 - (u - sizeof_size_t .lp64 - c)) :=
  (C4_skip_back_round_trip .lp64 heap64 [(4096, 16)] 4
    ⟨by decide, by decide, by decide, by decide⟩
    ⟨by decide!, by simp, by simp, by decide, by decide⟩
    (by unfold NodesAligned; decide) (by decide)).2 5 100 (by decide) (by decide) (by decide)

/-! ## C5: double-free detection -/

/-- C5: in every state whose free list satisfies the invariants, for every
non-null pointer `u` whose recovered chunk header `c` has a size that is a
multiple of `CHUNK_ALIGN` and lies at or inside a free-list node `n`
(`n ≤ c < n + n.size`), `nano_free(u)` reports a possible double free and
aborts in the state it was called in (the free list is not modified).  In
particular, when the free nodes are valid chunk pointers, for every live
pointer `u` the first call of `nano_free(u); nano_free(u)` returns and the
second one reports a possible double free and aborts. -/
theorem C5_double_free_detected (T : Target) (st : State) (l : List Node) (fuel : Nat)
    (henv : Env T st) (hwf : WF T st l) (hfuel : l.length + 1 < fuel) :
    (∀ u, u ≠ 0 →
      chunk_size T st.mem (get_chunk_from_ptr T st.mem u) % CHUNK_ALIGN T = 0 →
      (∃ n ∈ l, n.1 ≤ get_chunk_from_ptr T st.mem u ∧
        get_chunk_from_ptr T st.mem u < n.1 + n.2) →
      nano_free T fuel st u = .abort .free_possible_double_free st) ∧
    (NodesAligned T l → ∀ c u, LivePtr T st l c u →
      ∃ st1, nano_free T fuel st u = .ok st1 ∧
        nano_free T fuel st1 u = .abort .free_possible_double_free st1) := by
  have hn := nodesOK_of_wf T st l hwf
  constructor
  · intro u hu hsz hin
    exact nano_free_abort T st l u fuel henv hwf.repr hn hu hsz hin (by omega)
  · intro hal c u hlive
    exact double_free_second T st l c u fuel henv hwf.repr hn hal hlive hfuel

theorem C5_double_free_detected_witness :
    nano_free .lp64 4 heap64 4104 = .abort .free_possible_double_free heap64 ∧
    ∃ st1, nano_free .lp64 4 heap64 4120 = .ok st1 ∧
      nano_free .lp64 4 st1 4120 = .abort .free_possible_double_free st1 :=
  have h := C5_double_free_detected .lp64 heap64 [(4096, 16)] 4
    ⟨by decide, by decide, by decide, by decide⟩
    ⟨by decide!, by simp, by simp, by decide, by decide⟩ (by decide)
  ⟨h.1 4104 (by decide) (by decide!) (by decide!),
    h.2 (by unfold NodesAligned; decide) 4112 4120
      ⟨⟨by decide!, by decide!, by decide!, by decide!, by decide!, by decide!⟩,
        by unfold UserPtr; decide!, by decide!, by decide!, by decide!⟩⟩

/-! ## C6: a size field overwritten with `size + 1` -/

/-- C6, counterexample: in the example heap the pointer 4120 is a live
allocation whose chunk at 4112 has the size 24; after the size field is
overwritten with 25, `nano_free(4120)` returns normally and reports nothing:
`get_chunk_from_ptr` reads the odd size as a skip-back record. -/
theorem C6_corrupted_size_missed :
    WF .lp64 heap64 [(4096, 16)] ∧ LivePtr .lp64 heap64 [(4096, 16)] 4112 4120 ∧
    chunk_size .lp64 heap64.mem 4112 = 24 ∧
    (nano_free .lp64 4 { heap64 with mem := set_size .lp64 heap64.mem 4112 25 } 4120).returns
      = true ∧
    (nano_free .lp64 4 { heap64 with mem := set_size .lp64 heap64.mem 4112 25 } 4120).diag
      = none :=
  ⟨⟨by decide!, by simp, by simp, by decide, by decide⟩,
    ⟨⟨by decide!, by decide!, by decide!, by decide!, by decide!, by decide!⟩,
      by unfold UserPtr; decide!, by decide!, by decide!, by decide!⟩,
    by decide!, by decide!, by decide!⟩

/-- C6, amended: for every live pointer `u` of a chunk `c` whose size field is
overwritten with `size + 1`, `nano_free(u)` reports a bogus heap chunk size and
aborts in the state it was called in when `u` is preceded by a skip-back
record; when `u` follows the header directly, the odd size is read as a
skip-back record that leads `size` bytes below `c`, and `nano_free(u)` reports
a bogus heap chunk size when the word found there is not a multiple of
`CHUNK_ALIGN`. -/
theorem C6_corrupted_size_detected (T : Target) (st : State) (l : List Node) (c u fuel : Nat)
    (henv : Env T st) (hlive : LivePtr T st l c u) :
    (c + 2 * sizeof_size_t T ≤ u →
      nano_free T fuel { st with mem := set_size T st.mem c (chunk_size T st.mem c + 1) } u =
        .abort .free_bogus_heap_chunk_size
          { st with mem := set_size T st.mem c (chunk_size T st.mem c + 1) }) ∧
    (u = c + sizeof_size_t T → chunk_size T st.mem c + 1 < UINT_MOD T →
      chunk_size T (set_size T st.mem c (chunk_size T st.mem c + 1))
        (psub T c (chunk_size T st.mem c)) % CHUNK_ALIGN T ≠ 0 →
      nano_free T fuel { st with mem := set_size T st.mem c (chunk_size T st.mem c + 1) } u =
        .abort .free_bogus_heap_chunk_size
          { st with mem := set_size T st.mem c (chunk_size T st.mem c + 1) }) := by
  obtain ⟨_, hu, hcu, _⟩ := live_ptr_chunk T st l c u henv hlive
  have hc := hlive.chunk
  have hW := sizeof_pos T
  have hpm := ptr_mod_eq T
  have hca := chunk_align_eq T
  have hpay := hlive.payload
  have hhi := hc.hi
  have hb1 := henv.brk_le
  have hb2 := henv.end_lt
  have hszm := hc.size_mod
  have hrl := region_lo_le T st henv
  have hlo := hc.lo
  have hsz2 : chunk_size T st.mem c % 2 = 0 := by
    rcases T with _ | _ | _ <;> simp only [consts] at hszm <;> omega
  have hnew : chunk_size T (set_size T st.mem c (chunk_size T st.mem c + 1)) c =
      chunk_size T st.mem c + 1 := by
    rw [size_set_size]
    exact Nat.mod_eq_of_lt (by omega)
  have hodd : (chunk_size T st.mem c + 1) % CHUNK_ALIGN T ≠ 0 := by
    rcases T with _ | _ | _ <;> simp only [consts] at * <;> omega
  constructor
  · intro h3
    apply nano_free_bogus T _ u fuel hu
    have hrec : chunk_size T (set_size T st.mem c (chunk_size T st.mem c + 1))
        (u - sizeof_size_t T) = (u - sizeof_size_t T - c) ||| 1 := by
      rw [size_set_size_ne T _ _ _ _ (by omega)]
      rcases hlive.user.2 with h | ⟨_, h⟩
      · omega
      · exact h
    have hg := get_chunk_skip T (set_size T st.mem c (chunk_size T st.mem c + 1)) c u h3 hrec
      hc.aligned hlive.aligned hlive.near (by omega)
    show chunk_size T (set_size T st.mem c _) (get_chunk_from_ptr T (set_size T st.mem c _) u) %
      CHUNK_ALIGN T ≠ 0
    rw [hg, hnew]
    exact hodd
  · intro hdir hlt hword
    apply nano_free_bogus T _ u fuel hu
    have hps : psub T u (CHUNK_OFFSET T) = c := by
      rw [psub_eq T _ _ (by rw [chunk_offset_eq]; omega) (by omega), chunk_offset_eq]
      omega
    have h1 : (chunk_size T st.mem c + 1) &&& 1 = 1 := by
      rw [← or_one_even _ hsz2]
      exact and_one_odd _ hsz2
    have h2 : (chunk_size T st.mem c + 1) &&& (UINT_MOD T - 2) = chunk_size T st.mem c := by
      rw [and_uint_mask T _ hlt]
      omega
    have hg : get_chunk_from_ptr T (set_size T st.mem c (chunk_size T st.mem c + 1)) u =
        psub T c (chunk_size T st.mem c) := by
      unfold get_chunk_from_ptr
      simp only [hps, hnew, h1, h2, ne_eq, one_ne_zero, not_false_eq_true, if_true]
    show chunk_size T (set_size T st.mem c _) (get_chunk_from_ptr T (set_size T st.mem c _) u) %
      CHUNK_ALIGN T ≠ 0
    rw [hg]
    exact hword

theorem C6_corrupted_size_detected_witness :
    nano_free .lp64 4
        { heap64 with mem := set_size .lp64 heap64.mem 4136 (chunk_size .lp64 heap64.mem 4136 + 1) }
        4152 =
      .abort .free_bogus_heap_chunk_size
        { heap64 with
          mem := set_size .lp64 heap64.mem 4136 (chunk_size .lp64 heap64.mem 4136 + 1) } :=
  (C6_corrupted_size_detected .lp64 heap64 [(4096, 16)] 4136 4152 4
    ⟨by decide, by decide, by decide, by decide⟩
    ⟨⟨by decide!, by decide!, by decide!, by decide!, by decide!, by decide!⟩,
      by unfold UserPtr; decide!, by decide!, by decide!, by decide!⟩).1 (by decide)

/-! ## C7: the free-list total after free(malloc(n)) -/

/-- C7, counterexample: from the empty initial state `nano_malloc(16)` succeeds
and `nano_free` of its result returns, but the free list, which was empty (total
0), then holds one node of 24 bytes: the chunk came from the region source, not
from the free list. -/
theorem C7_total_not_restored :
    WF .lp64 (init_state 4096 65536) [] ∧
    (nano_malloc .lp64 4 (init_state 4096 65536) 16).returns = true ∧
    (nano_malloc .lp64 4 (init_state 4096 65536) 16).ptr ≠ 0 ∧
    (nano_free .lp64 4
      ((nano_malloc .lp64 4 (init_state 4096 65536) 16).state (init_state 4096 65536))
      (nano_malloc .lp64 4 (init_state 4096 65536) 16).ptr).returns = true ∧
    WF .lp64 ((nano_free .lp64 4
      ((nano_malloc .lp64 4 (init_state 4096 65536) 16).state (init_state 4096 65536))
      (nano_malloc .lp64 4 (init_state 4096 65536) 16).ptr).val (init_state 4096 65536))
      [(4096, 24)] ∧
    total [(4096, 24)] ≠ total [] :=
  ⟨⟨by decide!, by simp, by simp, by decide, by decide⟩, by decide!, by decide!, by decide!,
    ⟨by decide!, by simp, by simp, by decide, by decide!⟩, by decide⟩

/-- C7 (R1), amended: in every state whose free list satisfies the invariants
(with chunk-aligned nodes), when `p = nano_malloc(n)` is not null, `nano_free(p)`
returns with the invariants restored, and the free-list total afterwards is the
total before plus the bytes `nano_malloc` obtained from the region source for
the chunk: it equals the prior total (and the break is unchanged) when some
free node was large enough for the request, and it is the prior total plus
`need - adjust` otherwise, where `need` is the padded request size and `adjust`
the size of the last free node when it ends at the break. -/
theorem C7_total_after_free (T : Target) (st : State) (l : List Node) (s fuel : Nat)
    (henv : Env T st) (hwf : WF T st l) (hal : NodesAligned T l)
    (hs : s < SIZE_MOD T) (hfuel : l.length < fuel) :
    ∃ st1 p, nano_malloc T fuel st s = .ok (st1, p) ∧
      (p ≠ 0 → ∃ st2 l2, nano_free T fuel st1 p = .ok st2 ∧ WF T st2 l2 ∧
        ((∃ k ∈ l, request_size T s ≤ k.2) → total l2 = total l ∧ st2.brk = st.brk) ∧
        ((∀ k ∈ l, k.2 < request_size T s) →
          total l2 = total l + (request_size T s - tail_adjust st.brk l))) := by
  obtain ⟨st1, p, h1, h2⟩ :=
    nano_malloc_live T st l s fuel henv hwf.repr (nodesOK_of_wf T st l hwf) hal hs hfuel
  refine ⟨st1, p, h1, fun hp => ?_⟩
  obtain ⟨l1, c, sz, _, _, hrepr1, hn1, _, henv1, _, hstep, hlive, hcs, _⟩ := h2 hp
  have hlen := malloc_step_length T st l _ st1 l1 c sz hstep
  obtain ⟨m2, f2, a1, a2, a3, _⟩ :=
    nano_free_live T st1 l1 c p fuel henv1 hrepr1 hn1 hlive (by omega)
  have htot := malloc_step_total T st l _ st1 l1 c sz hstep
  rw [hcs] at a2 a3
  refine ⟨_, insert_free c sz l1, a1, wf_of_nodesOK T _ _ a2 a3, ?_, ?_⟩
  · intro hfit
    have := htot.1 hfit
    rw [total_insert]
    exact ⟨this.1, this.2⟩
  · intro hno
    have := htot.2 hno
    rw [total_insert]
    exact this

theorem C7_total_after_free_witness :
    ∃ st1 p, nano_malloc .lp64 4 heap64 1 = .ok (st1, p) ∧
      (p ≠ 0 → ∃ st2 l2, nano_free .lp64 4 st1 p = .ok st2 ∧ WF .lp64 st2 l2 ∧
        ((∃ k ∈ [((4096, 16) : Node)], request_size .lp64 1 ≤ k.2) →
          total l2 = total [(4096, 16)] ∧ st2.brk = heap64.brk) ∧
        ((∀ k ∈ [((4096, 16) : Node)], k.2 < request_size .lp64 1) →
          total l2 = total [(4096, 16)] +
            (request_size .lp64 1 - tail_adjust heap64.brk [(4096, 16)]))) :=
  C7_total_after_free .lp64 heap64 [(4096, 16)] 1 4
    ⟨by decide, by decide, by decide, by decide⟩
    ⟨by decide!, by simp, by simp, by decide, by decide⟩
    (by unfold NodesAligned; decide) (by decide) (by decide)

/-! ## C8: free(ptr); malloc(k) without growth -/

/-- C9 (R2): for a non-null pointer `p` with `old = nano_malloc_usable_size(p)`
and every `s > 0` with `s ≤ old` and `old / 2 < s`, `nano_realloc(p, s)` returns
`p` in the unchanged state (free list, break and every heap byte are the same);
in particular `nano_realloc(p, nano_malloc_usable_size(p))` returns `p` in the
unchanged state for every live pointer `p`. -/
theorem C9_realloc_in_place (T : Target) (fuel : Nat) (st : State) (p : Nat) (hp : p ≠ 0) :
    (∀ s, 0 < s → s ≤ nano_malloc_usable_size T st.mem p →
      nano_malloc_usable_size T st.mem p / 2 < s →
      nano_realloc T fuel st p s = .ok (st, p)) ∧
    (∀ l c, Env T st → LivePtr T st l c p →
      nano_realloc T fuel st p (nano_malloc_usable_size T st.mem p) = .ok (st, p)) := by
  have key : ∀ s, 0 < s → s ≤ nano_malloc_usable_size T st.mem p →
      nano_malloc_usable_size T st.mem p / 2 < s →
      nano_realloc T fuel st p s = .ok (st, p) := by
    intro s hs0 hle hhalf
    unfold nano_realloc
    have hs : ¬ s = 0 := by omega
    have hsh : nano_malloc_usable_size T st.mem p >>> 1 < s := by
      rw [Nat.shiftRight_eq_div_pow]
      simpa using hhalf
    simp only [hp, hs, if_false, hle, hsh, and_self, if_true]
  refine ⟨key, ?_⟩
  intro l c henv hlive
  have hc := hlive.chunk
  have hpc := ptr_chunk T st.mem c _ p hlive.user hc.aligned hlive.aligned hc.size_mod hlive.near
    (by have := hlive.payload; omega)
    (by have := hc.hi; have := henv.brk_le; have := henv.end_lt; omega)
  have hpos : 0 < nano_malloc_usable_size T st.mem p := by
    rw [hpc.2]
    have h1 := hlive.payload
    have h2 : c + sizeof_size_t T ≤ p := by
      rcases hlive.user.2 with h | h
      · omega
      · omega
    have h3 : 0 < MALLOC_MINSIZE T := by rcases T with _ | _ | _ <;> decide
    omega
  exact key _ hpos (le_refl _) (Nat.div_lt_self hpos (by decide))

theorem C9_realloc_in_place_witness :
    nano_realloc .lp64 4 heap64 4120 10 = .ok (heap64, 4120) ∧
    nano_realloc .lp64 4 heap64 4120 (nano_malloc_usable_size .lp64 heap64.mem 4120) =
      .ok (heap64, 4120) :=
  have h := C9_realloc_in_place .lp64 4 heap64 4120 (by decide)
  ⟨h.1 10 (by decide) (by decide!) (by decide!),
    h.2 [(4096, 16)] 4112 ⟨by decide, by decide, by decide, by decide⟩
      ⟨⟨by decide!, by decide!, by decide!, by decide!, by decide!, by decide!⟩,
        by unfold UserPtr; decide!, by decide!, by decide!, by decide!⟩⟩

/-! ## C10: scenario 3 -/

/-- C10, counterexample: from the empty initial state of the 64-bit target
with the break at 4096, `p = nano_malloc(1000)` is 4104 and
`q = nano_realloc(p, 500)` is 5112, not `p`: the usable size of `p` is 1000 and
`1000 / 2 < 500` is false, so the block is moved. -/
theorem C10_realloc_half_moves :
    scenario3 .lp64 4 (init_state 4096 60000) = some (4104, 5112, 4104) ∧
    (5112 : Nat) ≠ 4104 :=
  ⟨by decide!, by decide⟩

/-- C10 (scenario 3), amended: from the empty initial state, on each of the
three targets and for each alignment of the initial break (4096 to 4103),
with a region source that grants every request of the scenario, the calls
`p = nano_malloc(1000); q = nano_realloc(p, 500); q2 = nano_realloc(q, 100)`
all return non-null pointers, `q` is a new pointer different from `p` (500 is
not more than half of the usable size of `p`), and `q2` is different from
`q`. -/
theorem C10_scenario3 (T : Target) (i : Fin 8) :
    ∃ r, scenario3 T 4 (init_state (4096 + i) 60000) = some r ∧
      r.1 ≠ 0 ∧ r.2.1 ≠ 0 ∧ r.2.1 ≠ r.1 ∧ r.2.2 ≠ 0 ∧ r.2.2 ≠ r.2.1 := by
  have h : ∀ (T : Target) (i : Fin 8),
      (match scenario3 T 4 (init_state (4096 + i) 60000) with
        | some r => decide (r.1 ≠ 0 ∧ r.2.1 ≠ 0 ∧ r.2.1 ≠ r.1 ∧ r.2.2 ≠ 0 ∧ r.2.2 ≠ r.2.1)
        | none => false) = true := by
    intro T
    cases T <;> decide!
  have hT := h T i
  cases hsc : scenario3 T 4 (init_state (4096 + i) 60000) with
  | none => rw [hsc] at hT; exact absurd hT (by decide)
  | some r =>
    rw [hsc] at hT
    exact ⟨r, rfl, of_decide_eq_true hT⟩

/-! ## C11: a failed nano_realloc leaves the allocation alone -/

/-- C11: in every state whose free list satisfies the invariants, for every
live pointer `p` and every `s > 0` that does not satisfy the in-place
condition, the inner `nano_malloc(s)` returns, and when it returns null,
`nano_realloc(p, s)` returns null in the state the inner call left: every heap
byte (the header and the payload of the chunk of `p` among them) and the head
of the free list are the same as before the call, the free list holds the same
nodes, and `p` is still a live pointer of its chunk, which is not in the free
list. -/
theorem C11_realloc_failure_atomic (T : Target) (st : State) (l : List Node)
    (c p s fuel : Nat) (henv : Env T st) (hwf : WF T st l) (hlive : LivePtr T st l c p)
    (hs0 : 0 < s) (hs : s < SIZE_MOD T)
    (hnot : ¬ (s ≤ nano_malloc_usable_size T st.mem p ∧
      nano_malloc_usable_size T st.mem p / 2 < s))
    (hfuel : l.length < fuel) :
    ∃ st1 u, nano_malloc T fuel st s = .ok (st1, u) ∧
      (u = 0 → nano_realloc T fuel st p s = .ok (st1, 0) ∧ st1.mem = st.mem ∧
        st1.free_list = st.free_list ∧ WF T st1 l ∧ LivePtr T st1 l c p) := by
  have hn := nodesOK_of_wf T st l hwf
  have hrl := region_lo_le T st henv
  obtain ⟨st1, u, h1, h2⟩ := nano_malloc_null T st l s fuel henv hwf.repr hn hs hfuel
  refine ⟨st1, u, h1, fun hu => ?_⟩
  subst hu
  obtain ⟨_, hp, _, _⟩ := live_ptr_chunk T st l c p henv hlive
  have hre : nano_realloc T fuel st p s = .ok (st1, 0) := by
    unfold nano_realloc
    have hs1 : ¬ s = 0 := by omega
    have hnot2 : ¬ (s ≤ nano_malloc_usable_size T st.mem p ∧
        nano_malloc_usable_size T st.mem p >>> 1 < s) := by
      rw [Nat.shiftRight_eq_div_pow]
      simpa using hnot
    simp only [hp, hs1, if_false, hnot2, h1, Outcome.bind, ne_eq, not_true_eq_false]
  obtain ⟨⟨a1, a2, a3, a4, a5, a6⟩, b, c1, d, e⟩ := hlive
  rcases h2 rfl with h | ⟨b1, h, hb1, hb2⟩
  · subst h
    exact ⟨hre, rfl, rfl, wf_of_nodesOK T _ l hwf.repr hn,
      ⟨⟨a1, a2, a3, a4, a5, a6⟩, b, c1, d, e⟩⟩
  · subst h
    have hrl2 : region_lo { st with brk := b1, sbrk_start := region_lo st, errno := ENOMEM } =
        region_lo st := region_lo_of_start st _ hrl.1 rfl
    refine ⟨hre, rfl, rfl, ?_, ⟨⟨a1, a2, a3, ?_, ?_, a6⟩, b, c1, d, e⟩⟩
    · refine wf_of_nodesOK T _ l ?_ ?_
      · exact hwf.repr
      · rw [hrl2]
        exact nodesOK_mono T l _ _ _ _ (le_refl _) (by show st.brk + 1 ≤ b1 + 1; omega) hn
    · rw [hrl2]; exact a4
    · show c + chunk_size T st.mem c ≤ b1
      omega

theorem C11_realloc_failure_atomic_witness :
    ∃ st1 u, nano_malloc .lp64 4 heap64 70000 = .ok (st1, u) ∧
      (u = 0 → nano_realloc .lp64 4 heap64 4120 70000 = .ok (st1, 0) ∧
        st1.mem = heap64.mem ∧ st1.free_list = heap64.free_list ∧
        WF .lp64 st1 [(4096, 16)] ∧ LivePtr .lp64 st1 [(4096, 16)] 4112 4120) :=
  C11_realloc_failure_atomic .lp64 heap64 [(4096, 16)] 4112 4120 70000 4
    ⟨by decide, by decide, by decide, by decide⟩
    ⟨by decide!, by simp, by simp, by decide, by decide⟩
    ⟨⟨by decide!, by decide!, by decide!, by decide!, by decide!, by decide!⟩,
      by unfold UserPtr; decide!, by decide!, by decide!, by decide!⟩
    (by decide) (by decide) (by decide!) (by decide)

/-! ## C12: total coalescing -/

/-- C12 (scenarios 1 and 2 generalised): from a state with an empty free list
(the empty initial state in particular), for `k ≥ 1` requests that pass the size
check and a region source with room for the sum of their padded sizes above the
break rounded up to `CHUNK_ALIGN`, the calls of `nano_malloc` all return non-null
pointers; the chunks have the padded request sizes and lie one after the other
from the address `a` of the first chunk, the break rounded up, to the new break;
freeing all pointers in any order then returns, and the final free list is
exactly one node, at `a`, whose size is the sum of the `k` chunk sizes. -/
theorem C12_total_coalescing (T : Target) (st0 : State) (s : Nat) (ss : List Nat) (fuel : Nat)
    (henv : Env T st0) (hfl : st0.free_list = 0)
    (hsz : ∀ x ∈ s :: ss, x < SIZE_MOD T ∧
      ¬ (request_size T x ≥ MAX_ALLOC_SIZE ∨ request_size T x < x))
    (hroom : ∃ c, st0.brk ≤ c ∧ c % CHUNK_ALIGN T = 0 ∧
      c + ((s :: ss).map (request_size T)).sum ≤ st0.heap_end)
    (hfuel : (s :: ss).length < fuel + 1) :
    ∃ (st1 : State) (ps : List Nat) (a : Nat) (bl : List Block),
      malloc_all T fuel st0 (s :: ss) = .ok (st1, ps) ∧ (∀ p ∈ ps, p ≠ 0) ∧
      st0.brk ≤ a ∧ a < st0.brk + CHUNK_ALIGN T ∧ a % CHUNK_ALIGN T = 0 ∧
      (bl.map fun blk => blk.2.2) = ps ∧
      (bl.map fun blk => blk.2.1) = (s :: ss).map (request_size T) ∧
      Tile a bl st1.brk ∧ (∀ blk ∈ bl.head?, blk.1 = a) ∧
      (∀ blk ∈ bl, get_chunk_from_ptr T st1.mem blk.2.2 = blk.1 ∧
        chunk_size T st1.mem blk.1 = blk.2.1) ∧
      ∀ order : List Nat, order.Perm ps →
        ∃ st2, free_all T fuel st1 order = .ok st2 ∧
          WF T st2 [(a, (bl.map fun blk => blk.2.1).sum)] := by
  have hf0 : 0 < fuel := by simp at hfuel; omega
  have hm := minchunk_eq T
  have hW := sizeof_pos T
  obtain ⟨st1, ps, hma⟩ := malloc_all_returns T fuel hf0 (s :: ss) st0 henv hfl
    (fun x hx => (hsz x hx).1)
  obtain ⟨c0, r1, r2, r3⟩ := hroom
  simp only [List.map_cons, List.sum_cons] at r3
  have hs := hsz s (by simp)
  obtain ⟨stg, ug, k1, k2⟩ := nano_malloc_room T st0 [] s fuel henv hfl trivial
    (fun k hk => absurd hk (List.not_mem_nil k)) hs.1 hs.2
    ⟨c0, r1, r2, by
      have : tail_adjust st0.brk [] = 0 := rfl
      rw [this]
      omega⟩ (by simpa using hf0)
  obtain ⟨se, ue, h1, h2⟩ := nano_malloc_empty T st0 s fuel henv hfl hs.1 hf0
  have hinj : stg = se ∧ ug = ue := by
    rw [h1] at k1
    simp only [Outcome.ok.injEq, Prod.mk.injEq] at k1
    exact ⟨k1.1.symm, k1.2.symm⟩
  obtain ⟨rfl, rfl⟩ := hinj
  have hma2 := hma
  unfold malloc_all at hma2
  rw [h1] at hma2
  simp only [Outcome.bind] at hma2
  cases hrec : malloc_all T fuel stg ss with
  | abort d s5 => rw [hrec] at hma2; exact absurd hma2 (by simp)
  | diverge => rw [hrec] at hma2; exact absurd hma2 (by simp)
  | ok r =>
    rw [hrec] at hma2
    simp only [Outcome.ok.injEq, Prod.mk.injEq] at hma2
    obtain ⟨e1, e2⟩ := hma2
    have hu : ug ≠ 0 := k2
    obtain ⟨c, sz, a1, a2, a3, a4, a5, a6, a7, a8, a9, a10, a11, a12, a13, a14⟩ := h2 hu
    have hcc : c ≤ c0 := by
      rcases T with _ | _ | _ <;> simp only [consts] at * <;> omega
    have hrest : ∀ p ∈ r.2, p ≠ 0 :=
      malloc_all_grants T fuel hf0 ss stg a2 a1 (by rw [a8]; exact add_mod_zero _ _ _ a7 a9)
        (fun x hx => hsz x (List.mem_cons_of_mem _ hx)) (by rw [a8, a4, a14]; omega)
        r.1 r.2 (by rw [hrec])
    have hps : ∀ p ∈ ps, p ≠ 0 := by
      intro p hp
      rw [← e2] at hp
      rcases List.mem_cons.1 hp with h | h
      · rw [h]; exact k2
      · exact hrest p h
    obtain ⟨bl2, b1, b2, b3, b4, b5, b6, b7, b8⟩ :=
      alloc_phase T fuel hf0 ss stg [(c, sz, ug)] c a2 a1
        (by rw [a8]; exact add_mod_zero _ _ _ a7 a9) ⟨rfl, a8.symm⟩
        (fun blk hb => by
          have : blk = (c, sz, ug) := by simpa using hb
          subst this
          exact ⟨a11, a12⟩)
        (fun x hx => (hsz x (List.mem_cons_of_mem _ hx)).1) r.1 r.2 (by rw [hrec])
        hrest
    rw [e1] at b2 b3 b4 b5
    have hbl : [((c, sz, ug) : Block)] ++ bl2 = (c, sz, ug) :: bl2 := rfl
    rw [hbl] at b4 b5
    have hmap : (((c, sz, ug) : Block) :: bl2).map (fun blk => blk.2.2) = ps := by
      rw [← e2]
      simp only [List.map_cons, b1]
    refine ⟨st1, ps, c, (c, sz, ug) :: bl2, hma, hps, a5, a6, a7, hmap,
      by simp only [List.map_cons, b8, a14], b4, by simp, ?_, ?_⟩
    · intro blk hb
      obtain ⟨lp, lsz⟩ := b5 blk hb
      exact ⟨(live_ptr_chunk T st1 [] blk.1 blk.2.2 b2 lp).1, lsz⟩
    · intro order hperm
      have hinside := tile_inside _ _ _ b4
      have hpw := tile_pairwise _ _ _ b4
      have hptr : ∀ blk ∈ ((c, sz, ug) : Block) :: bl2,
          blk.1 < blk.2.2 ∧ blk.2.2 < blk.1 + blk.2.1 := by
        intro blk hb
        obtain ⟨lp, lsz⟩ := b5 blk hb
        have h3 := (live_ptr_chunk T st1 [] blk.1 blk.2.2 b2 lp).2.2.1
        have h4 := lp.payload
        have h5 : MALLOC_MINSIZE T = sizeof_size_t T := by rcases T with _ | _ | _ <;> rfl
        rw [lsz] at h4
        omega
      have hndps : ps.Nodup := by
        rw [← hmap]
        unfold List.Nodup
        rw [List.pairwise_map]
        refine List.Pairwise.imp_of_mem ?_ hpw
        intro p q hp hq hpq
        have := hptr p hp
        have := hptr q hq
        omega
      have hdis : ∀ b1 ∈ ((c, sz, ug) : Block) :: bl2, ∀ b2 ∈ ((c, sz, ug) : Block) :: bl2,
          b1.2.2 ≠ b2.2.2 → b1.1 + b1.2.1 ≤ b2.1 ∨ b2.1 + b2.2.1 ≤ b1.1 := by
        have hpw2 : (((c, sz, ug) : Block) :: bl2).Pairwise
            (fun p q => p.1 + p.2.1 ≤ q.1 ∨ q.1 + q.2.1 ≤ p.1) :=
          hpw.imp (fun h => Or.inl h)
        intro p hp q hq hne
        exact hpw2.forall (fun x y h => h.symm) hp hq (fun e => hne (by rw [e]))
      have hcpos : c < st1.brk := by
        have h8 : c ≤ c ∧ c + sz ≤ st1.brk := hinside (c, sz, ug) (by simp)
        have h9 : MALLOC_MINCHUNK T ≤ sz := a10
        omega
      obtain ⟨st2, l2, g1, g2, g3, g4, g5⟩ :=
        free_phase T fuel c st1.brk order st1 [] ((c, sz, ug) :: bl2) b2 b3 trivial b5 hdis
          (fun blk hb => ⟨hperm.mem_iff.2 (by rw [← hmap]; exact List.mem_map_of_mem _ hb),
            hinside blk hb⟩)
          (fun p hp => by
            have hp2 := hperm.mem_iff.1 hp
            rw [← hmap] at hp2
            obtain ⟨blk, hb, hbp⟩ := List.mem_map.1 hp2
            exact ⟨blk, hb, hbp⟩)
          (hperm.nodup_iff.2 hndps)
          (fun x x1 x2 => Or.inr (tile_cover _ _ _ b4 x x1 x2))
          (fun x hx => absurd hx (covered_nil x))
          (by
            have h6 := hperm.length_eq
            have h7 := malloc_all_length T fuel (s :: ss) st0 st1 ps hma
            simp only [List.length_cons, List.length_nil] at hfuel h7 ⊢
            omega)
      have hsingle := single_node T _ _ c st1.brk l2 g3 hcpos g4 g5
      have hsum := tile_sum _ _ _ b4
      refine ⟨st2, g1, ?_⟩
      have hl2 : l2 = [(c, ((((c, sz, ug) : Block) :: bl2).map fun blk => blk.2.1).sum)] := by
        have h10 : st1.brk - c = ((((c, sz, ug) : Block) :: bl2).map fun blk => blk.2.1).sum := by
          rw [hsum]
          exact Nat.add_sub_cancel_left _ _
        rw [hsingle, h10]
      rw [← hl2]
      exact wf_of_nodesOK T st2 l2 g2 g3

/-- The theorem of C12 at the empty initial state of the 64-bit target with the
break at 4096: two requests of 16 bytes give two chunks of 24 bytes from 4096,
and freeing them in any order leaves the single node of 48 bytes at 4096; three
requests of 16 bytes give three such chunks, and freeing them in any order
leaves the single node of 72 bytes at 4096. -/
theorem C12_total_coalescing_witness :
    (∃ (st1 : State) (ps : List Nat) (bl : List Block),
      malloc_all .lp64 4 (init_state 4096 60000) (16 :: [16]) = .ok (st1, ps) ∧
      (∀ p ∈ ps, p ≠ 0) ∧ (bl.map fun blk => blk.2.2) = ps ∧
      (bl.map fun blk => blk.2.1) = [24, 24] ∧ Tile 4096 bl st1.brk ∧
      (∀ blk ∈ bl.head?, blk.1 = 4096) ∧
      (∀ blk ∈ bl, get_chunk_from_ptr .lp64 st1.mem blk.2.2 = blk.1 ∧
        chunk_size .lp64 st1.mem blk.1 = blk.2.1) ∧
      ∀ order : List Nat, order.Perm ps →
        ∃ st2, free_all .lp64 4 st1 order = .ok st2 ∧ WF .lp64 st2 [(4096, 48)]) ∧
    (∃ (st1 : State) (ps : List Nat) (bl : List Block),
      malloc_all .lp64 4 (init_state 4096 60000) (16 :: [16, 16]) = .ok (st1, ps) ∧
      (∀ p ∈ ps, p ≠ 0) ∧ (bl.map fun blk => blk.2.2) = ps ∧
      (bl.map fun blk => blk.2.1) = [24, 24, 24] ∧ Tile 4096 bl st1.brk ∧
      (∀ blk ∈ bl.head?, blk.1 = 4096) ∧
      (∀ blk ∈ bl, get_chunk_from_ptr .lp64 st1.mem blk.2.2 = blk.1 ∧
        chunk_size .lp64 st1.mem blk.1 = blk.2.1) ∧
      ∀ order : List Nat, order.Perm ps →
        ∃ st2, free_all .lp64 4 st1 order = .ok st2 ∧ WF .lp64 st2 [(4096, 72)]) := by
  have hb : (init_state 4096 60000).brk = 4096 := rfl
  have hca : CHUNK_ALIGN .lp64 = 8 := by decide
  constructor
  · have e2 : List.map (request_size .lp64) (16 :: [16]) = [24, 24] := by decide!
    obtain ⟨st1, ps, a, bl, h1, h2, h3, h4, h5, h6, h7, h8, h9, h10, h11⟩ :=
      C12_total_coalescing .lp64 (init_state 4096 60000) 16 [16] 4
        ⟨by decide, by decide, by decide, by decide⟩ rfl (by decide!)
        ⟨4096, by decide, by decide, by decide!⟩ (by decide)
    rw [hca] at h4 h5
    rw [hb] at h3 h4
    have ha : a = 4096 := by omega
    subst ha
    rw [e2] at h7
    refine ⟨st1, ps, bl, h1, h2, h6, h7, h8, h9, h10, fun order hp => ?_⟩
    obtain ⟨st2, g1, g2⟩ := h11 order hp
    rw [h7] at g2
    exact ⟨st2, g1, g2⟩
  · have e2 : List.map (request_size .lp64) (16 :: [16, 16]) = [24, 24, 24] := by decide!
    obtain ⟨st1, ps, a, bl, h1, h2, h3, h4, h5, h6, h7, h8, h9, h10, h11⟩ :=
      C12_total_coalescing .lp64 (init_state 4096 60000) 16 [16, 16] 4
        ⟨by decide, by decide, by decide, by decide⟩ rfl (by decide!)
        ⟨4096, by decide, by decide, by decide!⟩ (by decide)
    rw [hca] at h4 h5
    rw [hb] at h3 h4
    have ha : a = 4096 := by omega
    subst ha
    rw [e2] at h7
    refine ⟨st1, ps, bl, h1, h2, h6, h7, h8, h9, h10, fun order hp => ?_⟩
    obtain ⟨st2, g1, g2⟩ := h11 order hp
    rw [h7] at g2
    exact ⟨st2, g1, g2⟩

/-! ## C13: the chunks of nano_memalign -/

/-- C13, at the failing input: on the 16-bit target (`MALLOC_PADDING = 6`,
`MALLOC_MINCHUNK = 10`), from the empty initial state with the break at 4096,
`nano_memalign(64, 2)` returns 4160, and the chunk that owns this pointer, at
4158, has the size 4, below `MALLOC_MINCHUNK`: the front part of 62 bytes was
split off and what is left is the header and `ma_size = 2` bytes.  When the
front part is allocated again (`nano_malloc(50)`) before `nano_free(4160)`, the
free list ends up as the single node `(4158, 4)`, whose size is below
`MALLOC_MINCHUNK`. -/
theorem C13_memalign_small_chunk :
    (nano_memalign .ia16 6 (init_state 4096 60000) 64 2).ptr = 4160 ∧
    get_chunk_from_ptr .ia16
      ((nano_memalign .ia16 6 (init_state 4096 60000) 64 2).state (init_state 4096 60000)).mem
      4160 = 4158 ∧
    chunk_size .ia16
      ((nano_memalign .ia16 6 (init_state 4096 60000) 64 2).state (init_state 4096 60000)).mem
      4158 = 4 ∧
    4 < MALLOC_MINCHUNK .ia16 ∧
    Repr .ia16
      ((nano_free .ia16 6
        ((nano_malloc .ia16 6
          ((nano_memalign .ia16 6 (init_state 4096 60000) 64 2).state (init_state 4096 60000))
          50).state (init_state 4096 60000)) 4160).val (init_state 4096 60000)).mem
      ((nano_free .ia16 6
        ((nano_malloc .ia16 6
          ((nano_memalign .ia16 6 (init_state 4096 60000) 64 2).state (init_state 4096 60000))
          50).state (init_state 4096 60000)) 4160).val (init_state 4096 60000)).free_list
      [(4158, 4)] :=
  ⟨by decide!, by decide!, by decide!, by decide, by decide!⟩

/-! ## C14: the capacity of an aligned allocation -/

/-- C14: in every state whose free list satisfies the invariants (with
chunk-aligned nodes, and a region that ends at least `MALLOC_MINCHUNK` bytes
below the top of the address space), for every power-of-two alignment and
every `n`, `nano_memalign` returns, and when the result `p` is not null:
`nano_malloc_usable_size(p) ≥ n`, and the range `[p, p + usable_size(p))` ends
where the chunk `[c, e)` of `p` ends, which lies inside the chunk
`[c0, c0 + sz0)` obtained from the inner `nano_malloc` call; the front part
`[c0, c)` and the tail part `[e, c0 + sz0)` that `nano_memalign` freed belong to
the free list, and no byte of `[c, e)` does. -/
theorem C14_memalign_capacity (T : Target) (st : State) (l : List Node) (fuel j n : Nat)
    (henv : Env T st) (hwf : WF T st l) (hal : NodesAligned T l)
    (hroom : st.heap_end + MALLOC_MINCHUNK T < PTR_MOD T)
    (hj : 2 ^ j < SIZE_MOD T) (hn : n < SIZE_MOD T) (hfuel : l.length + 1 < fuel) :
    ∃ st1 p, nano_memalign T fuel st (2 ^ j) n = .ok (st1, p) ∧
      (p ≠ 0 → n ≤ nano_malloc_usable_size T st1.mem p ∧
        ∃ stm al c0 sz0 l1 c e,
          nano_malloc T fuel st (ALIGN_TO T (MAX n (MALLOC_MINSIZE T)) (CHUNK_ALIGN T) +
            (MAX (2 ^ j) MALLOC_ALIGN - MALLOC_ALIGN)) = .ok (stm, al) ∧
          get_chunk_from_ptr T stm.mem al = c0 ∧ chunk_size T stm.mem c0 = sz0 ∧
          WF T st1 l1 ∧ get_chunk_from_ptr T st1.mem p = c ∧
          chunk_size T st1.mem c = e - c ∧
          c0 ≤ c ∧ c < p ∧ p + nano_malloc_usable_size T st1.mem p = e ∧ e ≤ c0 + sz0 ∧
          (∀ x, c0 ≤ x → x < c → Covered l1 x) ∧
          (∀ x, e ≤ x → x < c0 + sz0 → Covered l1 x) ∧
          (∀ x, c ≤ x → x < e → ¬ Covered l1 x)) := by
  have hnk := nodesOK_of_wf T st l hwf
  have hW := sizeof_pos T
  have hcae := chunk_align_eq T
  obtain ⟨st1, u, h1, h2⟩ :=
    nano_memalign_spec T st l j n fuel henv hroom hwf.repr hnk hal hj hn hfuel
  refine ⟨st1, u, h1, fun hu => ?_⟩
  obtain ⟨_, hu8, l1, c, e, q1, q2, _, q4, q5, q6, q7, q8, q9, q10, q11, q12, q13, q14, stm, al,
    c0, sz0, r1, r2, r3, r4, r5, _, _, r8, r9, _⟩ := h2 hu
  have hb1 := q4.brk_le
  have hb2 := q4.end_lt
  have hszm : (e - c) % CHUNK_ALIGN T = 0 := sub_mod_zero _ _ _ q6 q5
  have hua : u % CHUNK_ALIGN T = 0 := by
    rcases T with _ | _ | _ <;> simp only [consts] at * <;> omega
  have hpc := ptr_chunk T st1.mem c (e - c) u q10 q5 hua hszm q12 (by omega) (by omega)
  rw [hpc.2]
  refine ⟨by omega, stm, al, c0, sz0, l1, c, e, r1, r2, r3, wf_of_nodesOK T st1 l1 q1 q2, hpc.1,
    q10.1, r4, by omega, by omega, r5, r8, r9, q9⟩

theorem C14_memalign_capacity_witness :
    ∃ st1 p, nano_memalign .lp64 4 heap64 (2 ^ 5) 100 = .ok (st1, p) ∧
      (p ≠ 0 → 100 ≤ nano_malloc_usable_size .lp64 st1.mem p ∧
        ∃ stm al c0 sz0 l1 c e,
          nano_malloc .lp64 4 heap64
            (ALIGN_TO .lp64 (MAX 100 (MALLOC_MINSIZE .lp64)) (CHUNK_ALIGN .lp64) +
              (MAX (2 ^ 5) MALLOC_ALIGN - MALLOC_ALIGN)) = .ok (stm, al) ∧
          get_chunk_from_ptr .lp64 stm.mem al = c0 ∧ chunk_size .lp64 stm.mem c0 = sz0 ∧
          WF .lp64 st1 l1 ∧ get_chunk_from_ptr .lp64 st1.mem p = c ∧
          chunk_size .lp64 st1.mem c = e - c ∧
          c0 ≤ c ∧ c < p ∧ p + nano_malloc_usable_size .lp64 st1.mem p = e ∧ e ≤ c0 + sz0 ∧
          (∀ x, c0 ≤ x → x < c → Covered l1 x) ∧
          (∀ x, e ≤ x → x < c0 + sz0 → Covered l1 x) ∧
          (∀ x, c ≤ x → x < e → ¬ Covered l1 x)) :=
  C14_memalign_capacity .lp64 heap64 [(4096, 16)] 4 5 100
    ⟨by decide, by decide, by decide, by decide⟩
    ⟨by decide!, by simp, by simp, by decide, by decide⟩
    (by unfold NodesAligned; decide) (by decide) (by decide) (by decide) (by decide)

/-! ## C15: an alignment that is not a power of two -/

/-- C15: for every non-zero alignment that is not a power of two and every
size, `nano_memalign` returns null in the state it was called in (`errno`, the
free list and the break are untouched); but the alignment 0, which is not a
power of two either, passes the test `(align & (align-1)) != 0`: from the empty
initial state of the 16-bit target `nano_memalign(0, 16)` returns a non-null
pointer and has moved the break. -/
theorem C15_invalid_alignment :
    (∀ (T : Target) (fuel : Nat) (st : State) (a s : Nat), 0 < a → a < SIZE_MOD T →
      (∀ j, a ≠ 2 ^ j) → nano_memalign T fuel st a s = .ok (st, 0)) ∧
    (nano_memalign .ia16 4 (init_state 4096 60000) 0 16).ptr ≠ 0 ∧
    ((nano_memalign .ia16 4 (init_state 4096 60000) 0 16).state (init_state 4096 60000)).brk
      ≠ (init_state 4096 60000).brk :=
  ⟨fun T fuel st a s ha0 ha hnp => memalign_not_pow_two T fuel st a s ha0 ha hnp,
    by decide!, by decide!⟩

/-- The alignment 24 is rejected on the 16-bit target. -/
theorem C15_invalid_alignment_witness :
    nano_memalign .ia16 4 (init_state 4096 60000) 24 16 = .ok (init_state 4096 60000, 0) :=
  C15_invalid_alignment.1 .ia16 4 (init_state 4096 60000) 24 16 (by decide) (by decide) (by
    intro j hj
    have h1 : j < 5 := by
      by_contra hcon
      have : 2 ^ 5 ≤ 2 ^ j := Nat.pow_le_pow_right (by decide) (by omega)
      omega
    interval_cases j <;> omega)

/-! ## C16: the request-size limit -/

/-- C16: with `need_exact(s)` the request size in unbounded integers, for every
request size `s` of type `size_t`: when `need_exact(s) ≥ 0x80000000` or
`need_exact(s)` exceeds `SIZE_MAX`, `nano_malloc(s)` returns null at once in
the state it was called in with `errno = ENOMEM` only changed (whatever the
memory and the free list hold, and with no fuel for a list walk, so the free
list is not read and the region source is not called); conversely, when
`need_exact(s) < 0x80000000` and it does not exceed `SIZE_MAX`, the machine
computation yields `need_exact(s)` and the check does not reject the
request. -/
theorem C16_request_size_limit (T : Target) (s : Nat) (hs : s < SIZE_MOD T) :
    ((need_exact T s ≥ MAX_ALLOC_SIZE ∨ need_exact T s > SIZE_MOD T - 1) →
      ∀ fuel st, nano_malloc T fuel st s = .ok ({ st with errno := ENOMEM }, 0)) ∧
    ((need_exact T s < MAX_ALLOC_SIZE ∧ need_exact T s ≤ SIZE_MOD T - 1) →
      request_size T s = need_exact T s ∧
      ¬ (request_size T s ≥ MAX_ALLOC_SIZE ∨ request_size T s < s)) := by
  have hal := align_to_chunk T s
  have key : (need_exact T s ≥ MAX_ALLOC_SIZE ∨ need_exact T s > SIZE_MOD T - 1) ↔
      (request_size T s ≥ MAX_ALLOC_SIZE ∨ request_size T s < s) := by
    unfold need_exact align_up request_size sadd MAX
    generalize ALIGN_TO T s (CHUNK_ALIGN T) = a at *
    rcases T with _ | _ | _ <;> simp only [consts] at * <;> split_ifs <;> omega
  have heq : (need_exact T s < MAX_ALLOC_SIZE ∧ need_exact T s ≤ SIZE_MOD T - 1) →
      request_size T s = need_exact T s := by
    unfold need_exact align_up request_size sadd MAX
    generalize ALIGN_TO T s (CHUNK_ALIGN T) = a at *
    rcases T with _ | _ | _ <;> simp only [consts] at * <;> split_ifs <;> omega
  constructor
  · intro h fuel st
    have hc := key.1 h
    unfold nano_malloc
    simp only [hc, if_true]
  · intro h
    refine ⟨heq h, fun hc => ?_⟩
    have := key.2 hc
    omega

theorem C16_request_size_limit_witness :
    ((need_exact .ilp32 4294967290 ≥ MAX_ALLOC_SIZE ∨
        need_exact .ilp32 4294967290 > SIZE_MOD .ilp32 - 1) →
      ∀ fuel st, nano_malloc .ilp32 fuel st 4294967290 = .ok ({ st with errno := ENOMEM }, 0)) ∧
    ((need_exact .ilp32 4294967290 < MAX_ALLOC_SIZE ∧
        need_exact .ilp32 4294967290 ≤ SIZE_MOD .ilp32 - 1) →
      request_size .ilp32 4294967290 = need_exact .ilp32 4294967290 ∧
      ¬ (request_size .ilp32 4294967290 ≥ MAX_ALLOC_SIZE ∨
        request_size .ilp32 4294967290 < 4294967290)) :=
  C16_request_size_limit .ilp32 4294967290 (by decide)

/-! ## C17: a failed nano_malloc changes nothing -/

/-- C17: in every state whose free list satisfies the invariants, for every
`s`, `nano_malloc(s)` returns, and whenever it returns null (the size check
failed, or the region source failed on the growth call or on the
alignment-correction call) `errno` is `ENOMEM` and the data structures are
unchanged: every heap byte and the head of the free list are the same, so the
free list holds the same nodes with the same sizes and links. -/
theorem C17_malloc_failure_atomic (T : Target) (st : State) (l : List Node) (s fuel : Nat)
    (henv : Env T st) (hwf : WF T st l) (hs : s < SIZE_MOD T) (hfuel : l.length < fuel) :
    ∃ st1 u, nano_malloc T fuel st s = .ok (st1, u) ∧
      (u = 0 → st1.errno = ENOMEM ∧ st1.mem = st.mem ∧ st1.free_list = st.free_list ∧
        Repr T st1.mem st1.free_list l) := by
  obtain ⟨st1, u, h1, h2⟩ :=
    nano_malloc_null T st l s fuel henv hwf.repr (nodesOK_of_wf T st l hwf) hs hfuel
  refine ⟨st1, u, h1, fun hu => ?_⟩
  rcases h2 hu with h | ⟨b1, h, _, _⟩
  · subst h
    exact ⟨rfl, rfl, rfl, hwf.repr⟩
  · subst h
    exact ⟨rfl, rfl, rfl, hwf.repr⟩

theorem C17_malloc_failure_atomic_witness :
    ∃ st1 u, nano_malloc .lp64 4 heap64 70000 = .ok (st1, u) ∧
      (u = 0 → st1.errno = ENOMEM ∧ st1.mem = heap64.mem ∧
        st1.free_list = heap64.free_list ∧ Repr .lp64 st1.mem st1.free_list [(4096, 16)]) :=
  C17_malloc_failure_atomic .lp64 heap64 [(4096, 16)] 70000 4
    ⟨by decide, by decide, by decide, by decide⟩
    ⟨by decide!, by simp, by simp, by decide, by decide⟩ (by decide) (by decide)

/-! ## C18: nano_calloc and a product that overflows -/

/-- C18: for every `n` and `elem` whose exact product exceeds `SIZE_MAX`,
`nano_calloc(n, elem)` returns null in the state it was called in with
`errno = ENOMEM` only changed (the free list, the break and every heap byte
are the same); this holds whatever the state and with no fuel for a list walk,
so `nano_malloc` is not called. -/
theorem C18_calloc_overflow (T : Target) (fuel : Nat) (st : State) (n elem : Nat)
    (h : n * elem > SIZE_MOD T - 1) :
    nano_calloc T fuel st n elem = .ok ({ st with errno := ENOMEM }, 0) := by
  have hge : n * elem ≥ SIZE_MOD T := by omega
  unfold nano_calloc
  rw [if_pos hge]

/-- The call `nano_calloc(SIZE_MAX, 2)` on the 16-bit target. -/
theorem C18_calloc_overflow_witness :
    nano_calloc .ia16 0 (init_state 4096 60000) 65535 2 =
      .ok ({ init_state 4096 60000 with errno := ENOMEM }, 0) :=
  C18_calloc_overflow .ia16 0 (init_state 4096 60000) 65535 2 (by decide)

/-! ## C19: first fit with split -/

/-- C19: in every state whose free list satisfies the invariants (with
chunk-aligned nodes), for every `s` whose padded request size `need` passes the
size check, if some free node has a size of at least `need`, then
`nano_malloc(s)` returns a non-null pointer without moving the break, and the
chunk of that pointer is the first node `n` of the list with `n.size ≥ need`,
which is the lowest-addressed such node.  When `n.size - need ≥ MIN_CHUNK` the
chunk has the size `need` and `n` is replaced, at its position, by a node at
`n + need` of size `n.size - need`; otherwise the chunk keeps the size `n.size`
and `n` is removed.  The other nodes are unchanged. -/
theorem C19_first_fit_split (T : Target) (st : State) (l : List Node) (s fuel : Nat)
    (henv : Env T st) (hwf : WF T st l) (hal : NodesAligned T l) (hs : s < SIZE_MOD T)
    (hchk : ¬ (request_size T s ≥ MAX_ALLOC_SIZE ∨ request_size T s < s))
    (hfit : ∃ k ∈ l, request_size T s ≤ k.2) (hfuel : l.length < fuel) :
    ∃ st1 u pre n post, nano_malloc T fuel st s = .ok (st1, u) ∧ u ≠ 0 ∧ st1.brk = st.brk ∧
      l = pre ++ n :: post ∧ (∀ k ∈ pre, k.2 < request_size T s) ∧ request_size T s ≤ n.2 ∧
      (∀ k ∈ l, request_size T s ≤ k.2 → n.1 ≤ k.1) ∧
      get_chunk_from_ptr T st1.mem u = n.1 ∧
      (n.2 - request_size T s ≥ MALLOC_MINCHUNK T →
        chunk_size T st1.mem n.1 = request_size T s ∧
        WF T st1 (pre ++ (n.1 + request_size T s, n.2 - request_size T s) :: post)) ∧
      (n.2 - request_size T s < MALLOC_MINCHUNK T →
        chunk_size T st1.mem n.1 = n.2 ∧ WF T st1 (pre ++ post)) := by
  have hn := nodesOK_of_wf T st l hwf
  obtain ⟨st1, u, h1, h2⟩ := nano_malloc_live T st l s fuel henv hwf.repr hn hal hs hfuel
  obtain ⟨st1', p, g1, g2, g3, _⟩ :=
    nano_malloc_fits T st l s fuel henv hwf.repr hn hal hs hchk hfit hfuel
  have hinj : st1' = st1 ∧ p = u := by
    rw [h1] at g1
    simp only [Outcome.ok.injEq, Prod.mk.injEq] at g1
    exact ⟨g1.1.symm, g1.2.symm⟩
  obtain ⟨rfl, rfl⟩ := hinj
  obtain ⟨l1, c, sz, _, _, hrepr1, hn1, _, henv1, _, hstep, hlive, hcs, _⟩ := h2 g2
  obtain ⟨hg, _, _, _⟩ := live_ptr_chunk T st1' l1 c p henv1 hlive
  obtain ⟨k, hk, hk2⟩ := hfit
  rcases hstep with ⟨pre, n, post, hl, hpre, hfitn, hc, hsz, hl1, _, _⟩ | ⟨hall, _⟩ | ⟨hall, _⟩
  · refine ⟨st1', p, pre, n, post, h1, g2, g3, hl, hpre, hfitn, ?_, by rw [hg, hc], ?_, ?_⟩
    · intro k1 hk1 hk12
      rw [hl] at hk1
      rcases List.mem_append.1 hk1 with h | h
      · have := hpre k1 h
        omega
      · rcases List.mem_cons.1 h with h | h
        · rw [h]
        · have hp := hwf.F1
          rw [hl] at hp
          have := (List.pairwise_cons.1 (List.pairwise_append.1 hp).2.1).1 k1 h
          omega
    · intro hrem
      have e1 : claimed_size T (request_size T s) n = request_size T s := by
        unfold claimed_size
        rw [if_pos hrem]
      have e2 : split_node T (request_size T s) n =
          [(n.1 + request_size T s, n.2 - request_size T s)] := by
        unfold split_node
        rw [if_pos hrem]
      rw [e1] at hsz
      rw [e2] at hl1
      refine ⟨by rw [← hc, hcs, hsz], ?_⟩
      have : l1 = pre ++ (n.1 + request_size T s, n.2 - request_size T s) :: post := by
        rw [hl1]; simp
      rw [← this]
      exact wf_of_nodesOK T st1' l1 hrepr1 hn1
    · intro hrem
      have hrem2 : ¬ (n.2 - request_size T s ≥ MALLOC_MINCHUNK T) := by omega
      have e1 : claimed_size T (request_size T s) n = n.2 := by
        unfold claimed_size
        rw [if_neg hrem2]
      have e2 : split_node T (request_size T s) n = [] := by
        unfold split_node
        rw [if_neg hrem2]
      rw [e1] at hsz
      rw [e2] at hl1
      refine ⟨by rw [← hc, hcs, hsz], ?_⟩
      have : l1 = pre ++ post := by
        rw [hl1]; simp
      rw [← this]
      exact wf_of_nodesOK T st1' l1 hrepr1 hn1
  · have := hall k hk
    omega
  · have := hall k hk
    omega

theorem C19_first_fit_split_witness :
    ∃ st1 u pre n post, nano_malloc .lp64 4 heap64 1 = .ok (st1, u) ∧ u ≠ 0 ∧
      st1.brk = heap64.brk ∧
      [((4096, 16) : Node)] = pre ++ n :: post ∧ (∀ k ∈ pre, k.2 < request_size .lp64 1) ∧
      request_size .lp64 1 ≤ n.2 ∧
      (∀ k ∈ [((4096, 16) : Node)], request_size .lp64 1 ≤ k.2 → n.1 ≤ k.1) ∧
      get_chunk_from_ptr .lp64 st1.mem u = n.1 ∧
      (n.2 - request_size .lp64 1 ≥ MALLOC_MINCHUNK .lp64 →
        chunk_size .lp64 st1.mem n.1 = request_size .lp64 1 ∧
        WF .lp64 st1 (pre ++ (n.1 + request_size .lp64 1, n.2 - request_size .lp64 1) :: post)) ∧
      (n.2 - request_size .lp64 1 < MALLOC_MINCHUNK .lp64 →
        chunk_size .lp64 st1.mem n.1 = n.2 ∧ WF .lp64 st1 (pre ++ post)) :=
  C19_first_fit_split .lp64 heap64 [(4096, 16)] 1 4
    ⟨by decide, by decide, by decide, by decide⟩
    ⟨by decide!, by simp, by simp, by decide, by decide⟩
    (by unfold NodesAligned; decide) (by decide) (by decide) (by decide) (by decide)

/-! ## C20: growing the region -/

/-- C20: in every state whose free list satisfies the invariants (with
chunk-aligned nodes) in which no free node has a size of at least the padded
request size `need`, when `need` passes the size check and the region source
succeeds, that is, some chunk-aligned address at or after the break leaves room
below the limit of the region source for the bytes asked for (`need` less the
size of the last free node when it ends at the break), `nano_malloc(s)` returns
a non-null pointer `u`: if the last free node `t` ends at the break, the break
advances by exactly `need - t.size` to `t + need`, `u` is the user pointer of
the chunk at `t`, which has the size `need`, and `t` and only `t` has left the
free list; otherwise (the list is empty or its last node does not end at the
break) `u` is the user pointer of a chunk of size `need` at the previous break
rounded up to `CHUNK_ALIGN`, the break is the end of that chunk and the free list
is unchanged. -/
theorem C20_tail_growth (T : Target) (st : State) (l : List Node) (s fuel : Nat)
    (henv : Env T st) (hwf : WF T st l) (hal : NodesAligned T l) (hs : s < SIZE_MOD T)
    (hchk : ¬ (request_size T s ≥ MAX_ALLOC_SIZE ∨ request_size T s < s))
    (hno : ∀ k ∈ l, k.2 < request_size T s)
    (hroom : ∃ c, st.brk ≤ c ∧ c % CHUNK_ALIGN T = 0 ∧
      c + (request_size T s - tail_adjust st.brk l) ≤ st.heap_end)
    (hfuel : l.length < fuel) :
    ∃ st1 u, nano_malloc T fuel st s = .ok (st1, u) ∧ u ≠ 0 ∧
        (∀ l0 t, l = l0 ++ [t] → t.1 + t.2 = st.brk →
          get_chunk_from_ptr T st1.mem u = t.1 ∧
          chunk_size T st1.mem t.1 = request_size T s ∧ WF T st1 l0 ∧
          st1.brk = t.1 + request_size T s ∧
          st1.brk = st.brk + (request_size T s - t.2)) ∧
        ((∀ t ∈ l.getLast?, t.1 + t.2 ≠ st.brk) →
          ∃ c, get_chunk_from_ptr T st1.mem u = c ∧ st.brk ≤ c ∧ c < st.brk + CHUNK_ALIGN T ∧
            c % CHUNK_ALIGN T = 0 ∧ chunk_size T st1.mem c = request_size T s ∧
            WF T st1 l ∧ st1.brk = c + request_size T s) := by
  have hn := nodesOK_of_wf T st l hwf
  obtain ⟨st1, u, h1, h2⟩ := nano_malloc_live T st l s fuel henv hwf.repr hn hal hs hfuel
  obtain ⟨st1', p, g1, hu⟩ :=
    nano_malloc_room T st l s fuel henv hwf.repr hn hal hs hchk hroom hfuel
  have hinj : st1' = st1 ∧ p = u := by
    rw [h1] at g1
    simp only [Outcome.ok.injEq, Prod.mk.injEq] at g1
    exact ⟨g1.1.symm, g1.2.symm⟩
  obtain ⟨rfl, rfl⟩ := hinj
  refine ⟨st1', p, h1, hu, ?_⟩
  obtain ⟨l1, c, sz, _, _, hrepr1, hn1, _, henv1, _, hstep, hlive, hcs, _⟩ := h2 hu
  obtain ⟨hg, _, _, _⟩ := live_ptr_chunk T st1' l1 c p henv1 hlive
  have hca := hlive.chunk.aligned
  have hwf1 := wf_of_nodesOK T st1' l1 hrepr1 hn1
  rcases hstep with ⟨pre, n, post, hl, _, hfitn, _⟩ |
    ⟨_, a, hl, hfl, hc, hsz, hb1, hb2, hb3, _⟩ | ⟨_, hnf, hl1, hc1, hc2, hc3, hsz, hb, _⟩
  · have := hno n (by rw [hl]; simp)
    omega
  · constructor
    · intro l0 t hlt hflush
      rw [hl] at hlt
      obtain ⟨e1, e2⟩ := List.append_inj' hlt rfl
      have e3 : a = t := by simpa using e2
      subst e1 e3
      have hlt2 := hno a (by rw [hl]; simp)
      have hbrk := hb3 hca
      rw [hc] at hbrk hg hcs
      refine ⟨hg, by rw [hcs, hsz], hwf1, hbrk, ?_⟩
      omega
    · intro hnf
      have := hnf a (by rw [hl]; simp)
      exact absurd hfl this
  · constructor
    · intro l0 t hlt hflush
      have := hnf t (by rw [hlt]; simp)
      exact absurd hflush this
    · intro _
      subst hl1
      exact ⟨c, hg, hc1, hc2, hc3, by rw [hcs, hsz], hwf1, hb⟩

/-- The theorem of C20 on the 64-bit target for a request of 100 bytes, whose
padded size is 112.  In the heap `heap_tail`, whose only free node, of 40 bytes
at 4120, ends at the break 4160, the break advances by 72 to 4232, the chunk is
the one at 4120 with the size 112, and the free list is left empty.  In the heap
`heap64`, whose only free node ends at 4112, below the break 4160, the chunk of
112 bytes is carved at the break and the free list is unchanged. -/
theorem C20_tail_growth_witness :
    (∃ st1 u, nano_malloc .lp64 4 heap_tail 100 = .ok (st1, u) ∧ u ≠ 0 ∧
      get_chunk_from_ptr .lp64 st1.mem u = 4120 ∧ chunk_size .lp64 st1.mem 4120 = 112 ∧
      WF .lp64 st1 [] ∧ st1.brk = 4120 + 112 ∧ st1.brk = heap_tail.brk + (112 - 40)) ∧
    (∃ st1 u, nano_malloc .lp64 4 heap64 100 = .ok (st1, u) ∧ u ≠ 0 ∧
      ∃ c, get_chunk_from_ptr .lp64 st1.mem u = c ∧ heap64.brk ≤ c ∧
        c < heap64.brk + CHUNK_ALIGN .lp64 ∧ c % CHUNK_ALIGN .lp64 = 0 ∧
        chunk_size .lp64 st1.mem c = 112 ∧ WF .lp64 st1 [(4096, 16)] ∧
        st1.brk = c + 112) := by
  have e : request_size .lp64 100 = 112 := by decide!
  constructor
  · obtain ⟨st1, u, h1, h2, h3, _⟩ :=
      C20_tail_growth .lp64 heap_tail [(4120, 40)] 100 4
        ⟨by decide, by decide, by decide, by decide⟩
        ⟨by decide!, by simp, by simp, by decide, by decide⟩
        (by unfold NodesAligned; decide) (by decide) (by decide!) (by decide!)
        ⟨4160, by decide, by decide, by decide!⟩ (by decide)
    have h4 := h3 [] (4120, 40) rfl (by decide)
    rw [e] at h4
    exact ⟨st1, u, h1, h2, h4⟩
  · obtain ⟨st1, u, h1, h2, _, h3⟩ :=
      C20_tail_growth .lp64 heap64 [(4096, 16)] 100 4
        ⟨by decide, by decide, by decide, by decide⟩
        ⟨by decide!, by simp, by simp, by decide, by decide⟩
        (by unfold NodesAligned; decide) (by decide) (by decide!) (by decide!)
        ⟨4160, by decide, by decide, by decide!⟩ (by decide)
    have h4 := h3 (by decide)
    rw [e] at h4
    exact ⟨st1, u, h1, h2, h4⟩

/-! ## C21: exact round trip without growth -/

/-- C21: in every state whose free list `l` satisfies the invariants (with
chunk-aligned nodes), for every `s` such that some free node has a size of at
least the padded request size `need`, `u = nano_malloc(s)` returns,
`nano_free(u)` returns, and the free list is `l` again: the same node addresses
with the same sizes, in the same order, and the invariants hold; the break has
not moved.  When `need` passes the size check, `u` is not null and the request is
served from the free list, whether the chosen node is split or unlinked whole and
wherever it stands in the list; when it does not, `u` is null and nothing is
changed. -/
theorem C21_exact_round_trip (T : Target) (st : State) (l : List Node) (s fuel : Nat)
    (henv : Env T st) (hwf : WF T st l) (hal : NodesAligned T l) (hs : s < SIZE_MOD T)
    (hfit : ∃ k ∈ l, request_size T s ≤ k.2) (hfuel : l.length < fuel) :
    ∃ st1 u st2, nano_malloc T fuel st s = .ok (st1, u) ∧
      nano_free T fuel st1 u = .ok st2 ∧ WF T st2 l ∧ st2.brk = st.brk ∧
      (¬ (request_size T s ≥ MAX_ALLOC_SIZE ∨ request_size T s < s) →
        u ≠ 0 ∧ st1.brk = st.brk) := by
  have hn := nodesOK_of_wf T st l hwf
  by_cases hchk : request_size T s ≥ MAX_ALLOC_SIZE ∨ request_size T s < s
  · refine ⟨{ st with errno := ENOMEM }, 0, { st with errno := ENOMEM }, ?_, ?_, ?_, rfl,
      fun h => absurd hchk h⟩
    · unfold nano_malloc
      simp only [hchk, if_true]
    · unfold nano_free
      simp only [if_true]
    · exact ⟨hwf.repr, hwf.F1, hwf.F2, hwf.F3, hwf.F4⟩
  · have hp := request_size_props T s hs hchk
    have hm := minchunk_eq T
    obtain ⟨st1, u, h1, h2⟩ := nano_malloc_live T st l s fuel henv hwf.repr hn hal hs hfuel
    obtain ⟨st1', p, g1, g2, g3, _⟩ :=
      nano_malloc_fits T st l s fuel henv hwf.repr hn hal hs hchk hfit hfuel
    have hinj : st1' = st1 ∧ p = u := by
      rw [h1] at g1
      simp only [Outcome.ok.injEq, Prod.mk.injEq] at g1
      exact ⟨g1.1.symm, g1.2.symm⟩
    obtain ⟨rfl, rfl⟩ := hinj
    obtain ⟨l1, c, sz, _, _, hrepr1, hn1, _, henv1, _, hstep, hlive, hcs, _⟩ := h2 g2
    have hlen := malloc_step_length T st l _ st1' l1 c sz hstep
    obtain ⟨m2, f2, a1, a2, a3, _⟩ :=
      nano_free_live T st1' l1 c p fuel henv1 hrepr1 hn1 hlive (by omega)
    rw [hcs] at a2 a3
    obtain ⟨k, hk, hk2⟩ := hfit
    rcases hstep with ⟨pre, n, post, hl, _, hfitn, hc, hsz, hl1, _, _⟩ | ⟨hall, _⟩ | ⟨hall, _⟩
    · have hback : insert_free c sz l1 = l := by
        rw [hc, hsz, hl1, hl]
        rw [hl] at hn
        exact insert_free_claimed T _ n post (by omega) hfitn pre _ _ hn
      rw [hback] at a2 a3
      exact ⟨st1', p, _, h1, a1, wf_of_nodesOK T _ l a2 a3, g3, fun _ => ⟨g2, g3⟩⟩
    · have := hall k hk
      omega
    · have := hall k hk
      omega

/-- The theorem of C21 in the example heap of the 64-bit target, whose only free
node, of 16 bytes at 4096, serves a request of one byte. -/
theorem C21_exact_round_trip_witness :
    ∃ st1 u st2, nano_malloc .lp64 4 heap64 1 = .ok (st1, u) ∧
      nano_free .lp64 4 st1 u = .ok st2 ∧ WF .lp64 st2 [(4096, 16)] ∧ st2.brk = heap64.brk ∧
      (¬ (request_size .lp64 1 ≥ MAX_ALLOC_SIZE ∨ request_size .lp64 1 < 1) →
        u ≠ 0 ∧ st1.brk = heap64.brk) :=
  C21_exact_round_trip .lp64 heap64 [(4096, 16)] 1 4
    ⟨by decide, by decide, by decide, by decide⟩
    ⟨by decide!, by simp, by simp, by decide, by decide⟩
    (by unfold NodesAligned; decide) (by decide) ⟨(4096, 16), by simp, by decide⟩ (by decide)

end NanoMalloc
